import Mathlib

/-!
Antares (Havannah engine): search constants, engine moves, front-end commands

A shallow embedding of parts of `src/engine.cc`, `src/engine.h` and
`src/antares.cc`.  Machine integers are `Nat`/`Int` with explicit wrap-around
where the source relies on it.  `havannah.h` (cells, players, `Position`,
`PositionEvaluation`) is not part of the sources at hand; what is needed of it
is either a parameter or a definition marked `Modelled from the spec:`.
-/

namespace Antares

/-! ## Search constants (`engine.cc`, anonymous namespace) -/

/-- Source text: `const int kPotentialScale = 100;` -/
def kPotentialScale : Int := 100

/-- Source text: `const int kWon = -101;` -/
def kWon : Int := -101

/-- Source text: `const int kLost = +10000;` -/
def kLost : Int := 10000

/-- Source text: `const int kInfinity = 2 * kLost;` -/
def kInfinity : Int := 2 * kLost

/-- Number of values of the 64-bit type `uint64` / `Hash`. -/
def kHashModulus : Nat := 2 ^ 64

/-- A `Hash` is a `uint64`; the embedding keeps it as a natural number below
`kHashModulus`. -/
abbrev Hash := Nat

/-- Source text: `const uint64 kAttackerPassHash = -0xdeadbeefdeadbeefULL;` : unary minus on
an unsigned 64-bit literal is negation modulo `2^64`. -/
def kAttackerPassHash : Hash := (kHashModulus - 0xdeadbeefdeadbeef) % kHashModulus

/-- Source text: `const uint64 kDefenderPassHash = +0xdeadbeefdeadbeefULL;` -/
def kDefenderPassHash : Hash := 0xdeadbeefdeadbeef

/-- Hash handed to `Defend` for the pass child in `Searcher::Attack`:
`hash + kAttackerPassHash` in `uint64` arithmetic. -/
def attackerPassChild (hash : Hash) : Hash := (hash + kAttackerPassHash) % kHashModulus

/-- Hash handed to `Attack` for the pass child in `Searcher::Defend`:
`hash + kDefenderPassHash` in `uint64` arithmetic. -/
def defenderPassChild (hash : Hash) : Hash := (hash + kDefenderPassHash) % kHashModulus

/-! ## Board primitives of `havannah.h` -/

/-- Modelled from the spec: the type `Player` of `havannah.h`, which is absent;
the spec gives `{White, Black}`. -/
inductive Player where
  | kWhite : Player
  | kBlack : Player
deriving DecidableEq, Repr

/-- Modelled from the spec: `Opponent(p)` of `havannah.h` (absent) toggles the
player. -/
def Opponent : Player → Player
  | Player.kWhite => Player.kBlack
  | Player.kBlack => Player.kWhite

/-- Modelled from the spec: `Cell` of `havannah.h` (absent) is an integer; real
cells are positive, the values `-1 .. -12` name edge and corner chains. -/
abbrev Cell := Int

/-- Modelled from the spec: `kZerothCell` of `havannah.h` (absent), the
distinguished "pass / no cell" value; `engine.cc` treats `cell >= kZerothCell`
as the real cells and `-1 .. -12` as virtual chains, which places it at `0`. -/
def kZerothCell : Cell := 0

/-- Modelled from the spec: `MoveIndex` of `havannah.h` (absent), a densely
packed index over the cells; an integer so that `kInvalidMove` may lie outside
the range of real indices. -/
abbrev MoveIndex := Int

/-- Modelled from the spec: `Position` of `havannah.h` (absent), reduced to its
stack of permanent moves, most recent first.  The winning-condition classifier
is a parameter of `MakePermanentMove`. -/
structure Position where
  moves : List (Player × Cell)
deriving DecidableEq, Repr

/-- Modelled from the spec: `Position::InitToStartPosition` (absent): no stone
has been played. -/
def Position.InitToStartPosition : Position := { moves := [] }

/-- Modelled from the spec: `Position::MoveCount` (absent): the number of
permanent moves made. -/
def Position.MoveCount (p : Position) : Nat := p.moves.length

/-- Modelled from the spec: `Position::CellIsEmpty` (absent): no permanent move
occupies the cell. -/
def Position.CellIsEmpty (p : Position) (cell : Cell) : Bool :=
  p.moves.all (fun m => decide (m.2 ≠ cell))

/-- Modelled from the spec: `Position::MakePermanentMove` (absent) pushes the
stone and returns the winning condition that the external classifier
`winning_condition` reports (`0` for none). -/
def Position.MakePermanentMove (winning_condition : Position → Player → Cell → Int)
    (p : Position) (player : Player) (cell : Cell) : Int × Position :=
  (winning_condition p player cell, { moves := (player, cell) :: p.moves })

/-- Modelled from the spec: `Position::UndoPermanentMove` (absent) pops the last
permanent move; `false` if there is none. -/
def Position.UndoPermanentMove (p : Position) : Bool × Position :=
  match p.moves with
  | [] => (false, p)
  | _ :: rest => (true, { moves := rest })

/-- Modelled from the spec: `Position::SwapPlayers` (absent) swaps the colours:
every stone changes owner and stays on its cell. -/
def Position.SwapPlayers (p : Position) : Position :=
  { moves := p.moves.map (fun m => (Opponent m.1, m.2)) }

/-- The parts of `havannah.cc` that `Engine::Move` calls and that stay
parameters: the cell-name reader `FromString` (it returns `kZerothCell` for a
text that names no board cell) and the winning-condition classifier behind
`MakePermanentMove`. -/
structure Externals where
  FromString : String → Cell
  winning_condition : Position → Player → Cell → Int

/-! ## `engine.h` / `engine.cc`: the engine -/

/-- Source text: `enum { kNoneWon, kWhiteWon, kDraw, kBlackWon }` of `engine.h`: first value. -/
def kNoneWon : Int := 0

/-- Source text: `enum { kNoneWon, kWhiteWon, kDraw, kBlackWon }` of `engine.h`: second value. -/
def kWhiteWon : Int := 1

/-- Source text: `enum { kNoneWon, kWhiteWon, kDraw, kBlackWon }` of `engine.h`: fourth value. -/
def kBlackWon : Int := 3

/-- The state of `class Engine` that moves touch: `position_` and
`has_swapped_`. -/
structure Engine where
  position_ : Position
  has_swapped_ : Bool
deriving DecidableEq, Repr

/-- What one call of `Engine::Move` yields: the returned `bool`, the value stored
through `result` (`none` when the call does not store), and the engine after. -/
structure MoveOutcome where
  returned : Bool
  written : Option Int
  engine : Engine
deriving DecidableEq, Repr

/-- Source text: `bool Engine::Undo()`: `return position_.UndoPermanentMove();`. -/
def Engine.Undo (e : Engine) : Bool × Engine :=
  let r := e.position_.UndoPermanentMove
  (r.1, { e with position_ := r.2 })

/-- Source text: `bool Engine::Move(Player player, const std::string& move_string,
int* result)`. -/
def Engine.Move (ext : Externals) (e : Engine) (player : Player)
    (move_string : String) : MoveOutcome :=
  if move_string = "pass" then
    { returned := true, written := some kNoneWon, engine := e }
  else if move_string = "swap" then
    { returned := true, written := some kNoneWon,
      engine := { position_ := e.position_.SwapPlayers, has_swapped_ := true } }
  else
    let cell := ext.FromString move_string
    if cell = kZerothCell then
      { returned := false, written := none, engine := e }
    else if !e.position_.CellIsEmpty cell then
      { returned := false, written := none, engine := e }
    else
      let made := e.position_.MakePermanentMove ext.winning_condition player cell
      let e1 : Engine := { e with position_ := made.2 }
      if made.1 ≠ 0 then
        { returned := true,
          written := some (if player = Player.kWhite then kWhiteWon else kBlackWon),
          engine := e1 }
      else
        { returned := true, written := some kNoneWon, engine := e1 }

/-! ## `antares.cc`: the command front-end -/

/-- Source text: `static const char kSuccess = '=';` -/
def kSuccess : Char := '='

/-- Source text: `static const char kFailure = '?';` -/
def kFailure : Char := '?'

/-- The state of `class Frontend` that `putstones` and `playgame` touch.  The
text sent to standard output is kept as the list of answers, each the indicator
character and the formatted message. -/
structure Frontend where
  engine_ : Engine
  result_ : Int
  command_succeeded_ : Bool
  player_ : Player
  answers : List (Char × String)
deriving DecidableEq, Repr

/-- Source text: `void Frontend::Answer(char indicator, const char* format, ...)`, with
`StartAnswer` inlined: records the success flag and emits the message. -/
def Frontend.Answer (fe : Frontend) (indicator : Char) (message : String) : Frontend :=
  { fe with command_succeeded_ := decide (indicator = kSuccess),
            answers := fe.answers ++ [(indicator, message)] }

/-- Source text: `bool GetColor(const char* s, Player* color)`. -/
def GetColor (s : String) : Option Player :=
  if s = "w" ∨ s = "white" then some Player.kWhite
  else if s = "b" ∨ s = "black" then some Player.kBlack
  else none

/-- The roll-back loop `for (/**/; i > 0; --i) { engine_->Undo(); }` shared by
`PutStones` and `PlayGame`. -/
def UndoTimes : Nat → Engine → Engine
  | 0, e => e
  | i + 1, e => UndoTimes i (e.Undo).2

/-- The `for` loop of `Frontend::PutStones`, entered with the arguments from
`args[i]` on still to be played. -/
def PutStonesLoop (ext : Externals) (player : Player) :
    List String → Nat → Frontend → Frontend
  | [], _, fe => fe.Answer kSuccess ""
  | arg :: rest, i, fe =>
    let r := fe.engine_.Move ext player arg
    if !r.returned then
      let fe1 := ({ fe with engine_ := r.engine }).Answer kFailure ("invalid move " ++ arg)
      { fe1 with engine_ := UndoTimes i fe1.engine_ }
    else
      PutStonesLoop ext player rest (i + 1) { fe with engine_ := r.engine }

/-- Source text: `void Frontend::PutStones(const std::vector<char*>& args)`. -/
def Frontend.PutStones (ext : Externals) (fe : Frontend) (args : List String) : Frontend :=
  if args.length ≤ 1 then
    fe.Answer kFailure "expected at least one argument to putstones"
  else
    match GetColor (args.headD "") with
    | none => fe.Answer kFailure ("invalid color " ++ args.headD "")
    | some player => PutStonesLoop ext player (args.drop 1) 1 fe

/-- The `for` loop of `Frontend::PlayGame`, entered with the arguments from
`args[i]` on still to be played. -/
def PlayGameLoop (ext : Externals) (player_copy : Player) :
    List String → Nat → Frontend → Frontend
  | [], _, fe => fe.Answer kSuccess ""
  | arg :: rest, i, fe =>
    let r := fe.engine_.Move ext fe.player_ arg
    if !r.returned then
      let fe1 := ({ fe with engine_ := r.engine }).Answer kFailure ("invalid move " ++ arg)
      { fe1 with engine_ := UndoTimes i fe1.engine_, player_ := player_copy }
    else
      PlayGameLoop ext player_copy rest (i + 1)
        { fe with engine_ := r.engine, player_ := Opponent fe.player_ }

/-- Source text: `void Frontend::PlayGame(const std::vector<char*>& args)`. -/
def Frontend.PlayGame (ext : Externals) (fe : Frontend) (args : List String) : Frontend :=
  PlayGameLoop ext fe.player_ args 0 fe

/-- An instance of the external parts for evaluating concrete command lines:
three cell names are known, every other text names no cell, and no move wins. -/
def sampleExternals : Externals where
  FromString := fun s =>
    if s = "a1" then 1 else if s = "b2" then 2 else if s = "c3" then 3 else kZerothCell
  winning_condition := fun _ _ _ => 0

/-- A front-end whose engine holds one permanent move, a white stone on cell `1`,
with Black to move. -/
def oneStoneFrontend : Frontend where
  engine_ := { position_ := { moves := [(Player.kWhite, 1)] }, has_swapped_ := false }
  result_ := kNoneWon
  command_succeeded_ := true
  player_ := Player.kBlack
  answers := []

/-! ## `engine.cc`: the final loop of `Engine::SuggestMove` -/

/-- Modelled from the spec: `PositionEvaluation` of `havannah.h` (absent), a
dense map from `MoveIndex` to `int`; `get(m)` is application. -/
abbrev PositionEvaluation := MoveIndex → Int

/-- The value of a C `int` computation: the mathematical result reduced to the
32-bit two's-complement range. -/
def toInt32 (x : Int) : Int := (x + 2 ^ 31) % 2 ^ 32 - 2 ^ 31

/-- One pass through the body of the final loop of `Engine::SuggestMove`:
`value = defend_evaluation.get(move) - attack_evaluation.get(move)`, and the
pair `(best_value, best_move)` is replaced when `value > best_value`. -/
def SuggestMoveStep (defend_evaluation attack_evaluation : PositionEvaluation)
    (best : Int × MoveIndex) (i : Nat) : Int × MoveIndex :=
  let move : MoveIndex := (i : Int)
  let value := toInt32 (defend_evaluation move - attack_evaluation move)
  if value > best.1 then (value, move) else best

/-- The final loop of `Engine::SuggestMove`: `best_value = -kInfinity`,
`best_move = kInvalidMove`, then `move` runs from `kZerothMove` (index `0`) by
`NextMove` (the next index) while `move < position_.NumAvailableMoves()`.  It
yields `(best_value, best_move)`; `kInvalidMove` and the number of available
moves are parameters. -/
def SuggestMoveLoop (kInvalidMove : MoveIndex) (NumAvailableMoves : Nat)
    (defend_evaluation attack_evaluation : PositionEvaluation) : Int × MoveIndex :=
  (List.range NumAvailableMoves).foldl
    (SuggestMoveStep defend_evaluation attack_evaluation) (-kInfinity, kInvalidMove)

/-- The score the spec gives a move: `defend_eval.get(m) - attack_eval.get(m)`,
as a mathematical difference. -/
def moveScore (defend_evaluation attack_evaluation : PositionEvaluation) (m : Nat) : Int :=
  defend_evaluation (m : Int) - attack_evaluation (m : Int)

/-- The range of a published root evaluation: `FillEvaluation` stores `kLost` or
the 16-bit `value` field of a `CellEval`. -/
def IsPublished (evaluation : PositionEvaluation) : Prop :=
  ∀ m : MoveIndex, -32768 ≤ evaluation m ∧ evaluation m ≤ 32767

/-! ## `engine.cc`: `EvaluateForkFrames` -/

/-- Modelled from the spec: `PositionEvaluation::SetToMinimum(A, B)` of
`havannah.h` (absent), the cellwise minimum. -/
def SetToMinimum (a b : PositionEvaluation) : PositionEvaluation :=
  fun m => min (a m) (b m)

/-- Modelled from the spec: `PositionEvaluation::SetToSum(A, B)` of `havannah.h`
(absent), the cellwise sum saturated at `kMaxDistance`; `BfsResult::kMaxDistance`
is a parameter. -/
def SetToSum (kMaxDistance : Int) (a b : PositionEvaluation) : PositionEvaluation :=
  fun m => min (a m + b m) kMaxDistance

/-- The statements of the body of the chain loop of `EvaluateForkFrames` between
the declaration of `tmp1`, `tmp2`, `tmp3` and the last `tmp3.SetToMinimum`, in
source order; the result is the final `tmp3`.  `from_outside j` is
`from_outside[j]`. -/
def ForkFramesCombine (kMaxDistance : Int) (from_outside : Nat → PositionEvaluation) :
    PositionEvaluation :=
  let tmp1 := SetToMinimum (from_outside 0) (from_outside 1)
  let tmp2 := SetToMinimum (from_outside 2) (from_outside 3)
  let tmp1 := SetToSum kMaxDistance tmp1 tmp2
  let tmp2 := SetToMinimum (from_outside 5) (from_outside 4)
  let tmp3 := SetToSum kMaxDistance tmp1 tmp2
  let tmp1 := SetToMinimum (from_outside 0) (from_outside 4)
  let tmp2 := SetToMinimum (from_outside 2) (from_outside 1)
  let tmp1 := SetToSum kMaxDistance tmp1 tmp2
  let tmp2 := SetToMinimum (from_outside 5) (from_outside 3)
  let tmp1 := SetToSum kMaxDistance tmp1 tmp2
  let tmp3 := SetToMinimum tmp3 tmp1
  let tmp1 := SetToMinimum (from_outside 0) (from_outside 3)
  let tmp2 := SetToMinimum (from_outside 2) (from_outside 4)
  let tmp1 := SetToSum kMaxDistance tmp1 tmp2
  let tmp2 := SetToMinimum (from_outside 5) (from_outside 1)
  let tmp1 := SetToSum kMaxDistance tmp1 tmp2
  let tmp3 := SetToMinimum tmp3 tmp1
  tmp3

/-- The chain loop of `EvaluateForkFrames` as a function of the chains still to
visit: each chain refines `evaluation` by `SetToMinimum` with its `tmp3`.
`from_outside chain j` stands for the map that `SetToCombination(from_center,
from_edge[j], chain, edge_chain j)` leaves in `from_outside[j]`. -/
def EvaluateForkFramesLoop {Chain : Type} (kMaxDistance : Int)
    (from_outside : Chain → Nat → PositionEvaluation) :
    List Chain → PositionEvaluation → PositionEvaluation
  | [], evaluation => evaluation
  | chain :: rest, evaluation =>
    EvaluateForkFramesLoop kMaxDistance from_outside rest
      (SetToMinimum evaluation (ForkFramesCombine kMaxDistance (from_outside chain)))

/-- Source text: `void EvaluateForkFrames(const PlayerPosition& pp, const
PlayerPosition& op, PositionEvaluation* evaluation)`: nothing happens when the
player has no chain, otherwise the chain loop runs over `current_chains`. -/
def EvaluateForkFrames {Chain : Type} (kMaxDistance : Int)
    (current_chains : List Chain) (from_outside : Chain → Nat → PositionEvaluation)
    (evaluation : PositionEvaluation) : PositionEvaluation :=
  if current_chains.isEmpty then evaluation
  else EvaluateForkFramesLoop kMaxDistance from_outside current_chains evaluation

/-! ### The fork combination in the words of the spec -/

/-- A partition of the six edges into three pairs. -/
abbrev EdgePartition := (Nat × Nat) × (Nat × Nat) × (Nat × Nat)

/-- The three partitions named by the spec:
`{(0,1),(2,3),(4,5)}`, `{(0,4),(2,1),(5,3)}`, `{(0,3),(2,4),(5,1)}`. -/
def forkPartitions : List EdgePartition :=
  [((0, 1), (2, 3), (4, 5)), ((0, 4), (2, 1), (5, 3)), ((0, 3), (2, 4), (5, 1))]

/-- The saturated sum of the spec on plain values: addition that stops at
`kMaxDistance`. -/
def saturatedAdd (kMaxDistance a b : Int) : Int := min (a + b) kMaxDistance

/-- The spec's `part` for one partition `{(a,b),(c,d),(e,f)}`:
`min(out[a],out[b]) + min(out[c],out[d]) + min(out[e],out[f])`, each `+` the
saturated sum, read from left to right. -/
def partitionValue (kMaxDistance : Int) (out : Nat → Int) (p : EdgePartition) : Int :=
  saturatedAdd kMaxDistance
    (saturatedAdd kMaxDistance (min (out p.1.1) (out p.1.2)) (min (out p.2.1.1) (out p.2.1.2)))
    (min (out p.2.2.1) (out p.2.2.2))

/-- The spec's `part` with a single saturation of the three-term sum:
`min(kMaxDistance, min(out[a],out[b]) + min(out[c],out[d]) + min(out[e],out[f]))`. -/
def partitionValueOnce (kMaxDistance : Int) (out : Nat → Int) (p : EdgePartition) : Int :=
  min (min (out p.1.1) (out p.1.2) + min (out p.2.1.1) (out p.2.1.2)
        + min (out p.2.2.1) (out p.2.2.2)) kMaxDistance

/-- Minimum of a list of values, `dflt` for the empty list. -/
def minimumOf (dflt : Int) : List Int → Int
  | [] => dflt
  | x :: xs => xs.foldl min x

/-- The spec's `result = min over partitions of part`. -/
def forkCombination (kMaxDistance : Int) (out : Nat → Int) : Int :=
  minimumOf kMaxDistance (forkPartitions.map (partitionValue kMaxDistance out))

/-- The spec's `result` with `part` saturated once. -/
def forkCombinationOnce (kMaxDistance : Int) (out : Nat → Int) : Int :=
  minimumOf kMaxDistance (forkPartitions.map (partitionValueOnce kMaxDistance out))

/-- The cyclic relabelling of the six edges by a 60-degree rotation:
`out'[j] = out[(j + 1) mod 6]`. -/
def rotateEdges (out : Nat → PositionEvaluation) : Nat → PositionEvaluation :=
  fun j => out ((j + 1) % 6)

/-- All three-element subsets `{a, b, c}` of the edges `{0, ..., 5}`, as
increasing triples; there are 20 of them. -/
def edgeTriples : List (Nat × Nat × Nat) :=
  (List.range 6).flatMap (fun a =>
    (List.range 6).flatMap (fun b =>
      (List.range 6).filterMap (fun c =>
        if a < b ∧ b < c then some (a, b, c) else none)))

/-- The saturated sum `out[a] + out[b] + out[c]` of one edge triple. -/
def tripleValue (kMaxDistance : Int) (out : Nat → Int) (t : Nat × Nat × Nat) : Int :=
  min (out t.1 + out t.2.1 + out t.2.2) kMaxDistance

/-- The minimum over all 20 edge triples of the saturated three-edge sum. -/
def allTriplesMinimum (kMaxDistance : Int) (out : Nat → Int) : Int :=
  minimumOf kMaxDistance (edgeTriples.map (tripleValue kMaxDistance out))

/-- The values at one cell of the per-chain maps that the chain loop merges, in
the words of the spec: for each chain the fork combination of its six
`from_outside` values at that cell. -/
def perChainValues {Chain : Type} (kMaxDistance : Int)
    (from_outside : Chain → Nat → PositionEvaluation) (chains : List Chain)
    (m : MoveIndex) : List Int :=
  chains.map (fun chain => forkCombination kMaxDistance (fun j => from_outside chain j m))

/-- Sample `from_outside` maps for evaluating the fork combination: chain `c`
(chains are numbered) reaches edge `j` in `c + j` further stones at cell `0`, one
more at each following cell. -/
def sampleOutside (chain j : Nat) : PositionEvaluation :=
  fun m => (chain : Int) + (j : Int) + m

/-! ## `engine.cc`: the edge pairs of `EvaluateForkFrames`, the evaluator -/

/-- Source text: `kEdgeCornerNames` of `Frontend::GetCellEdgeOrCorner`: the six
edge tags followed by the six corner tags. -/
def kEdgeCornerNames : List String :=
  ["ne", "nwe", "swe", "se", "see", "nee", "nwc", "wc", "swc", "sec", "ec", "nec"]

/-- The index pairs `(a, b)` of the nine calls
`SetToMinimum(from_outside[a], from_outside[b])` in `EvaluateForkFrames`, in
source order. -/
def forkFramePairs : List (Nat × Nat) :=
  [(0, 1), (2, 3), (5, 4), (0, 4), (2, 1), (5, 3), (0, 3), (2, 4), (5, 1)]

/-- The body of the chain loop of `EvaluateForkFrames` read off a list of nine
index pairs: three saturated sums of three pairwise minima, then their minimum. -/
def ForkFramesFromPairs (kMaxDistance : Int) (from_outside : Nat → PositionEvaluation) :
    List (Nat × Nat) → PositionEvaluation
  | [p1, p2, p3, p4, p5, p6, p7, p8, p9] =>
    SetToMinimum
      (SetToMinimum
        (SetToSum kMaxDistance
          (SetToSum kMaxDistance (SetToMinimum (from_outside p1.1) (from_outside p1.2))
            (SetToMinimum (from_outside p2.1) (from_outside p2.2)))
          (SetToMinimum (from_outside p3.1) (from_outside p3.2)))
        (SetToSum kMaxDistance
          (SetToSum kMaxDistance (SetToMinimum (from_outside p4.1) (from_outside p4.2))
            (SetToMinimum (from_outside p5.1) (from_outside p5.2)))
          (SetToMinimum (from_outside p6.1) (from_outside p6.2))))
      (SetToSum kMaxDistance
        (SetToSum kMaxDistance (SetToMinimum (from_outside p7.1) (from_outside p7.2))
          (SetToMinimum (from_outside p8.1) (from_outside p8.2)))
        (SetToMinimum (from_outside p9.1) (from_outside p9.2)))
  | _ => fun _ => kMaxDistance

/-- Two edges are neighbours in the cyclic order `0, 1, ..., 5, 0`: their indices
differ by `+1` or `-1` modulo `6`. -/
def edgesAdjacent (a b : Nat) : Bool :=
  decide ((a + 1) % 6 = b % 6) || decide ((b + 1) % 6 = a % 6)

/-- Modelled from the spec: `PositionEvaluation::SetAllMovesTo(v)` of `havannah.h`
(absent): every move gets the value `v`. -/
def SetAllMovesTo (v : Int) : PositionEvaluation := fun _ => v

/-- Modelled from the spec: `PositionEvaluation::set(m, v)` of `havannah.h`
(absent): the map changes at the move `m` only. -/
def PositionEvaluation.set (evaluation : PositionEvaluation) (m : MoveIndex) (v : Int) :
    PositionEvaluation :=
  fun k => if k = m then v else evaluation k

/-- What `EvaluateForPlayer` obtains from the absent `PlayerPosition` and
`Position` for one position and player: `kMaxDistance`; the player's current
chains (numbered); for each chain and edge `j` the map that `SetToCombination`
leaves in `from_outside[j]`; for each pair of corners the map that
`SetToCombination` leaves in `tmp` in `EvaluateBridgeFrames`; the ring frames
(`none` for a `NULL` frame, otherwise the array of `unsigned` read by index); and
`Position::CellToMoveIndex`. -/
structure EvaluatorInput where
  kMaxDistance : Int
  current_chains : List Nat
  from_outside : Nat → Nat → PositionEvaluation
  corner_combination : Nat → Nat → PositionEvaluation
  ring_frames : List (Option (Nat → Nat))
  CellToMoveIndex : Cell → MoveIndex

/-- The inner loop of `EvaluateRingFrames` over the values of `j` still to visit:
both cells of pair `j` get `std::min(evaluation->get(m), moves_to_win)`. -/
def RingFrameLoop (CellToMoveIndex : Cell → MoveIndex) (frame : Nat → Nat)
    (moves_to_win : Int) : List Nat → PositionEvaluation → PositionEvaluation
  | [], evaluation => evaluation
  | j :: rest, evaluation =>
    let m1 := CellToMoveIndex (frame (2 * j + 1) : Int)
    let evaluation1 := evaluation.set m1 (min (evaluation m1) moves_to_win)
    let m2 := CellToMoveIndex (frame (2 * j + 2) : Int)
    let evaluation2 := evaluation1.set m2 (min (evaluation1 m2) moves_to_win)
    RingFrameLoop CellToMoveIndex frame moves_to_win rest evaluation2

/-- The value of `const int moves_to_win = frame[0] - 1;`: the subtraction is done
on `unsigned` and the result converted to `int`. -/
def movesToWin (frame : Nat → Nat) : Int := toInt32 ((frame 0 : Int) - 1)

/-- Source text: `void EvaluateRingFrames(const PlayerPosition& pp,
PositionEvaluation* evaluation)`, as a function of the frames still to visit; `j`
runs from `0` while `j <= moves_to_win`. -/
def EvaluateRingFrames (CellToMoveIndex : Cell → MoveIndex) :
    List (Option (Nat → Nat)) → PositionEvaluation → PositionEvaluation
  | [], evaluation => evaluation
  | none :: rest, evaluation => EvaluateRingFrames CellToMoveIndex rest evaluation
  | some frame :: rest, evaluation =>
    EvaluateRingFrames CellToMoveIndex rest
      (RingFrameLoop CellToMoveIndex frame (movesToWin frame)
        (List.range (movesToWin frame + 1).toNat) evaluation)

/-- The index pairs `(i, j)` visited by the two loops of `EvaluateBridgeFrames`:
`i` from `0` to `5`, `j` from `i + 1` to `5`. -/
def cornerPairs : List (Nat × Nat) :=
  (List.range 6).flatMap (fun i =>
    (List.range 6).filterMap (fun j => if i < j then some (i, j) else none))

/-- The loops of `EvaluateBridgeFrames` over the corner pairs still to visit:
`evaluation->SetToMinimum(*evaluation, tmp)` with `tmp` the combination of the
pair. -/
def EvaluateBridgeFramesLoop (corner_combination : Nat → Nat → PositionEvaluation) :
    List (Nat × Nat) → PositionEvaluation → PositionEvaluation
  | [], evaluation => evaluation
  | p :: rest, evaluation =>
    EvaluateBridgeFramesLoop corner_combination rest
      (SetToMinimum evaluation (corner_combination p.1 p.2))

/-- Source text: `void EvaluateBridgeFrames(const PlayerPosition& pp, const
PlayerPosition& op, PositionEvaluation* evaluation)`. -/
def EvaluateBridgeFrames (corner_combination : Nat → Nat → PositionEvaluation)
    (evaluation : PositionEvaluation) : PositionEvaluation :=
  EvaluateBridgeFramesLoop corner_combination cornerPairs evaluation

/-- Source text: `void EvaluateForPlayer(const Position* position, Player player,
PositionEvaluation* evaluation)`: `SetAllMovesTo(kMaxDistance)`, then the fork,
bridge and ring frames in this order. -/
def EvaluateForPlayer (inp : EvaluatorInput) : PositionEvaluation :=
  EvaluateRingFrames inp.CellToMoveIndex inp.ring_frames
    (EvaluateBridgeFrames inp.corner_combination
      (EvaluateForkFrames inp.kMaxDistance inp.current_chains inp.from_outside
        (SetAllMovesTo inp.kMaxDistance)))

/-- A chain named by an endpoint of `Engine::EvaluatePartialGoal`: the chain
`InitWithStone(CellToX(cell), CellToY(cell))` of one stone, `GetEdgeChain(i)` or
`GetCornerChain(i)`. -/
inductive ChainRef where
  | stone (cell : Cell) : ChainRef
  | edge (i : Int) : ChainRef
  | corner (i : Int) : ChainRef
deriving DecidableEq, Repr

/-- What a pointer `const Chain* chain1p` (`chain2p`) of
`Engine::EvaluatePartialGoal` holds after the decoding of its endpoint:
`blockLocal chain` is the address `&chain1` (`&chain2`) of the `Chain` that is
declared inside the block of `if (cell >= kZerothCell)` and whose lifetime ends
with that block; `shared chain` is the pointer that `Position::GetEdgeChain` or
`Position::GetCornerChain` returns. -/
inductive ChainPtr where
  | blockLocal (chain : ChainRef) : ChainPtr
  | shared (chain : ChainRef) : ChainPtr
deriving DecidableEq, Repr

/-- The decoding of one endpoint in `Engine::EvaluatePartialGoal`
(`cell >= kZerothCell`, else `cell >= -6`, else `cell >= -12`, else
`assert(false)`), giving the pointer that is kept in `chain1p` (`chain2p`);
`none` stands for the failed assertion. -/
def decodeEndpoint (cell : Cell) : Option ChainPtr :=
  if cell ≥ kZerothCell then some (ChainPtr.blockLocal (ChainRef.stone cell))
  else if cell ≥ -6 then some (ChainPtr.shared (ChainRef.edge (-cell - 1)))
  else if cell ≥ -12 then some (ChainPtr.shared (ChainRef.corner (-cell - 1 - 6)))
  else none

/-- The chain that `ComputeTwoDistance(chain1p, ...)` and
`SetToCombination(tmp1, tmp2, chain1p, chain2p)` read through a pointer at the
end of `Engine::EvaluatePartialGoal`, after both decoding blocks have ended: the
chain of a shared pointer; `none` for the address of a block-local `Chain`,
which no longer exists there, so that the read has no defined result. -/
def derefChain : ChainPtr → Option ChainRef
  | ChainPtr.blockLocal _ => none
  | ChainPtr.shared chain => some chain

/-- Source text: `void Engine::EvaluatePartialGoal(Player player, Cell cell1, Cell
cell2, PositionEvaluation* evaluation) const`.  `pair_combination c1 c2` stands
for the map that `SetToCombination(tmp1, tmp2, chain1p, chain2p)` yields for the
two chains read through the pointers; `none` is the failed assertion, or a read
through the address of a `Chain` whose block has ended. -/
def EvaluatePartialGoal (inp : EvaluatorInput)
    (pair_combination : ChainRef → ChainRef → PositionEvaluation) (cell1 cell2 : Cell) :
    Option PositionEvaluation :=
  if cell1 = kZerothCell ∧ cell2 = kZerothCell then
    some (EvaluateRingFrames inp.CellToMoveIndex inp.ring_frames
      (SetAllMovesTo inp.kMaxDistance))
  else if cell1 = kZerothCell ∧ cell2 = -1 then
    some (EvaluateBridgeFrames inp.corner_combination (SetAllMovesTo inp.kMaxDistance))
  else if cell1 = kZerothCell ∧ cell2 = -2 then
    some (EvaluateForkFrames inp.kMaxDistance inp.current_chains inp.from_outside
      (SetAllMovesTo inp.kMaxDistance))
  else if cell1 = kZerothCell ∧ cell2 = -3 then
    some (EvaluateForPlayer inp)
  else
    match decodeEndpoint cell1, decodeEndpoint cell2 with
    | some chain1p, some chain2p =>
      match derefChain chain1p, derefChain chain2p with
      | some chain1, some chain2 => some (pair_combination chain1 chain2)
      | _, _ => none
    | _, _ => none

/-- The loop of `Frontend::GetCellEdgeOrCorner` over the names from index `i` on:
the first name equal to `str` gives `static_cast<Cell>(-i - 1)`. -/
def findEdgeCornerName (str : String) : List String → Nat → Option Cell
  | [], _ => none
  | name :: rest, i =>
    if str = name then some (-(i : Int) - 1) else findEdgeCornerName str rest (i + 1)

/-- Source text: `bool Frontend::GetCellEdgeOrCorner(const char* str, Cell* cell)`:
the returned `bool` and the value left in `*cell`. -/
def GetCellEdgeOrCorner (FromString : String → Cell) (str : String) : Bool × Cell :=
  let cell := FromString str
  if cell ≠ kZerothCell then (true, cell)
  else
    match findEdgeCornerName str kEdgeCornerNames 0 with
    | some c => (true, c)
    | none => (false, cell)

/-- A sample evaluator input: `kMaxDistance = 50`, two chains with the sample
maps capped at `50`, every corner pair `i < j` combined to `i + j + 1`, one
`NULL` ring frame and one ring frame with `n = 2` over the cells `1, 2, 3, 4`;
move indices are the cells. -/
def sampleEvaluatorInput : EvaluatorInput where
  kMaxDistance := 50
  current_chains := [0, 1]
  from_outside := fun chain j => fun m => min 50 (max 0 (sampleOutside chain j m))
  corner_combination := fun i j => fun _ => (i : Int) + (j : Int) + 1
  ring_frames := [none, some (fun k => if k = 0 then 2 else k)]
  CellToMoveIndex := fun cell => cell

/-! ## `engine.cc`: scored moves, transposition table, move-list arena -/

/-- Source text: `const int kDraw = 0.5 * kLost;` of the anonymous namespace of
`engine.cc`, the `kDraw` that the searcher uses. -/
def kDraw : Int := 5000

/-- The value that a 16-bit signed bit-field holds after an `int` is stored in it:
the value reduced to the 16-bit two's-complement range. -/
def toInt16 (x : Int) : Int := (x + 2 ^ 15) % 2 ^ 16 - 2 ^ 15

/-- Source text: `struct CellEval { Cell cell : 16; int value : 16; }`.  Cells are
taken to fit their field; `value` holds what the last store left in it. -/
structure CellEval where
  cell : Cell
  value : Int
deriving DecidableEq, Repr, Inhabited

/-- The constructor `CellEval(Cell cell, int value)`: `value` is stored in the
16-bit field. -/
def CellEval.make (cell : Cell) (value : Int) : CellEval :=
  { cell := cell, value := toInt16 value }

/-- An assignment `moves[i].value = v` to the 16-bit field. -/
def CellEval.setValue (ce : CellEval) (v : Int) : CellEval :=
  { ce with value := toInt16 v }

/-- Source text: `bool CellEvalCompareAsc(const CellEval& ce1, const CellEval&
ce2)`. -/
def CellEvalCompareAsc (ce1 ce2 : CellEval) : Bool :=
  if ce1.value ≠ ce2.value then decide (ce1.value < ce2.value)
  else decide (ce1.cell > ce2.cell)

/-- Source text: `bool CellEvalCompareDesc(const CellEval& ce1, const CellEval&
ce2)`. -/
def CellEvalCompareDesc (ce1 ce2 : CellEval) : Bool :=
  if ce1.value ≠ ce2.value then decide (ce1.value > ce2.value)
  else decide (ce1.cell < ce2.cell)

/-- Source text: `enum Kind { kExact, kAlpha, kBeta };`. -/
inductive Kind where
  | kExact : Kind
  | kAlpha : Kind
  | kBeta : Kind
deriving DecidableEq, Repr

/-- Source text: `struct EvalKindDepthMoves { int value : 16; unsigned kind : 2;
unsigned depth : 14; unsigned moves_index : 32; }`.  The arena is taken to hold
fewer than `2^32` vectors, so `moves_index` is kept as it is. -/
structure EvalKindDepthMoves where
  value : Int
  kind : Kind
  depth : Int
  moves_index : Nat
deriving DecidableEq, Repr

/-- Modelled from the spec: `TranspositionTable` (`WaitFreeHashMap` of
`wfhashmap.h`, absent), reduced to the list of its used slots, key and value. -/
abbrev TranspositionTable := List (Hash × EvalKindDepthMoves)

/-- Modelled from the spec: `FindValue(hash)` of the absent `WaitFreeHashMap`: the
value of the slot with this key, `none` for the null pointer. -/
def FindValue : TranspositionTable → Hash → Option EvalKindDepthMoves
  | [], _ => none
  | slot :: rest, hash => if slot.1 = hash then some slot.2 else FindValue rest hash

/-- Modelled from the spec: the end of `Attack` and `Defend`,
`if (node == NULL) node = tt_->InsertKey(hash); if (node != NULL) { ... }`, on the
absent `WaitFreeHashMap`.  A slot with the key is overwritten (a pointer found at
entry stays valid, and `InsertKey` of a present key returns its slot); otherwise
a slot is added while fewer than `capacity` are used; on saturation `InsertKey`
returns null and nothing is stored. -/
def StoreValue (capacity : Nat) (tt : TranspositionTable) (hash : Hash)
    (entry : EvalKindDepthMoves) : TranspositionTable :=
  if (FindValue tt hash).isSome then
    tt.map (fun slot => if slot.1 = hash then (slot.1, entry) else slot)
  else if tt.length < capacity then tt ++ [(hash, entry)]
  else tt

/-- Insertion of one element into a list ordered by the strict order `lt`. -/
def insertSorted {α : Type} (lt : α → α → Bool) (x : α) : List α → List α
  | [] => [x]
  | y :: ys => if lt y x then y :: insertSorted lt x ys else x :: y :: ys

/-- The list ordered by the strict order `lt`.  Both comparators of `engine.cc`
leave only equal elements unordered, so the result of `std::sort` is this list. -/
def sortBy {α : Type} (lt : α → α → Bool) : List α → List α
  | [] => []
  | x :: xs => insertSorted lt x (sortBy lt xs)

/-- Source text: `std::sort(moves.begin(), moves.begin() + i, comp)`: the first `i`
entries are ordered, the others stay. -/
def sortPrefix {α : Type} (lt : α → α → Bool) (i : Nat) (moves : List α) : List α :=
  sortBy lt (moves.take i) ++ moves.drop i

/-- The binary search of `std::upper_bound` over `[first, first + len)`. -/
def upperBoundLoop (lt : CellEval → CellEval → Bool) (val : CellEval)
    (moves : List CellEval) : Nat → Nat → Nat → Nat
  | 0, first, _ => first
  | fuel + 1, first, len =>
    if len = 0 then first
    else
      let half := len / 2
      let middle := first + half
      if lt val (moves.getD middle val) then upperBoundLoop lt val moves fuel first half
      else upperBoundLoop lt val moves fuel (middle + 1) (len - half - 1)

/-- Source text: `std::upper_bound(moves.begin(), moves.end(), tmp,
CellEvalCompareAsc) - moves.begin()`; `len` at least halves in each round, so
`moves.length` rounds suffice. -/
def upper_bound (moves : List CellEval) (tmp : CellEval) : Nat :=
  upperBoundLoop CellEvalCompareAsc tmp moves moves.length 0 moves.length

/-- The horizon branch of `Searcher::Attack` (`depth == 0 || level > max_level`):
the node value, `none` when `assert(mobility >= 1)` fails. -/
def horizonValue (moves : List CellEval) (last_move_was_defender_pass : Bool) :
    Option Int :=
  let k : Nat := if last_move_was_defender_pass then 1 else 0
  if moves.length > k then
    let tmp := CellEval.make kZerothCell (moves.getD k default).value
    let mobility := upper_bound moves tmp
    if mobility ≥ 1 then some ((moves.getD k default).value - (mobility : Int)) else none
  else some kDraw

/-- Source text: `static bool SubvectorContainsCell(begin, end, cell)` on the first
`size` entries of `moves`. -/
def SubvectorContainsCell (moves : List CellEval) (size : Nat) (cell : Cell) : Bool :=
  (moves.take size).any (fun ce => decide (ce.cell = cell))

/-- The loops of `AppendInterestingNodesIfNotPresent` over the attacker entries
still to visit: stop at the first value above `attacks[0].value`; with
`check = false` (`size == 1`) every entry is appended, otherwise only an entry
whose cell is not among the first `size` entries of `moves`. -/
def appendInterestingLoop (best : Int) (check : Bool) (size : Nat) :
    List CellEval → List CellEval → List CellEval
  | [], moves => moves
  | attack :: rest, moves =>
    if attack.value > best then moves
    else if check && SubvectorContainsCell moves size attack.cell then
      appendInterestingLoop best check size rest moves
    else appendInterestingLoop best check size rest (moves ++ [attack])

/-- Source text: `void AppendInterestingNodesIfNotPresent(Hash hash,
std::vector<CellEval>* moves)` once `attacks` has been fetched, for two distinct
vectors; `none` when `assert(size > 1)` fails. -/
def AppendInterestingNodes (attacks moves : List CellEval) : Option (List CellEval) :=
  let size := moves.length
  if size = 1 then
    some (appendInterestingLoop (attacks.getD 0 default).value false size attacks moves)
  else if size > 1 then
    some (appendInterestingLoop (attacks.getD 0 default).value true size attacks moves)
  else none

/-! ## `engine.cc`: `ExpandMoves` -/

/-- The board geometry and the evaluator inputs that `Searcher::ExpandMoves` takes
from the absent `havannah.h`: the macro `SIDE_LENGTH`; the constants `kMiddleRow`,
`kPastRows`, `kMiddleColumn` (coordinates are integers, `NextX` and `NextY` add
one); `GetBoardBitmask().get(x, y)`; `XYToCell`, `CellToX`, `CellToY`;
`NumAvailableMoves`, `MoveIndexToCell`, `CellToMoveIndex`; the evaluator input of
a position and player; `get_baseline_distance()`; the mask that
`FillWithNeighborMask(player_stones, opponent_stones)` builds, as its `get`; and
`CountSetBits(mask.Get6Neighbors(x, y))`. -/
structure BoardEnv where
  SIDE_LENGTH : Int
  kMiddleRow : Int
  kPastRows : Int
  kMiddleColumn : Int
  board_bitmask : Int → Int → Bool
  XYToCell : Int → Int → Cell
  CellToX : Cell → Int
  CellToY : Cell → Int
  NumAvailableMoves : Position → Nat
  MoveIndexToCell : MoveIndex → Cell
  CellToMoveIndex : Cell → MoveIndex
  evaluator : Position → Player → EvaluatorInput
  get_baseline_distance : PositionEvaluation → Int
  FillWithNeighborMask : Position → Player → Int → Int → Bool
  CountSetNeighbors : (Int → Int → Bool) → Int → Int → Nat

/-- Source text: `static bool IsInMaskOrTwiceAdjacent(Cell cell, const
BoardBitmask& mask)`. -/
def IsInMaskOrTwiceAdjacent (b : BoardEnv) (cell : Cell) (mask : Int → Int → Bool) : Bool :=
  mask (b.CellToX cell) (b.CellToY cell) ||
    decide (b.CountSetNeighbors mask (b.CellToX cell) (b.CellToY cell) ≥ 2)

/-- The `baseline_value` of the first two branches of `ExpandMoves`:
`(SIDE_LENGTH + 1) * (SIDE_LENGTH + 1) / 3`. -/
def openingBaseline (b : BoardEnv) : Int :=
  (b.SIDE_LENGTH + 1) * (b.SIDE_LENGTH + 1) / 3

/-- The cells visited by the loops of the first branch of `ExpandMoves`
(`MoveCount() == 0`): `y` from `kMiddleRow` while `y < kPastRows`, `x` from
`kMiddleColumn` while `x <= y`, kept when the board mask has `(x, y)`. -/
def firstMoveCells (b : BoardEnv) : List Cell :=
  (List.range (b.kPastRows - b.kMiddleRow).toNat).flatMap (fun (dy : Nat) =>
    (List.range (b.kMiddleRow + (dy : Int) - b.kMiddleColumn + 1).toNat).filterMap
      (fun (dx : Nat) =>
      if b.board_bitmask (b.kMiddleColumn + (dx : Int)) (b.kMiddleRow + (dy : Int)) then
        some (b.XYToCell (b.kMiddleColumn + (dx : Int)) (b.kMiddleRow + (dy : Int)))
      else none))

/-- The empty cells in the order of the loop `for (move = kZerothMove; move <
num_moves; move = NextMove(move))` of `ExpandMoves`, each with its move index. -/
def emptyMoves (b : BoardEnv) (position : Position) : List (MoveIndex × Cell) :=
  (List.range (b.NumAvailableMoves position)).filterMap (fun (i : Nat) =>
    if position.CellIsEmpty (b.MoveIndexToCell (i : Int)) then
      some ((i : Int), b.MoveIndexToCell (i : Int))
    else none)

/-- The `baseline_value` that `ExpandMoves` computes for a position and player. -/
def expandBaseline (b : BoardEnv) (position : Position) (player : Player) : Int :=
  if position.MoveCount = 0 then openingBaseline b
  else if position.MoveCount = 1 then openingBaseline b
  else b.get_baseline_distance (EvaluateForPlayer (b.evaluator position player))

/-- The entries that the three branches of `ExpandMoves` push, before the pass
entry and the sort.  In the first branch `assert(position_.CellIsEmpty(cell))`
holds because no stone is on the board. -/
def expandCandidates (b : BoardEnv) (position : Position) (player : Player) :
    List CellEval :=
  if position.MoveCount = 0 then
    (firstMoveCells b).map (fun cell => CellEval.make cell (kPotentialScale * openingBaseline b))
  else if position.MoveCount = 1 then
    (emptyMoves b position).map
      (fun mc => CellEval.make mc.2 (kPotentialScale * openingBaseline b))
  else
    (emptyMoves b position).filterMap (fun mc =>
      if EvaluateForPlayer (b.evaluator position player) mc.1
            < b.get_baseline_distance (EvaluateForPlayer (b.evaluator position player))
          ∨ IsInMaskOrTwiceAdjacent b mc.2 (b.FillWithNeighborMask position player) = true then
        some (CellEval.make mc.2
          (kPotentialScale * EvaluateForPlayer (b.evaluator position player) mc.1))
      else none)

/-- The vector that `Searcher::ExpandMoves(player, level)` builds: the candidates,
the pass entry when `level == 0`, sorted by `CellEvalCompareAsc`. -/
def ExpandMovesList (b : BoardEnv) (position : Position) (player : Player) (level : Int) :
    List CellEval :=
  sortBy CellEvalCompareAsc
    (if level = 0 then
      expandCandidates b position player
        ++ [CellEval.make kZerothCell (kPotentialScale * expandBaseline b position player)]
    else expandCandidates b position player)

/-! ## `engine.cc`: the searcher -/

/-- One entry of the record of calls: `Attack` or `Defend`, with the `depth` and
`level` it was entered with. -/
structure CallRecord where
  is_attack : Bool
  depth : Int
  level : Int
deriving DecidableEq, Repr

/-- The state of a `Searcher` that `Attack` and `Defend` change: `position_`,
`tt_`, `vectors_` (`none` is the null pointer), the number of reads of
`*max_depth_` made so far, and `call_log`, a record of the calls entered that no
statement of the source reads and that serves to state properties of all nested
calls.  `position_evaluation_` is left out: the search only writes it. -/
structure Searcher where
  position_ : Position
  tt_ : TranspositionTable
  vectors_ : List (Option (List CellEval))
  max_depth_reads : Nat
  call_log : List CallRecord
deriving Repr

/-- What a searcher is built with and what it takes from outside: `attacker_`,
the winning condition that `MakeMoveReversibly` reports (`0` is
`kNoWinningCondition`), `Position::ModifyZobristHash`, the board, the number of
slots of the transposition table, and the value that the `k`-th read of the
shared `volatile int* max_depth_` yields. -/
structure SearchEnv where
  attacker_ : Player
  winning_condition : Position → Player → Cell → Int
  ModifyZobristHash : Hash → Player → MoveIndex → Hash
  board : BoardEnv
  tt_capacity : Nat
  max_depth_ : Nat → Int

/-- The member `defender_`, initialised to `Opponent(attacker)`. -/
def SearchEnv.defender_ (env : SearchEnv) : Player := Opponent env.attacker_

/-- The constructor `Searcher(logger, max_depth, position, attacker)`: the
position is copied, the table is empty, `vectors_` holds the null pointer. -/
def Searcher.create (position : Position) : Searcher :=
  { position_ := position, tt_ := [], vectors_ := [none], max_depth_reads := 0, call_log := [] }

/-- How a call of `Attack` or `Defend` ends: it returns `v`; it leaves by
`longjmp(come_back_, 1)`; an assertion fails or a null or missing vector is
dereferenced; the budget of nested calls is used up; or the budget of loop
rounds is used up. -/
inductive Outcome where
  | value (v : Int) : Outcome
  | aborted : Outcome
  | fault : Outcome
  | outOfFrames : Outcome
  | outOfSteps : Outcome
deriving DecidableEq, Repr

/-- The arguments of `Searcher::Attack`. -/
structure AttackArgs where
  hash : Hash
  alpha : Int
  beta : Int
  depth : Int
  level : Int
  max_level : Int
  last_move_was_defender_pass : Bool
deriving DecidableEq, Repr

/-- The arguments of `Searcher::Defend`. -/
structure DefendArgs where
  hash : Hash
  alpha : Int
  beta : Int
  depth : Int
  level : Int
  max_level : Int
deriving DecidableEq, Repr

/-- A call of `Attack` as a function of the searcher state. -/
abbrev AttackCall := Searcher → AttackArgs → Searcher × Outcome

/-- A call of `Defend` as a function of the searcher state. -/
abbrev DefendCall := Searcher → DefendArgs → Searcher × Outcome

/-- The vector `*vectors_[moves_index]`; `none` for the null pointer and for an
index outside the arena. -/
def Searcher.getMoves (st : Searcher) (moves_index : Nat) : Option (List CellEval) :=
  st.vectors_.getD moves_index none

/-- A change of the vector `*vectors_[moves_index]` in place; nothing happens
when there is no such vector. -/
def Searcher.modifyMoves (st : Searcher) (moves_index : Nat)
    (f : List CellEval → List CellEval) : Searcher :=
  match st.vectors_.getD moves_index none with
  | none => st
  | some moves => { st with vectors_ := st.vectors_.set moves_index (some (f moves)) }

/-- The assignment `moves[i].value = v`. -/
def Searcher.writeValue (st : Searcher) (moves_index i : Nat) (v : Int) : Searcher :=
  st.modifyMoves moves_index (fun moves => moves.set i ((moves.getD i default).setValue v))

/-- Source text: `vectors_.push_back(new std::vector<CellEval>)` followed by the
filling of the new vector; yields its index `vectors_.size()`. -/
def Searcher.pushMoves (st : Searcher) (moves : List CellEval) : Nat × Searcher :=
  (st.vectors_.length, { st with vectors_ := st.vectors_ ++ [some moves] })

/-- Source text: `int ExpandMoves(Player player, int level)`. -/
def ExpandMoves (env : SearchEnv) (st : Searcher) (player : Player) (level : Int) :
    Nat × Searcher :=
  st.pushMoves (ExpandMovesList env.board st.position_ player level)

/-- The end of `Attack` and `Defend`: the four fields are stored in the node of
`hash`, each in its bit-field (`value` in 16 bits, `depth` in 14). -/
def Searcher.storeNode (env : SearchEnv) (st : Searcher) (hash : Hash) (value : Int)
    (kind : Kind) (depth : Int) (moves_index : Nat) : Searcher :=
  let entry : EvalKindDepthMoves :=
    { value := toInt16 value, kind := kind, depth := depth % 2 ^ 14,
      moves_index := moves_index }
  { st with tt_ := StoreValue env.tt_capacity st.tt_ hash entry }

/-- How the common head of `Attack` and `Defend` ends: with an outcome, or with
the `moves_index` to go on with (`0` when the node is absent). -/
inductive NodeEntry where
  | leave (o : Outcome) : NodeEntry
  | proceed (moves_index : Nat) : NodeEntry
deriving DecidableEq, Repr

/-- The common head of `Attack` and `Defend`: the call is recorded, `*max_depth_`
is read and `depth > *max_depth_` leaves by `longjmp`; the node is looked up and
returned from when its depth and kind allow; `assert(moves_index != 0)`. -/
def nodeEntry (env : SearchEnv) (st : Searcher) (is_attack : Bool) (hash : Hash)
    (alpha beta depth level : Int) : Searcher × NodeEntry :=
  let record : CallRecord := { is_attack := is_attack, depth := depth, level := level }
  let st1 : Searcher :=
    { st with max_depth_reads := st.max_depth_reads + 1,
              call_log := st.call_log ++ [record] }
  if depth > env.max_depth_ st.max_depth_reads then (st1, NodeEntry.leave Outcome.aborted)
  else
    match FindValue st1.tt_ hash with
    | none => (st1, NodeEntry.proceed 0)
    | some node =>
      if node.depth = depth ∧
          (node.kind = Kind.kExact ∨ (node.kind = Kind.kAlpha ∧ node.value ≤ alpha) ∨
            (node.kind = Kind.kBeta ∧ node.value ≥ beta)) then
        (st1, NodeEntry.leave (Outcome.value node.value))
      else if node.moves_index = 0 then (st1, NodeEntry.leave Outcome.fault)
      else (st1, NodeEntry.proceed node.moves_index)

/-- Modelled from the spec: `Position::MakeMoveReversibly(player, cell, &memento)`
(absent) puts the stone on the board and returns the winning condition;
`memento.UndoAll()` restores the position held before. -/
def Position.MakeMoveReversibly (winning_condition : Position → Player → Cell → Int)
    (p : Position) (player : Player) (cell : Cell) : Int × Position :=
  (winning_condition p player cell, { moves := (player, cell) :: p.moves })

/-- How the body of the move loop of `Attack` or `Defend` ends for one move: a
nested call did not return; the move wins at once (the `break` after
`memento.UndoAll()`); or `value` holds `v` for the tests that follow. -/
inductive MoveResult where
  | stop (o : Outcome) : MoveResult
  | decided : MoveResult
  | valued (v : Int) : MoveResult
deriving DecidableEq, Repr

/-- How the move loop of `Attack` or `Defend` ends: it is left at index `i` with
`kind`, or a nested call did not return. -/
inductive LoopResult where
  | exit (i : Nat) (kind : Kind) : LoopResult
  | stop (o : Outcome) : LoopResult
deriving DecidableEq, Repr

/-- The body of the move loop of `Searcher::Attack` for the entry `ce = moves[i]`,
up to the assignment of `value`; `value` and `beta` are the current values of
the two variables.  `value = moves[i].value = ...` gives `value` what the
16-bit field holds. -/
def attackMove (env : SearchEnv) (defend : DefendCall) (a : AttackArgs)
    (moves_index i : Nat) (ce : CellEval) (value beta : Int) (st : Searcher) :
    Searcher × MoveResult :=
  if ce.cell = kZerothCell then
    if a.level = 0 then
      match defend st
          { hash := attackerPassChild a.hash, alpha := a.alpha, beta := beta,
            depth := a.depth, level := a.level + 1, max_level := a.max_level } with
      | (st1, Outcome.value v) =>
        (st1.writeValue moves_index i v, MoveResult.valued (toInt16 v))
      | (st1, o) => (st1, MoveResult.stop o)
    else (st, MoveResult.valued value)
  else if (st.position_.MakeMoveReversibly env.winning_condition env.attacker_ ce.cell).1 ≠ 0 then
    (st.writeValue moves_index i kWon, MoveResult.decided)
  else
    match defend
        { st with position_ :=
            (st.position_.MakeMoveReversibly env.winning_condition env.attacker_ ce.cell).2 }
        { hash := env.ModifyZobristHash a.hash env.attacker_ (env.board.CellToMoveIndex ce.cell),
          alpha := a.alpha - kPotentialScale, beta := beta - kPotentialScale,
          depth := a.depth - 1, level := a.level + 1, max_level := a.max_level } with
    | (st1, Outcome.value v) =>
      (({ st1 with position_ := st.position_ } : Searcher).writeValue moves_index i
          (v + kPotentialScale),
        MoveResult.valued (toInt16 (v + kPotentialScale)))
    | (st1, o) => (st1, MoveResult.stop o)

/-- The move loop of `Searcher::Attack`, `for (i = 0; i < moves.size(); ++i)`,
from index `i` on, with the current `value`, `kind` and `beta`; the vector is
read anew in each round, and the first argument bounds the number of rounds. -/
def AttackLoop (env : SearchEnv) (defend : DefendCall) (a : AttackArgs) (moves_index : Nat) :
    Nat → Searcher → Nat → Int → Kind → Int → Searcher × LoopResult
  | 0, st, _, _, _, _ => (st, LoopResult.stop Outcome.outOfSteps)
  | steps + 1, st, i, value, kind, beta =>
    match st.getMoves moves_index with
    | none => (st, LoopResult.stop Outcome.fault)
    | some moves =>
      if i < moves.length then
        match attackMove env defend a moves_index i (moves.getD i default) value beta st with
        | (st1, MoveResult.stop o) => (st1, LoopResult.stop o)
        | (st1, MoveResult.decided) => (st1, LoopResult.exit i Kind.kAlpha)
        | (st1, MoveResult.valued v) =>
          if v ≤ a.alpha ∧ a.level > 0 then (st1, LoopResult.exit i Kind.kAlpha)
          else if v < beta ∧ a.level > 0 then
            AttackLoop env defend a moves_index steps st1 (i + 1) v Kind.kExact v
          else AttackLoop env defend a moves_index steps st1 (i + 1) v kind beta
      else (st, LoopResult.exit i kind)

/-- The end of `Attack` and `Defend` after the move loop: `if (i < moves.size())
++i;`, the sort of the first `i` entries, `value = moves.empty() ? kDraw :
moves[0].value`, the store in the table, `return value`. -/
def finishNode (env : SearchEnv) (lt : CellEval → CellEval → Bool) (st : Searcher)
    (hash : Hash) (depth : Int) (moves_index i : Nat) (kind : Kind) : Searcher × Outcome :=
  match st.getMoves moves_index with
  | none => (st, Outcome.fault)
  | some moves =>
    let sorted := sortPrefix lt (if i < moves.length then i + 1 else i) moves
    let value := if sorted.isEmpty then kDraw else (sorted.getD 0 default).value
    ((st.modifyMoves moves_index (fun _ => sorted)).storeNode env hash value kind depth
        moves_index,
      Outcome.value value)

/-- Source text: `int Attack(Hash hash, int alpha, int beta, int depth, int level,
int max_level, bool last_move_was_defender_pass)`, with the nested calls of
`Defend` given as `defend` and the budget of loop rounds as `steps`. -/
def AttackNode (env : SearchEnv) (steps : Nat) (defend : DefendCall) : AttackCall :=
  fun st a =>
    match nodeEntry env st true a.hash a.alpha a.beta a.depth a.level with
    | (st1, NodeEntry.leave o) => (st1, o)
    | (st1, NodeEntry.proceed found) =>
      let expanded := if found = 0 then ExpandMoves env st1 env.attacker_ a.level else (found, st1)
      match expanded.2.getMoves expanded.1 with
      | none => (expanded.2, Outcome.fault)
      | some moves =>
        if a.depth = 0 ∨ a.level > a.max_level then
          match horizonValue moves a.last_move_was_defender_pass with
          | none => (expanded.2, Outcome.fault)
          | some value =>
            (expanded.2.storeNode env a.hash value Kind.kExact a.depth expanded.1,
              Outcome.value value)
        else
          match AttackLoop env defend a expanded.1 steps expanded.2 0 kDraw Kind.kBeta a.beta with
          | (st3, LoopResult.stop o) => (st3, o)
          | (st3, LoopResult.exit i kind) =>
            finishNode env CellEvalCompareAsc st3 a.hash a.depth expanded.1 i kind

/-- The call `AppendInterestingNodesIfNotPresent(hash + kDefenderPassHash,
&moves)` in `Searcher::Defend`: both assertions on the attacker node, then the
appending.  When the attacker node names the vector `moves` itself and that
vector has one entry, the source loop appends copies of it without end; this is
reported as a used-up budget of rounds. -/
def appendInteresting (st : Searcher) (attack_hash : Hash) (moves_index : Nat) :
    Searcher × Option Outcome :=
  match FindValue st.tt_ attack_hash with
  | none => (st, some Outcome.fault)
  | some attack_node =>
    if attack_node.moves_index = 0 then (st, some Outcome.fault)
    else
      match st.getMoves attack_node.moves_index, st.getMoves moves_index with
      | some attacks, some moves =>
        if attack_node.moves_index = moves_index ∧ moves.length = 1 then
          (st, some Outcome.outOfSteps)
        else
          match AppendInterestingNodes attacks moves with
          | none => (st, some Outcome.fault)
          | some appended => (st.modifyMoves moves_index (fun _ => appended), none)
      | _, _ => (st, some Outcome.fault)

/-- The body of the move loop of `Searcher::Defend` for the entry `ce = moves[i]`,
up to the assignment of `value` and the appending after a pass; `alpha` is the
current value of the variable. -/
def defendMove (env : SearchEnv) (attack : AttackCall) (d : DefendArgs)
    (moves_index i : Nat) (ce : CellEval) (alpha : Int) (st : Searcher) :
    Searcher × MoveResult :=
  if ce.cell = kZerothCell then
    match attack st
        { hash := defenderPassChild d.hash, alpha := alpha - kPotentialScale,
          beta := d.beta - kPotentialScale, depth := d.depth, level := d.level + 1,
          max_level := d.max_level, last_move_was_defender_pass := true } with
    | (st1, Outcome.value v) =>
      if toInt16 v < d.beta then
        match appendInteresting (st1.writeValue moves_index i v) (defenderPassChild d.hash)
            moves_index with
        | (st2, some o) => (st2, MoveResult.stop o)
        | (st2, none) => (st2, MoveResult.valued (toInt16 v))
      else (st1.writeValue moves_index i v, MoveResult.valued (toInt16 v))
    | (st1, o) => (st1, MoveResult.stop o)
  else if (st.position_.MakeMoveReversibly env.winning_condition env.defender_ ce.cell).1 ≠ 0 then
    (st.writeValue moves_index i kLost, MoveResult.decided)
  else
    match attack
        { st with position_ :=
            (st.position_.MakeMoveReversibly env.winning_condition env.defender_ ce.cell).2 }
        { hash := env.ModifyZobristHash d.hash env.defender_ (env.board.CellToMoveIndex ce.cell),
          alpha := alpha + kPotentialScale, beta := d.beta + kPotentialScale,
          depth := d.depth + 1, level := d.level + 1, max_level := d.max_level,
          last_move_was_defender_pass := false } with
    | (st1, Outcome.value v) =>
      (({ st1 with position_ := st.position_ } : Searcher).writeValue moves_index i
          (v - kPotentialScale),
        MoveResult.valued (toInt16 (v - kPotentialScale)))
    | (st1, o) => (st1, MoveResult.stop o)

/-- The move loop of `Searcher::Defend`, from index `i` on, with the current
`kind` and `alpha`; the vector is read anew in each round, and the first
argument bounds the number of rounds. -/
def DefendLoop (env : SearchEnv) (attack : AttackCall) (d : DefendArgs) (moves_index : Nat) :
    Nat → Searcher → Nat → Kind → Int → Searcher × LoopResult
  | 0, st, _, _, _ => (st, LoopResult.stop Outcome.outOfSteps)
  | steps + 1, st, i, kind, alpha =>
    match st.getMoves moves_index with
    | none => (st, LoopResult.stop Outcome.fault)
    | some moves =>
      if i < moves.length then
        match defendMove env attack d moves_index i (moves.getD i default) alpha st with
        | (st1, MoveResult.stop o) => (st1, LoopResult.stop o)
        | (st1, MoveResult.decided) => (st1, LoopResult.exit i Kind.kBeta)
        | (st1, MoveResult.valued v) =>
          if v ≥ d.beta ∧ d.level > 0 then (st1, LoopResult.exit i Kind.kBeta)
          else if v > alpha ∧ d.level > 0 then
            DefendLoop env attack d moves_index steps st1 (i + 1) Kind.kExact v
          else DefendLoop env attack d moves_index steps st1 (i + 1) kind alpha
      else (st, LoopResult.exit i kind)

/-- Source text: `int Defend(Hash hash, int alpha, int beta, int depth, int level,
int max_level)`, with the nested calls of `Attack` given as `attack` and the
budget of loop rounds as `steps`. -/
def DefendNode (env : SearchEnv) (steps : Nat) (attack : AttackCall) : DefendCall :=
  fun st d =>
    match nodeEntry env st false d.hash d.alpha d.beta d.depth d.level with
    | (st1, NodeEntry.leave o) => (st1, o)
    | (st1, NodeEntry.proceed found) =>
      let expanded :=
        if found = 0 then st1.pushMoves [CellEval.make kZerothCell d.alpha] else (found, st1)
      match DefendLoop env attack d expanded.1 steps expanded.2 0 Kind.kAlpha d.alpha with
      | (st3, LoopResult.stop o) => (st3, o)
      | (st3, LoopResult.exit i kind) =>
        finishNode env CellEvalCompareDesc st3 d.hash d.depth expanded.1 i kind

/-- The two mutually recursive functions with a budget of nested calls: with no
budget left a call ends as `outOfFrames`, otherwise it runs its body with the
other function at a budget one less. -/
def SearchCalls (env : SearchEnv) (steps : Nat) : Nat → AttackCall × DefendCall
  | 0 => (fun st _ => (st, Outcome.outOfFrames), fun st _ => (st, Outcome.outOfFrames))
  | frames + 1 =>
    (AttackNode env steps (SearchCalls env steps frames).2,
      DefendNode env steps (SearchCalls env steps frames).1)

/-- The function `Searcher::Attack` with budgets of loop rounds and nested calls. -/
def Attack (env : SearchEnv) (steps frames : Nat) : AttackCall :=
  (SearchCalls env steps frames).1

/-- The function `Searcher::Defend` with budgets of loop rounds and nested calls. -/
def Defend (env : SearchEnv) (steps frames : Nat) : DefendCall :=
  (SearchCalls env steps frames).2

/-- How `SearchForAttackerInternal` or `SearchForDefenderInternal` ends before
`FillEvaluation`: the iteration loop was left with `depth`, after a conclusive
iteration (`by_break`) or because the test `depth < *max_depth_` failed, and
`written = depth + 1` was stored in `*max_depth_`, `cap_read` being the value of
`*max_depth_` read by the last test of the loop; or the search came back through
`longjmp`, which skips the store; or a fault or a used-up budget. -/
inductive SearchExit where
  | wrote (depth : Int) (by_break : Bool) (cap_read : Int) (written : Int) : SearchExit
  | cameBack : SearchExit
  | fault : SearchExit
  | outOfBudget : SearchExit
deriving DecidableEq, Repr

/-- The test that ends the iteration loop of `SearchForAttackerInternal` on the
root vector: `moves.begin()->value <= kWon + kPotentialScale * depth ||
moves.size() == 1 || moves[1].value >= kDraw`. -/
def attackerConclusive (moves : List CellEval) (depth : Int) : Bool :=
  decide ((moves.getD 0 default).value ≤ kWon + kPotentialScale * depth) ||
    (decide (moves.length = 1) || decide ((moves.getD 1 default).value ≥ kDraw))

/-- The test that ends the iteration loop of `SearchForDefenderInternal` on the
root vector: `moves.begin()->value >= kDraw || moves.size() == 1 ||
moves[1].value <= kWon + kPotentialScale * depth`. -/
def defenderConclusive (moves : List CellEval) (depth : Int) : Bool :=
  decide ((moves.getD 0 default).value ≥ kDraw) ||
    (decide (moves.length = 1) ||
      decide ((moves.getD 1 default).value ≤ kWon + kPotentialScale * depth))

/-- The part of an iteration after the root call returned: the root node and its
vector are fetched under the assertions of the source and the test `conclusive`
is made; `none` when an assertion fails. -/
def rootConclusive (st : Searcher) (check_index : Bool)
    (conclusive : List CellEval → Int → Bool) (depth : Int) : Option Bool :=
  match FindValue st.tt_ 0 with
  | none => none
  | some root =>
    if check_index ∧ root.moves_index = 0 then none
    else
      match st.getMoves root.moves_index with
      | none => none
      | some moves => if moves.isEmpty then none else some (conclusive moves depth)

/-- The iteration loop `for (depth = 0; depth < *max_depth_; ++depth)` shared by
the two search drivers, from `depth` on, followed by `*max_depth_ = depth + 1`.
`root_call` is the call of `Attack` or `Defend` at the root for a depth; the
first argument bounds the number of iterations.  The strings built by
`PrincipalVariation` and the log line change no state and are left out. -/
def IterationLoop (env : SearchEnv) (root_call : Searcher → Int → Searcher × Outcome)
    (check_index : Bool) (conclusive : List CellEval → Int → Bool) :
    Nat → Searcher → Int → Searcher × SearchExit
  | 0, st, _ => (st, SearchExit.outOfBudget)
  | rounds + 1, st, depth =>
    if depth < env.max_depth_ st.max_depth_reads then
      match root_call { st with max_depth_reads := st.max_depth_reads + 1 } depth with
      | (st1, Outcome.value _) =>
        match rootConclusive st1 check_index conclusive depth with
        | none => (st1, SearchExit.fault)
        | some true =>
          (st1, SearchExit.wrote depth true (env.max_depth_ st.max_depth_reads) (depth + 1))
        | some false =>
          IterationLoop env root_call check_index conclusive rounds st1 (depth + 1)
      | (st1, Outcome.aborted) => (st1, SearchExit.cameBack)
      | (st1, Outcome.fault) => (st1, SearchExit.fault)
      | (st1, _) => (st1, SearchExit.outOfBudget)
    else
      ({ st with max_depth_reads := st.max_depth_reads + 1 },
        SearchExit.wrote depth false (env.max_depth_ st.max_depth_reads) (depth + 1))

/-- Source text: `void SearchForAttackerInternal()` up to `FillEvaluation`: each
iteration calls `Attack(0ULL, -kInfinity, +kInfinity, depth, 0, 2 * depth,
false)`. -/
def SearchForAttackerInternal (env : SearchEnv) (steps frames rounds : Nat)
    (st : Searcher) : Searcher × SearchExit :=
  IterationLoop env
    (fun s depth => Attack env steps frames s
      { hash := 0, alpha := -kInfinity, beta := kInfinity, depth := depth, level := 0,
        max_level := 2 * depth, last_move_was_defender_pass := false })
    true attackerConclusive rounds st 0

/-- Source text: `void SearchForDefenderInternal()` up to `FillEvaluation`: each
iteration calls `Defend(0ULL, -kInfinity, +kInfinity, depth, 0, 2 * depth)`. -/
def SearchForDefenderInternal (env : SearchEnv) (steps frames rounds : Nat)
    (st : Searcher) : Searcher × SearchExit :=
  IterationLoop env
    (fun s depth => Defend env steps frames s
      { hash := 0, alpha := -kInfinity, beta := kInfinity, depth := depth, level := 0,
        max_level := 2 * depth })
    false defenderConclusive rounds st 0

/-- A board of three cells `1, 2, 3` in one row for evaluating searches: move
index `m` is cell `m + 1`, `SIDE_LENGTH = 3`, the evaluator has no chain and no
ring frame and combines every corner pair to `4` with `kMaxDistance = 9`, the
baseline distance is `4`, and the neighbour mask holds every cell. -/
def sampleBoard : BoardEnv where
  SIDE_LENGTH := 3
  kMiddleRow := 0
  kPastRows := 1
  kMiddleColumn := 0
  board_bitmask := fun x y => decide (0 ≤ x ∧ x < 3 ∧ y = 0)
  XYToCell := fun x _ => x + 1
  CellToX := fun cell => cell - 1
  CellToY := fun _ => 0
  NumAvailableMoves := fun _ => 3
  MoveIndexToCell := fun m => m + 1
  CellToMoveIndex := fun cell => cell - 1
  evaluator := fun _ _ =>
    { kMaxDistance := 9, current_chains := [], from_outside := fun _ _ _ => 9,
      corner_combination := fun _ _ _ => 4, ring_frames := [],
      CellToMoveIndex := fun cell => cell - 1 }
  get_baseline_distance := fun _ => 4
  FillWithNeighborMask := fun _ _ _ _ => true
  CountSetNeighbors := fun _ _ _ => 0

/-- A search environment on the sample board: White attacks, no move of White
wins, a move of Black wins at once when two stones are on the board already,
keys are changed by the exclusive or with a number that depends on player and
move, the table has 1000 slots, and every read of `*max_depth_` yields `cap`. -/
def sampleSearchEnv (cap : Int) : SearchEnv where
  attacker_ := Player.kWhite
  winning_condition := fun position player _ =>
    if player = Player.kBlack ∧ position.MoveCount ≥ 2 then 1 else 0
  ModifyZobristHash := fun hash player m =>
    hash ^^^ ((if player = Player.kWhite then 1000 else 2000) * (m.toNat + 1))
  board := sampleBoard
  tt_capacity := 1000
  max_depth_ := fun _ => cap

/-- The position of the sample searches: one black stone on cell `1`. -/
def samplePosition : Position := { moves := [(Player.kBlack, 1)] }

/-- A cell of the board as `ExpandMoves` meets it: the cell of an available move
index, or the cell of coordinates that the board mask holds. -/
def IsBoardCell (b : BoardEnv) (position : Position) (cell : Cell) : Prop :=
  (∃ i : Nat, i < b.NumAvailableMoves position ∧ b.MoveIndexToCell (i : Int) = cell) ∨
    (∃ x y : Int, b.board_bitmask x y = true ∧ b.XYToCell x y = cell)

/-! ## Invariants of the searcher state -/

/-- The range of a 16-bit signed bit-field. -/
def InInt16 (x : Int) : Prop := -32768 ≤ x ∧ x ≤ 32767

/-- The arena holds the null pointer at index `0` and a vector at every other
index. -/
def ArenaShape (st : Searcher) : Prop :=
  st.vectors_.map Option.isSome = false :: List.replicate (st.vectors_.length - 1) true

/-- Every value in a vector of the arena fits the 16-bit field. -/
def ArenaValuesOk (st : Searcher) : Prop :=
  ∀ moves, some moves ∈ st.vectors_ → ∀ ce ∈ moves, InInt16 ce.value

/-- Every node of the table names a vector of the arena other than index `0` and
holds a value that fits the 16-bit field. -/
def TableOk (st : Searcher) : Prop :=
  ∀ slot ∈ st.tt_, 1 ≤ slot.2.moves_index ∧ slot.2.moves_index < st.vectors_.length ∧
    InInt16 slot.2.value

/-- The invariant of the searcher state kept by `Attack` and `Defend`. -/
structure SearcherInv (st : Searcher) : Prop where
  shape : ArenaShape st
  values : ArenaValuesOk st
  table : TableOk st

/-- The relation between the state before and after a part of the search: the
arena does not shrink, no vector vanishes or gets shorter, and the invariant is
kept. -/
structure Grows (st st' : Searcher) : Prop where
  length_le : st.vectors_.length ≤ st'.vectors_.length
  lists : ∀ idx moves, st.getMoves idx = some moves →
    ∃ moves', st'.getMoves idx = some moves' ∧ moves.length ≤ moves'.length
  inv : SearcherInv st → SearcherInv st'

/-- A call that relates every state to its result by `Grows`. -/
def GoodCall {α : Type} (call : Searcher → α → Searcher × Outcome) : Prop :=
  ∀ st a, Grows st (call st a).1

/-- The arena-id invariant in the words of the spec: every node of the table has
`1 <= moves_index < vectors_.size()`, index `0` of the arena is in use and null,
and an index of the arena is null only if it is `0`. -/
def ArenaIdInvariant (st : Searcher) : Prop :=
  (∀ slot ∈ st.tt_, 1 ≤ slot.2.moves_index ∧ slot.2.moves_index < st.vectors_.length) ∧
    0 < st.vectors_.length ∧
    (∀ i, i < st.vectors_.length → (st.getMoves i = none ↔ i = 0))

/-- The states reachable from a freshly constructed `Searcher` by calls of
`Attack` and `Defend`, with any arguments and budgets. -/
inductive Reachable (env : SearchEnv) : Searcher → Prop where
  | create (position : Position) : Reachable env (Searcher.create position)
  | attack (steps frames : Nat) (st : Searcher) (a : AttackArgs) :
      Reachable env st → Reachable env (Attack env steps frames st a).1
  | defend (steps frames : Nat) (st : Searcher) (d : DefendArgs) :
      Reachable env st → Reachable env (Defend env steps frames st d).1

/-! ## Bounds of the recursion -/

/-- The bounds of a recorded call for a root call of depth `D` and level cap `M`:
`0 <= level <= M + 2` and `0 <= depth <= D + 1`. -/
def CallInBounds (D M : Int) (r : CallRecord) : Prop :=
  0 ≤ r.level ∧ r.level ≤ M + 2 ∧ 0 ≤ r.depth ∧ r.depth ≤ D + 1

/-- Every call recorded between `st` and `st'` is within the bounds. -/
def LogBounded (D M : Int) (st st' : Searcher) : Prop :=
  ∀ r ∈ st'.call_log, r ∈ st.call_log ∨ CallInBounds D M r

/-- The arguments with which `Attack` is entered below a root call of depth `D`
and level cap `M`. -/
def AttackPre (D M : Int) (a : AttackArgs) : Prop :=
  a.max_level = M ∧ 0 ≤ a.depth ∧ a.depth ≤ D + 1 ∧ 0 ≤ a.level ∧ a.level ≤ M + 2 ∧
    (a.level = 0 → a.depth ≤ D)

/-- The arguments with which `Defend` is entered below a root call of depth `D`
and level cap `M`. -/
def DefendPre (D M : Int) (d : DefendArgs) : Prop :=
  d.max_level = M ∧ 0 ≤ d.depth ∧ d.depth ≤ D ∧ 0 ≤ d.level ∧ d.level ≤ M + 1

/-- A run that does not use up the budget of nested calls and records only calls
within the bounds. -/
def BoundedRun (D M : Int) (st : Searcher) (result : Searcher × Outcome) : Prop :=
  result.2 ≠ Outcome.outOfFrames ∧ LogBounded D M st result.1

/-! ## `antares.cc`: command lookup -/

/-- Source text: `void RemoveUnderscores(char *s)`: the characters other than `_`,
in order. -/
def RemoveUnderscores (s : List Char) : List Char :=
  s.filter (fun c => decide (c ≠ '_'))

/-- Source text: `const Frontend::Command Frontend::kCommands[]`, up to the
terminating `{ NULL, NULL }`: each command name with the method it calls. -/
def kCommands : List (String × String) :=
  [("boardsize", "Boardsize"), ("clearboard", "ClearBoard"), ("eval", "Evaluate"),
   ("genmove", "Genmove"), ("havannahwinner", "HavannahWinner"),
   ("knowncommand", "KnownCommand"), ("komi", "Komi"), ("listcommands", "ListCommands"),
   ("listoptions", "ListOptions"), ("name", "Name"), ("play", "Play"),
   ("playgame", "PlayGame"), ("protocolversion", "ProtocolVersion"),
   ("putstones", "PutStones"), ("setoption", "SetOption"), ("showboard", "Showboard"),
   ("quit", "Quit"), ("undo", "Undo"), ("variant", "Variant"), ("version", "Version")]

/-- The loop `for (int i = 0; kCommands[i].name != NULL; ++i) if (strcmp(word,
kCommands[i].name) == 0) ...` shared by `KnownCommand` and `HandleCommand`: the
method of the first entry with the name `word`. -/
def findCommand (word : String) : List (String × String) → Option String
  | [] => none
  | entry :: rest => if word = entry.1 then some entry.2 else findCommand word rest

/-- Source text: `void Frontend::KnownCommand(const std::vector<char*>& args)`. -/
def Frontend.KnownCommand (fe : Frontend) (args : List String) : Frontend :=
  match args with
  | [] => fe.Answer kSuccess "false"
  | arg0 :: _ =>
    match findCommand arg0 kCommands with
    | some _ => fe.Answer kSuccess "true"
    | none => fe.Answer kSuccess "false"

/-- The delimiters `" \t\n"` of the calls of `strtok_r` in `HandleCommand`. -/
def isDelimiter (c : Char) : Bool := c = ' ' || c = '\t' || c = '\n'

/-- The words that successive calls of `strtok_r(..., " \t\n", &saveptr)` yield:
the maximal runs of characters other than the delimiters.  The second argument
holds the characters of the current word, last one first. -/
def strtokWords : List Char → List Char → List (List Char)
  | [], word => if word = [] then [] else [word.reverse]
  | c :: rest, word =>
    if isDelimiter c then
      if word = [] then strtokWords rest [] else word.reverse :: strtokWords rest []
    else strtokWords rest (c :: word)

/-- What `HandleCommand` does with a line: nothing (no command word), the call
of a method of the table with the argument words, or the answer `unknown
command`. -/
inductive Dispatch where
  | nothing : Dispatch
  | call (method : String) (args : List String) : Dispatch
  | unknown (command : String) : Dispatch
deriving DecidableEq, Repr

/-- Source text: `void Frontend::HandleCommand(char* input)`: every character is
lower-cased; when the line starts with a digit `strtol` reads the id and leaves
`input` after the digits; the first word is the command, from which the
underscores are removed; the other words are the arguments; the table is
searched for the command.  The id is not kept. -/
def HandleCommand (input : String) : Dispatch :=
  let lowered := input.toList.map Char.toLower
  let after_id :=
    if (lowered.headD 'x').isDigit then lowered.dropWhile Char.isDigit else lowered
  match strtokWords after_id [] with
  | [] => Dispatch.nothing
  | command :: words =>
    let name := String.mk (RemoveUnderscores command)
    match findCommand name kCommands with
    | some method => Dispatch.call method (words.map String.mk)
    | none => Dispatch.unknown name

/-- The answer to a line that `HandleCommand` hands to `KnownCommand`: the text of
the last answer, `none` for a line that does not call `KnownCommand`. -/
def knownCommandAnswer (fe : Frontend) (input : String) : Option String :=
  match HandleCommand input with
  | Dispatch.call "KnownCommand" args =>
    ((fe.KnownCommand args).answers.getLast?).map (fun answer => answer.2)
  | _ => none

/-! ## `engine.cc`: `FillEvaluation` and the cell that `SuggestMove` returns -/

/-- The first loop of `Searcher::FillEvaluation`: `null_value` starts as `kLost`
and takes the value of every pass entry met. -/
def fillNullValue (moves : List CellEval) : Int :=
  moves.foldl (fun null_value ce => if ce.cell = kZerothCell then ce.value else null_value)
    kLost

/-- The second loop of `Searcher::FillEvaluation`: every entry other than a pass
stores its value at the move index of its cell. -/
def fillCells (CellToMoveIndex : Cell → MoveIndex) (moves : List CellEval)
    (evaluation : PositionEvaluation) : PositionEvaluation :=
  moves.foldl (fun ev ce =>
    if ce.cell ≠ kZerothCell then ev.set (CellToMoveIndex ce.cell) ce.value else ev) evaluation

/-- Source text: `void FillEvaluation(Hash hash)`: the evaluation published from
the vector of the node of `hash`; `none` when one of the three assertions fails
or the vector is missing. -/
def Searcher.FillEvaluation (env : SearchEnv) (st : Searcher) (hash : Hash) :
    Option PositionEvaluation :=
  match FindValue st.tt_ hash with
  | none => none
  | some root =>
    if root.moves_index = 0 then none
    else
      match st.getMoves root.moves_index with
      | none => none
      | some moves =>
        if moves.isEmpty then none
        else some (fillCells env.board.CellToMoveIndex moves (SetAllMovesTo (fillNullValue moves)))

/-- The end of `Engine::SuggestMove`: the cell `MoveIndexToCell(best_move)` of the
move index that the final loop selects. -/
def SuggestMoveCell (b : BoardEnv) (kInvalidMove : MoveIndex) (position : Position)
    (defend_evaluation attack_evaluation : PositionEvaluation) : Cell :=
  b.MoveIndexToCell
    (SuggestMoveLoop kInvalidMove (b.NumAvailableMoves position) defend_evaluation
      attack_evaluation).2

/-- The part of `Frontend::Genmove` after `SuggestMove` has returned `move`:
`none` stands for `exit(EXIT_FAILURE)` after `Unexpected move`. -/
def GenmovePlay (ext : Externals) (fe : Frontend) (player : Player) (move : String) :
    Option Frontend :=
  let r := fe.engine_.Move ext player move
  if !r.returned then none
  else
    some ({ ({ fe with engine_ := r.engine, result_ := r.written.getD fe.result_ }).Answer
      kSuccess move with player_ := Opponent player })

/-- The search environment of the second searcher of `SuggestMove` on the sample
board when White is to move: `Searcher defend(..., Opponent(player_to_move))`
has Black as its attacker. -/
def sampleDefendEnv (cap : Int) : SearchEnv :=
  { sampleSearchEnv cap with attacker_ := Player.kBlack }

/-- Source text: `Engine::SuggestMove` after the threads are joined: the two
published evaluations are read, the final loop selects `best_move`, and the cell
`MoveIndexToCell(best_move)` is returned (as its name).  Here `attack` and
`defend` are the two searchers after `FillEvaluation(0ULL)`; `none` when an
assertion of `FillEvaluation` fails. -/
def SuggestMoveAfterJoin (kInvalidMove : MoveIndex) (position : Position)
    (attack_env : SearchEnv) (attack : Searcher) (defend_env : SearchEnv) (defend : Searcher) :
    Option Cell :=
  match attack.FillEvaluation attack_env 0, defend.FillEvaluation defend_env 0 with
  | some attack_evaluation, some defend_evaluation =>
    some (SuggestMoveCell attack_env.board kInvalidMove position defend_evaluation
      attack_evaluation)
  | _, _ => none

/-! ### Runs that meet no node twice -/

/-- Between the two states the vectors of the arena below index `n` were left as
they were. -/
def Untouched (n : Nat) (st st' : Searcher) : Prop :=
  ∀ idx, idx < n → st'.getMoves idx = st.getMoves idx

/-- The arithmetic of the two pass constants modulo `2^64`. -/
theorem pass_children_arith (h : Hash) (hh : h < kHashModulus) :
    defenderPassChild (attackerPassChild h) = h ∧
    attackerPassChild (defenderPassChild h) = h ∧
    attackerPassChild h ≠ h ∧ defenderPassChild h ≠ h := by
  have hm : kHashModulus = 18446744073709551616 := by norm_num [kHashModulus]
  have ha : kAttackerPassHash = 2401053088876216593 := by
    norm_num [kAttackerPassHash, kHashModulus]
  have hd : kDefenderPassHash = 16045690984833335023 := by norm_num [kDefenderPassHash]
  unfold defenderPassChild attackerPassChild
  rw [hm] at hh ⊢
  rw [ha, hd]
  unfold Hash at *
  omega

/-- C1 (as stated, refuted): at the root hash `0`, which is a 64-bit hash, an
attacker pass followed by a defender pass gives the hash `0` again, so the two
transforms cancel. -/
theorem C1_passes_cancel_at_root :
    (0 : Hash) < kHashModulus ∧ defenderPassChild (attackerPassChild 0) = 0 :=
  ⟨by norm_num [kHashModulus], (pass_children_arith 0 (by norm_num [kHashModulus])).1⟩

/-- C1 (amended): for every 64-bit hash `h`, an attacker pass followed by a
defender pass returns exactly `h` (and so does a defender pass followed by an
attacker pass), because the two constants are negatives of each other modulo
`2^64`; a single pass of either kind yields a hash different from `h`. -/
theorem C1_pass_hashes_are_inverse (h : Hash) (hh : h < kHashModulus) :
    defenderPassChild (attackerPassChild h) = h ∧
    attackerPassChild (defenderPassChild h) = h ∧
    attackerPassChild h ≠ h ∧ defenderPassChild h ≠ h :=
  pass_children_arith h hh

/-- Witness for C1 (amended) at the hash `12345`. -/
theorem C1_pass_hashes_are_inverse_witness :
    (12345 : Hash) < kHashModulus ∧
    (defenderPassChild (attackerPassChild 12345) = 12345 ∧
     attackerPassChild (defenderPassChild 12345) = 12345 ∧
     attackerPassChild 12345 ≠ 12345 ∧ defenderPassChild 12345 ≠ 12345) :=
  ⟨by norm_num [kHashModulus], C1_pass_hashes_are_inverse 12345 (by norm_num [kHashModulus])⟩

/-! ### `Engine::Move` -/

/-- What `Engine::Move` does with the text `"swap"`. -/
theorem move_swap_eq (ext : Externals) (e : Engine) (player : Player) :
    e.Move ext player "swap" =
      { returned := true, written := some kNoneWon,
        engine := { position_ := e.position_.SwapPlayers, has_swapped_ := true } } := by
  unfold Engine.Move
  rw [if_neg (by decide), if_pos rfl]

/-- What `Engine::Move` does with the text `"pass"`. -/
theorem move_pass_eq (ext : Externals) (e : Engine) (player : Player) :
    e.Move ext player "pass" =
      { returned := true, written := some kNoneWon, engine := e } := by
  unfold Engine.Move
  rw [if_pos rfl]

/-- C2 (as stated, refuted): in a position with two stones on the board, which is
not a first-move situation, `Move(kWhite, "swap", &result)` returns `true` and the
stones have changed colour. -/
theorem C2_swap_accepted_after_two_moves :
    (Position.mk [(Player.kBlack, 2), (Player.kWhite, 1)]).MoveCount = 2 ∧
    ((Engine.mk (Position.mk [(Player.kBlack, 2), (Player.kWhite, 1)]) false).Move
        sampleExternals Player.kWhite "swap").returned = true ∧
    ((Engine.mk (Position.mk [(Player.kBlack, 2), (Player.kWhite, 1)]) false).Move
        sampleExternals Player.kWhite "swap").engine.position_
      = Position.mk [(Player.kWhite, 2), (Player.kBlack, 1)] ∧
    ((Engine.mk (Position.mk [(Player.kBlack, 2), (Player.kWhite, 1)]) false).Move
        sampleExternals Player.kWhite "swap").engine.position_
      ≠ Position.mk [(Player.kBlack, 2), (Player.kWhite, 1)] := by
  rw [move_swap_eq]
  decide

/-- C2 (amended): `Engine::Move` accepts the text `"swap"` in every position,
whatever the move count: it returns `true`, writes `kNoneWon`, sets the swap flag,
and the position becomes `SwapPlayers` of the old one, in which every stone has
changed colour and kept its cell. -/
theorem C2_swap_accepted_in_every_position (ext : Externals) (e : Engine) (player : Player) :
    (e.Move ext player "swap").returned = true ∧
    (e.Move ext player "swap").written = some kNoneWon ∧
    (e.Move ext player "swap").engine.has_swapped_ = true ∧
    (e.Move ext player "swap").engine.position_ = e.position_.SwapPlayers ∧
    (e.Move ext player "swap").engine.position_.moves
      = e.position_.moves.map (fun m => (Opponent m.1, m.2)) := by
  rw [move_swap_eq]
  exact ⟨rfl, rfl, rfl, rfl, rfl⟩

/-- C3: for every player and every move text other than `"pass"` and `"swap"`, if
`FromString` returns `kZerothCell` for the text or the named cell is not empty,
then `Engine::Move` returns `false`, leaves the position and the swap flag
unchanged, and does not write `*result`. -/
theorem C3_illegal_move_rejected (ext : Externals) (e : Engine) (player : Player)
    (move_string : String) (hpass : move_string ≠ "pass") (hswap : move_string ≠ "swap")
    (hbad : ext.FromString move_string = kZerothCell ∨
      e.position_.CellIsEmpty (ext.FromString move_string) = false) :
    (e.Move ext player move_string).returned = false ∧
    (e.Move ext player move_string).engine.position_ = e.position_ ∧
    (e.Move ext player move_string).engine.has_swapped_ = e.has_swapped_ ∧
    (e.Move ext player move_string).written = none := by
  unfold Engine.Move
  rw [if_neg hpass, if_neg hswap]
  rcases hbad with hz | hocc
  · simp [hz]
  · by_cases hz : ext.FromString move_string = kZerothCell
    · simp [hz]
    · simp [hz, hocc]

/-- Witness for C3: with a white stone on cell `1`, the text `"zz"` names no cell
and `"a1"` names the occupied cell; here the first is used. -/
theorem C3_illegal_move_rejected_witness :
    ((Engine.mk (Position.mk [(Player.kWhite, 1)]) false).Move
        sampleExternals Player.kBlack "zz").returned = false ∧
    ((Engine.mk (Position.mk [(Player.kWhite, 1)]) false).Move
        sampleExternals Player.kBlack "zz").engine.position_
      = (Engine.mk (Position.mk [(Player.kWhite, 1)]) false).position_ ∧
    ((Engine.mk (Position.mk [(Player.kWhite, 1)]) false).Move
        sampleExternals Player.kBlack "zz").engine.has_swapped_
      = (Engine.mk (Position.mk [(Player.kWhite, 1)]) false).has_swapped_ ∧
    ((Engine.mk (Position.mk [(Player.kWhite, 1)]) false).Move
        sampleExternals Player.kBlack "zz").written = none :=
  C3_illegal_move_rejected sampleExternals
    (Engine.mk (Position.mk [(Player.kWhite, 1)]) false) Player.kBlack "zz"
    (by decide) (by decide) (Or.inl (by decide))

/-- C4: whenever `Engine::Move` returns `true` it has written `*result`; the
written value is `kNoneWon` for `"pass"`, for `"swap"` and for a cell move whose
`MakePermanentMove` returns `0`; for a cell move whose `MakePermanentMove` returns
non-zero it is `kWhiteWon` exactly when the mover is White and `kBlackWon` exactly
when the mover is Black; and `"pass"` leaves the engine, hence the position,
unchanged. -/
theorem C4_move_result_written (ext : Externals) (e : Engine) (player : Player)
    (move_string : String) (hret : (e.Move ext player move_string).returned = true) :
    ∃ v : Int, (e.Move ext player move_string).written = some v ∧
      (move_string = "pass" → v = kNoneWon ∧ (e.Move ext player move_string).engine = e) ∧
      (move_string = "swap" → v = kNoneWon) ∧
      (move_string ≠ "pass" → move_string ≠ "swap" →
        ((e.position_.MakePermanentMove ext.winning_condition player
            (ext.FromString move_string)).1 = 0 → v = kNoneWon) ∧
        ((e.position_.MakePermanentMove ext.winning_condition player
            (ext.FromString move_string)).1 ≠ 0 →
          (v = kWhiteWon ↔ player = Player.kWhite) ∧
          (v = kBlackWon ↔ player = Player.kBlack))) := by
  by_cases hpass : move_string = "pass"
  · subst hpass
    rw [move_pass_eq]
    exact ⟨kNoneWon, rfl, fun _ => ⟨rfl, rfl⟩, fun h => absurd h (by decide),
      fun h => absurd rfl h⟩
  by_cases hswap : move_string = "swap"
  · subst hswap
    rw [move_swap_eq]
    exact ⟨kNoneWon, rfl, fun h => absurd h (by decide), fun _ => rfl,
      fun _ h => absurd rfl h⟩
  unfold Engine.Move at hret ⊢
  rw [if_neg hpass, if_neg hswap] at hret ⊢
  by_cases hz : ext.FromString move_string = kZerothCell
  · simp [hz] at hret
  by_cases hocc : e.position_.CellIsEmpty (ext.FromString move_string) = true
  · by_cases hwin : (e.position_.MakePermanentMove ext.winning_condition player
        (ext.FromString move_string)).1 = 0
    · refine ⟨kNoneWon, ?_, fun h => absurd h hpass, fun h => absurd h hswap, fun _ _ => ?_⟩
      · simp [hz, hocc, hwin]
      · exact ⟨fun _ => rfl, fun h => absurd hwin h⟩
    · cases player with
      | kWhite =>
        refine ⟨kWhiteWon, ?_, fun h => absurd h hpass, fun h => absurd h hswap, fun _ _ => ?_⟩
        · simp [hz, hocc, hwin]
        · exact ⟨fun h => absurd h hwin, fun _ => ⟨by simp, by decide⟩⟩
      | kBlack =>
        refine ⟨kBlackWon, ?_, fun h => absurd h hpass, fun h => absurd h hswap, fun _ _ => ?_⟩
        · simp [hz, hocc, hwin]
        · exact ⟨fun h => absurd h hwin, fun _ => ⟨by decide, by simp⟩⟩
  · simp [hz, hocc] at hret

/-- Witness for C4: on the empty board White plays the cell named `"a1"`. -/
theorem C4_move_result_written_witness :
    ((Engine.mk Position.InitToStartPosition false).Move
        sampleExternals Player.kWhite "a1").returned = true ∧
    ∃ v : Int, ((Engine.mk Position.InitToStartPosition false).Move
        sampleExternals Player.kWhite "a1").written = some v ∧
      ("a1" = "pass" → v = kNoneWon ∧
        ((Engine.mk Position.InitToStartPosition false).Move
          sampleExternals Player.kWhite "a1").engine
          = Engine.mk Position.InitToStartPosition false) ∧
      ("a1" = "swap" → v = kNoneWon) ∧
      ("a1" ≠ "pass" → "a1" ≠ "swap" →
        ((Position.InitToStartPosition.MakePermanentMove sampleExternals.winning_condition
            Player.kWhite (sampleExternals.FromString "a1")).1 = 0 → v = kNoneWon) ∧
        ((Position.InitToStartPosition.MakePermanentMove sampleExternals.winning_condition
            Player.kWhite (sampleExternals.FromString "a1")).1 ≠ 0 →
          (v = kWhiteWon ↔ Player.kWhite = Player.kWhite) ∧
          (v = kBlackWon ↔ Player.kWhite = Player.kBlack))) :=
  ⟨by decide,
   C4_move_result_written sampleExternals (Engine.mk Position.InitToStartPosition false)
     Player.kWhite "a1" (by decide)⟩

/-! ### `putstones` and `playgame` -/

/-- C5 (evaluation at the failing input): the engine holds one permanent move, a
white stone on cell `1`; the command `putstones b zz` names no cell at `args[1]`,
so `Engine::Move` rejects it and the command answers failure; the roll-back loop
then calls `Undo` once although the command has made no move, and the engine is
left with the empty position instead of the position before the command. -/
theorem C5_putstones_failure_undoes_earlier_move :
    oneStoneFrontend.engine_.position_ = Position.mk [(Player.kWhite, 1)] ∧
    (oneStoneFrontend.engine_.Move sampleExternals Player.kBlack "zz").returned = false ∧
    (oneStoneFrontend.PutStones sampleExternals ["b", "zz"]).command_succeeded_ = false ∧
    (oneStoneFrontend.PutStones sampleExternals ["b", "zz"]).engine_.position_
      = Position.mk [] ∧
    (oneStoneFrontend.PutStones sampleExternals ["b", "zz"]).engine_.position_
      ≠ oneStoneFrontend.engine_.position_ := by
  decide

/-- C6 (evaluation at the failing input): the engine holds one permanent move, a
white stone on cell `1`, and Black is to move; in `playgame pass zz` the text
`"pass"` is accepted without a move being made and `"zz"` is rejected, the
roll-back loop calls `Undo` once, and the engine is left with the empty position
instead of the position before the command, while `player_` is restored.  With
`playgame swap zz` the same happens after the colours were swapped. -/
theorem C6_playgame_failure_after_pass_undoes_earlier_move :
    oneStoneFrontend.engine_.position_ = Position.mk [(Player.kWhite, 1)] ∧
    (oneStoneFrontend.PlayGame sampleExternals ["pass", "zz"]).command_succeeded_ = false ∧
    (oneStoneFrontend.PlayGame sampleExternals ["pass", "zz"]).engine_.position_
      = Position.mk [] ∧
    (oneStoneFrontend.PlayGame sampleExternals ["pass", "zz"]).engine_.position_
      ≠ oneStoneFrontend.engine_.position_ ∧
    (oneStoneFrontend.PlayGame sampleExternals ["pass", "zz"]).player_
      = oneStoneFrontend.player_ ∧
    (oneStoneFrontend.PlayGame sampleExternals ["swap", "zz"]).command_succeeded_ = false ∧
    (oneStoneFrontend.PlayGame sampleExternals ["swap", "zz"]).engine_
      = Engine.mk (Position.mk []) true := by
  decide

/-! ### The final loop of `SuggestMove` -/

/-- On values in the 32-bit range the `int` reduction is the identity. -/
theorem toInt32_of_range (x : Int) (hlo : -2147483648 ≤ x) (hhi : x ≤ 2147483647) :
    toInt32 x = x := by
  unfold toInt32
  omega

/-- The difference of two published evaluations is computed exactly. -/
theorem step_value_eq (d a : PositionEvaluation) (hd : IsPublished d) (ha : IsPublished a)
    (i : Nat) : toInt32 (d (i : Int) - a (i : Int)) = moveScore d a i := by
  have h1 := hd (i : Int)
  have h2 := ha (i : Int)
  unfold moveScore
  apply toInt32_of_range <;> omega

/-- Invariant of the final loop of `SuggestMove` after `n` moves have been
examined: either no score exceeded `-kInfinity` and the initial pair is still
there, or the pair holds the first maximiser among the moves examined. -/
theorem suggest_loop_invariant (kInvalidMove : MoveIndex) (d a : PositionEvaluation)
    (hd : IsPublished d) (ha : IsPublished a) (n : Nat) :
    (SuggestMoveLoop kInvalidMove n d a = (-kInfinity, kInvalidMove) ∧
      ∀ j, j < n → moveScore d a j ≤ -kInfinity) ∨
    (∃ k, k < n ∧ SuggestMoveLoop kInvalidMove n d a = (moveScore d a k, (k : Int)) ∧
      -kInfinity < moveScore d a k ∧
      (∀ j, j < n → moveScore d a j ≤ moveScore d a k) ∧
      (∀ j, j < k → moveScore d a j < moveScore d a k)) := by
  induction n with
  | zero =>
    left
    refine ⟨rfl, ?_⟩
    intro j hj
    omega
  | succ n ih =>
    have hstep : SuggestMoveLoop kInvalidMove (n + 1) d a
        = SuggestMoveStep d a (SuggestMoveLoop kInvalidMove n d a) n := by
      unfold SuggestMoveLoop
      rw [List.range_succ, List.foldl_append]
      rfl
    rw [hstep]
    unfold SuggestMoveStep
    simp only [step_value_eq d a hd ha n]
    rcases ih with ⟨heq, hall⟩ | ⟨k, hk, heq, hpos, hmax, hfirst⟩
    · rw [heq]
      by_cases hgt : moveScore d a n > -kInfinity
      · right
        refine ⟨n, by omega, ?_, hgt, ?_, ?_⟩
        · simp [hgt]
        · intro j hj
          rcases Nat.lt_succ_iff_lt_or_eq.mp hj with hlt | rfl
          · have := hall j hlt
            omega
          · exact le_refl _
        · intro j hj
          have := hall j hj
          omega
      · left
        refine ⟨by simp [hgt], ?_⟩
        intro j hj
        rcases Nat.lt_succ_iff_lt_or_eq.mp hj with hlt | rfl
        · exact hall j hlt
        · omega
    · rw [heq]
      right
      by_cases hgt : moveScore d a n > moveScore d a k
      · refine ⟨n, by omega, ?_, by omega, ?_, ?_⟩
        · simp [hgt]
        · intro j hj
          rcases Nat.lt_succ_iff_lt_or_eq.mp hj with hlt | rfl
          · have := hmax j hlt
            omega
          · exact le_refl _
        · intro j hj
          have := hmax j hj
          omega
      · refine ⟨k, by omega, ?_, hpos, ?_, hfirst⟩
        · simp [hgt]
        · intro j hj
          rcases Nat.lt_succ_iff_lt_or_eq.mp hj with hlt | rfl
          · exact hmax j hlt
          · omega

/-- C7: given two published root evaluations, if some move index below
`NumAvailableMoves` has a score `defend_eval(m) - attack_eval(m)` above
`-kInfinity`, then the move index chosen by the final loop of `SuggestMove` is an
index `k` in `[0, NumAvailableMoves)` whose score is the largest, `best_value` is
that score, and every smaller index has a strictly smaller score: the choice is
the smallest maximiser. -/
theorem C7_suggest_move_first_maximiser (kInvalidMove : MoveIndex) (NumAvailableMoves : Nat)
    (defend_eval attack_eval : PositionEvaluation)
    (hd : IsPublished defend_eval) (ha : IsPublished attack_eval)
    (hsome : ∃ m, m < NumAvailableMoves ∧ -kInfinity < moveScore defend_eval attack_eval m) :
    ∃ k : Nat, k < NumAvailableMoves ∧
      (SuggestMoveLoop kInvalidMove NumAvailableMoves defend_eval attack_eval).2 = (k : Int) ∧
      (SuggestMoveLoop kInvalidMove NumAvailableMoves defend_eval attack_eval).1
        = moveScore defend_eval attack_eval k ∧
      (∀ j, j < NumAvailableMoves →
        moveScore defend_eval attack_eval j ≤ moveScore defend_eval attack_eval k) ∧
      (∀ j, j < k →
        moveScore defend_eval attack_eval j < moveScore defend_eval attack_eval k) := by
  rcases suggest_loop_invariant kInvalidMove defend_eval attack_eval hd ha NumAvailableMoves
    with ⟨_, hall⟩ | ⟨k, hk, heq, _, hmax, hfirst⟩
  · obtain ⟨m, hm, hpos⟩ := hsome
    have := hall m hm
    omega
  · exact ⟨k, hk, by rw [heq], by rw [heq], hmax, hfirst⟩

/-- Witness for C7: three available moves, the defender evaluation is `300` at
the indices `1` and `2` and `100` elsewhere, the attacker evaluation is `0`
everywhere; the scores are `100, 300, 300`. -/
theorem C7_suggest_move_first_maximiser_witness :
    IsPublished (fun m => if m = 1 ∨ m = 2 then 300 else 100) ∧
    IsPublished (fun _ => 0) ∧
    (∃ m, m < 3 ∧ -kInfinity
        < moveScore (fun m => if m = 1 ∨ m = 2 then 300 else 100) (fun _ => 0) m) ∧
    ∃ k : Nat, k < 3 ∧
      (SuggestMoveLoop (-1) 3 (fun m => if m = 1 ∨ m = 2 then 300 else 100) (fun _ => 0)).2
        = (k : Int) ∧
      (SuggestMoveLoop (-1) 3 (fun m => if m = 1 ∨ m = 2 then 300 else 100) (fun _ => 0)).1
        = moveScore (fun m => if m = 1 ∨ m = 2 then 300 else 100) (fun _ => 0) k ∧
      (∀ j, j < 3 →
        moveScore (fun m => if m = 1 ∨ m = 2 then 300 else 100) (fun _ => 0) j
          ≤ moveScore (fun m => if m = 1 ∨ m = 2 then 300 else 100) (fun _ => 0) k) ∧
      (∀ j, j < k →
        moveScore (fun m => if m = 1 ∨ m = 2 then 300 else 100) (fun _ => 0) j
          < moveScore (fun m => if m = 1 ∨ m = 2 then 300 else 100) (fun _ => 0) k) :=
  have hd : IsPublished (fun m => if m = 1 ∨ m = 2 then 300 else 100) := by
    intro m
    by_cases h : m = 1 ∨ m = 2 <;> simp [h]
  have ha : IsPublished (fun _ => 0) := by
    intro m
    simp
  have hsome : ∃ m, m < 3 ∧ -kInfinity
      < moveScore (fun m => if m = 1 ∨ m = 2 then 300 else 100) (fun _ => 0) m :=
    ⟨0, by decide, by decide⟩
  ⟨hd, ha, hsome, C7_suggest_move_first_maximiser (-1) 3 _ _ hd ha hsome⟩

/-! ### Minima of lists -/

/-- A left fold of `min` is below its start value and below every element. -/
theorem foldl_min_le (xs : List Int) (x : Int) :
    xs.foldl min x ≤ x ∧ ∀ y ∈ xs, xs.foldl min x ≤ y := by
  induction xs generalizing x with
  | nil => simp
  | cons z zs ih =>
    have h := ih (min x z)
    refine ⟨le_trans h.1 (min_le_left _ _), ?_⟩
    intro y hy
    rcases List.mem_cons.mp hy with rfl | hmem
    · exact le_trans h.1 (min_le_right _ _)
    · exact h.2 y hmem

/-- A lower bound of the start value and of every element is a lower bound of the
left fold of `min`. -/
theorem le_foldl_min (xs : List Int) (x b : Int) (hx : b ≤ x) (hall : ∀ y ∈ xs, b ≤ y) :
    b ≤ xs.foldl min x := by
  induction xs generalizing x with
  | nil => simpa using hx
  | cons z zs ih =>
    apply ih
    · exact le_min hx (hall z (List.mem_cons_self _ _))
    · intro y hy
      exact hall y (List.mem_cons_of_mem _ hy)

/-- The minimum of a list is below each of its elements. -/
theorem minimumOf_le (dflt : Int) (l : List Int) (y : Int) (hy : y ∈ l) :
    minimumOf dflt l ≤ y := by
  cases l with
  | nil => simp at hy
  | cons x xs =>
    rcases List.mem_cons.mp hy with rfl | hmem
    · exact (foldl_min_le xs _).1
    · exact (foldl_min_le xs x).2 y hmem

/-- A lower bound of every element of a non-empty list is a lower bound of its
minimum. -/
theorem le_minimumOf (dflt : Int) (l : List Int) (b : Int) (hne : l ≠ [])
    (hall : ∀ y ∈ l, b ≤ y) : b ≤ minimumOf dflt l := by
  cases l with
  | nil => exact absurd rfl hne
  | cons x xs =>
    exact le_foldl_min xs x b (hall x (List.mem_cons_self _ _))
      (fun y hy => hall y (List.mem_cons_of_mem _ hy))

/-! ### `EvaluateForkFrames` -/

/-- The value of the final `tmp3` at one cell, written out. -/
theorem fork_combine_apply (K : Int) (fo : Nat → PositionEvaluation) (m : MoveIndex) :
    ForkFramesCombine K fo m =
      min (min
        (min (min (min (fo 0 m) (fo 1 m) + min (fo 2 m) (fo 3 m)) K + min (fo 5 m) (fo 4 m)) K)
        (min (min (min (fo 0 m) (fo 4 m) + min (fo 2 m) (fo 1 m)) K + min (fo 5 m) (fo 3 m)) K))
        (min (min (min (fo 0 m) (fo 3 m) + min (fo 2 m) (fo 4 m)) K + min (fo 5 m) (fo 1 m)) K) :=
  rfl

/-- The spec's fork combination at one cell, written out. -/
theorem fork_combination_unfold (K : Int) (out : Nat → Int) :
    forkCombination K out =
      min (min
        (min (min (min (out 0) (out 1) + min (out 2) (out 3)) K + min (out 4) (out 5)) K)
        (min (min (min (out 0) (out 4) + min (out 2) (out 1)) K + min (out 5) (out 3)) K))
        (min (min (min (out 0) (out 3) + min (out 2) (out 4)) K + min (out 5) (out 1)) K) :=
  rfl

/-- The spec's fork combination with `part` saturated once, written out. -/
theorem fork_combination_once_unfold (K : Int) (out : Nat → Int) :
    forkCombinationOnce K out =
      min (min
        (min (min (out 0) (out 1) + min (out 2) (out 3) + min (out 4) (out 5)) K)
        (min (min (out 0) (out 4) + min (out 2) (out 1) + min (out 5) (out 3)) K))
        (min (min (out 0) (out 3) + min (out 2) (out 4) + min (out 5) (out 1)) K) :=
  rfl

/-- The final `tmp3` of the chain loop is the spec's fork combination of the six
`from_outside` values at the cell. -/
theorem fork_combine_eq_spec (K : Int) (fo : Nat → PositionEvaluation) (m : MoveIndex) :
    ForkFramesCombine K fo m = forkCombination K (fun j => fo j m) := by
  rw [fork_combine_apply, fork_combination_unfold]
  simp only [min_comm (fo 5 m) (fo 4 m)]

/-- The chain loop computes, at each cell, the left fold of `min` over the
per-chain values, started at the previous value. -/
theorem fork_loop_apply {Chain : Type} (K : Int) (fo : Chain → Nat → PositionEvaluation)
    (chains : List Chain) (evaluation : PositionEvaluation) (m : MoveIndex) :
    EvaluateForkFramesLoop K fo chains evaluation m
      = (perChainValues K fo chains m).foldl min (evaluation m) := by
  induction chains generalizing evaluation with
  | nil => rfl
  | cons c cs ih =>
    unfold EvaluateForkFramesLoop
    rw [ih]
    unfold perChainValues
    simp only [List.map_cons, List.foldl_cons, SetToMinimum, fork_combine_eq_spec]

/-- With non-negative values, saturating after each addition and saturating the
three-term sum once give the same fork combination. -/
theorem fork_combination_eq_once (K : Int) (out : Nat → Int)
    (hnn : ∀ j, j < 6 → 0 ≤ out j) : forkCombination K out = forkCombinationOnce K out := by
  rw [fork_combination_unfold, fork_combination_once_unfold]
  have h1 := hnn 1 (by decide)
  have h3 := hnn 3 (by decide)
  have h4 := hnn 4 (by decide)
  have h5 := hnn 5 (by decide)
  have e1 : min (min (min (out 0) (out 1) + min (out 2) (out 3)) K + min (out 4) (out 5)) K
      = min (min (out 0) (out 1) + min (out 2) (out 3) + min (out 4) (out 5)) K := by omega
  have e2 : min (min (min (out 0) (out 4) + min (out 2) (out 1)) K + min (out 5) (out 3)) K
      = min (min (out 0) (out 4) + min (out 2) (out 1) + min (out 5) (out 3)) K := by omega
  have e3 : min (min (min (out 0) (out 3) + min (out 2) (out 4)) K + min (out 5) (out 1)) K
      = min (min (out 0) (out 3) + min (out 2) (out 4) + min (out 5) (out 1)) K := by omega
  rw [e1, e2, e3]

/-- C8: for every own chain and every cell, the map that `EvaluateForkFrames`
merges into the evaluation (the final `tmp3`) equals the minimum over the three
partitions `{(0,1),(2,3),(4,5)}`, `{(0,4),(2,1),(5,3)}`, `{(0,3),(2,4),(5,1)}` of
the saturated sum of the three pairwise minima of `from_outside` at that cell;
the evaluation after the call is, at every cell, the minimum of its previous
value and these per-chain values; and when the six values are non-negative the
saturated sum is `min(kMaxDistance, min + min + min)`. -/
theorem C8_fork_frames_three_partitions {Chain : Type} (kMaxDistance : Int)
    (current_chains : List Chain) (from_outside : Chain → Nat → PositionEvaluation)
    (evaluation : PositionEvaluation) (m : MoveIndex) :
    (∀ chain : Chain, ForkFramesCombine kMaxDistance (from_outside chain) m
        = forkCombination kMaxDistance (fun j => from_outside chain j m)) ∧
    EvaluateForkFrames kMaxDistance current_chains from_outside evaluation m
      = (perChainValues kMaxDistance from_outside current_chains m).foldl min (evaluation m) ∧
    (∀ x ∈ perChainValues kMaxDistance from_outside current_chains m,
      EvaluateForkFrames kMaxDistance current_chains from_outside evaluation m ≤ x) ∧
    EvaluateForkFrames kMaxDistance current_chains from_outside evaluation m ≤ evaluation m ∧
    (∀ b : Int, b ≤ evaluation m →
      (∀ x ∈ perChainValues kMaxDistance from_outside current_chains m, b ≤ x) →
      b ≤ EvaluateForkFrames kMaxDistance current_chains from_outside evaluation m) ∧
    (∀ chain : Chain, (∀ j, j < 6 → 0 ≤ from_outside chain j m) →
      ForkFramesCombine kMaxDistance (from_outside chain) m
        = forkCombinationOnce kMaxDistance (fun j => from_outside chain j m)) := by
  have hcall : EvaluateForkFrames kMaxDistance current_chains from_outside evaluation m
      = (perChainValues kMaxDistance from_outside current_chains m).foldl min
          (evaluation m) := by
    unfold EvaluateForkFrames
    cases current_chains with
    | nil => rfl
    | cons c cs => exact fork_loop_apply kMaxDistance from_outside (c :: cs) evaluation m
  refine ⟨fun chain => fork_combine_eq_spec _ _ _, hcall, ?_, ?_, ?_, ?_⟩
  · rw [hcall]
    exact (foldl_min_le _ _).2
  · rw [hcall]
    exact (foldl_min_le _ _).1
  · intro b hb hall
    rw [hcall]
    exact le_foldl_min _ _ b hb hall
  · intro chain hnn
    rw [fork_combine_eq_spec]
    exact fork_combination_eq_once kMaxDistance (fun j => from_outside chain j m) hnn

/-- Witness for C8: two chains with the sample maps, `kMaxDistance = 50`, previous
value `50` at cell `0`; the first chain contributes `3`, the second `6`. -/
theorem C8_fork_frames_three_partitions_witness :
    (∀ j, j < 6 → 0 ≤ sampleOutside 0 j 0) ∧
    EvaluateForkFrames 50 [0, 1] sampleOutside (fun _ => 50) 0 = 3 ∧
    ForkFramesCombine 50 (sampleOutside 0) 0
      = forkCombinationOnce 50 (fun j => sampleOutside 0 j 0) :=
  have hnn : ∀ j, j < 6 → 0 ≤ sampleOutside 0 j 0 := by
    intro j _
    unfold sampleOutside
    omega
  ⟨hnn,
   (C8_fork_frames_three_partitions 50 [0, 1] sampleOutside (fun _ => 50) 0).2.1.trans
     (by decide),
   (C8_fork_frames_three_partitions 50 [0, 1] sampleOutside (fun _ => 50) 0).2.2.2.2.2 0 hnn⟩

/-! ### The three partitions and the twenty edge triples -/

/-- Every increasing triple of edges is listed in `edgeTriples`. -/
theorem mem_edgeTriples :
    ∀ a b c : Fin 6, a < b → b < c → (a.val, b.val, c.val) ∈ edgeTriples := by
  decide

/-- Every listed triple is increasing and stays below `6`. -/
theorem edgeTriples_sorted :
    ∀ t ∈ edgeTriples, t.1 < t.2.1 ∧ t.2.1 < t.2.2 ∧ t.2.2 < 6 := by
  decide

/-- The minimum over all triples is below `kMaxDistance` and below the sum of any
increasing triple. -/
theorem allTriples_le (K : Int) (out : Nat → Int) (a b c : Nat)
    (hab : a < b) (hbc : b < c) (hc : c < 6) :
    allTriplesMinimum K out ≤ K ∧ allTriplesMinimum K out ≤ out a + out b + out c := by
  have hmem : (a, b, c) ∈ edgeTriples :=
    mem_edgeTriples ⟨a, by omega⟩ ⟨b, by omega⟩ ⟨c, hc⟩ hab hbc
  have h := minimumOf_le K (edgeTriples.map (tripleValue K out)) _
    (List.mem_map_of_mem (tripleValue K out) hmem)
  unfold tripleValue at h
  exact ⟨le_trans h (min_le_right _ _), le_trans h (min_le_left _ _)⟩

/-- A value below `kMaxDistance` and below the sum of every increasing triple is
below the minimum over all triples. -/
theorem le_allTriples (K : Int) (out : Nat → Int) (x : Int) (hK : x ≤ K)
    (hall : ∀ a b c, a < b → b < c → c < 6 → x ≤ out a + out b + out c) :
    x ≤ allTriplesMinimum K out := by
  unfold allTriplesMinimum
  apply le_minimumOf
  · intro h
    have h2 : edgeTriples = [] := List.map_eq_nil_iff.mp h
    revert h2
    decide
  · intro y hy
    obtain ⟨t, ht, rfl⟩ := List.mem_map.mp hy
    obtain ⟨h1, h2, h3⟩ := edgeTriples_sorted t ht
    unfold tripleValue
    exact le_min (hall _ _ _ h1 h2 h3) hK

/-- Membership in `edgeTriples` is being an increasing triple of edges. -/
theorem mem_edgeTriples_iff (a b c : Nat) :
    (a, b, c) ∈ edgeTriples ↔ a < b ∧ b < c ∧ c < 6 := by
  constructor
  · intro h
    exact edgeTriples_sorted (a, b, c) h
  · rintro ⟨hab, hbc, hc⟩
    exact mem_edgeTriples ⟨a, by omega⟩ ⟨b, by omega⟩ ⟨c, hc⟩ hab hbc

/-- One partition term is above any value that is below `kMaxDistance` and below
the eight sums that pick one edge from each pair; the third pair is
non-negative. -/
theorem le_partition_term (K t a b c d e f : Int) (he : 0 ≤ e) (hf : 0 ≤ f) (hK : t ≤ K)
    (h1 : t ≤ a + c + e) (h2 : t ≤ a + c + f) (h3 : t ≤ a + d + e) (h4 : t ≤ a + d + f)
    (h5 : t ≤ b + c + e) (h6 : t ≤ b + c + f) (h7 : t ≤ b + d + e) (h8 : t ≤ b + d + f) :
    t ≤ min (min (min a b + min c d) K + min e f) K := by
  omega

/-- One partition term is below `kMaxDistance` and below the eight sums that pick
one edge from each pair. -/
theorem partition_term_le (K a b c d e f : Int) :
    min (min (min a b + min c d) K + min e f) K ≤ K ∧
    min (min (min a b + min c d) K + min e f) K ≤ a + c + e ∧
    min (min (min a b + min c d) K + min e f) K ≤ a + c + f ∧
    min (min (min a b + min c d) K + min e f) K ≤ a + d + e ∧
    min (min (min a b + min c d) K + min e f) K ≤ a + d + f ∧
    min (min (min a b + min c d) K + min e f) K ≤ b + c + e ∧
    min (min (min a b + min c d) K + min e f) K ≤ b + c + f ∧
    min (min (min a b + min c d) K + min e f) K ≤ b + d + e ∧
    min (min (min a b + min c d) K + min e f) K ≤ b + d + f := by
  omega

/-- With non-negative values the final `tmp3` of the chain loop is, at each cell,
the minimum over all twenty edge triples of the saturated three-edge sum. -/
theorem fork_combine_eq_triples (K : Int) (fo : Nat → PositionEvaluation) (m : MoveIndex)
    (hnn : ∀ j, j < 6 → 0 ≤ fo j m) :
    ForkFramesCombine K fo m = allTriplesMinimum K (fun j => fo j m) := by
  rw [fork_combine_apply]
  have n0 := hnn 0 (by decide)
  have n1 := hnn 1 (by decide)
  have n2 := hnn 2 (by decide)
  have n3 := hnn 3 (by decide)
  have n4 := hnn 4 (by decide)
  have n5 := hnn 5 (by decide)
  have p1 := partition_term_le K (fo 0 m) (fo 1 m) (fo 2 m) (fo 3 m) (fo 5 m) (fo 4 m)
  have p2 := partition_term_le K (fo 0 m) (fo 4 m) (fo 2 m) (fo 1 m) (fo 5 m) (fo 3 m)
  have p3 := partition_term_le K (fo 0 m) (fo 3 m) (fo 2 m) (fo 4 m) (fo 5 m) (fo 1 m)
  apply le_antisymm
  · generalize min (min (min (fo 0 m) (fo 1 m) + min (fo 2 m) (fo 3 m)) K
        + min (fo 5 m) (fo 4 m)) K = q1 at p1 ⊢
    generalize min (min (min (fo 0 m) (fo 4 m) + min (fo 2 m) (fo 1 m)) K
        + min (fo 5 m) (fo 3 m)) K = q2 at p2 ⊢
    generalize min (min (min (fo 0 m) (fo 3 m) + min (fo 2 m) (fo 4 m)) K
        + min (fo 5 m) (fo 1 m)) K = q3 at p3 ⊢
    apply le_allTriples
    · omega
    · intro a b c hab hbc hc
      interval_cases c <;> interval_cases b <;> interval_cases a <;> omega
  · have tK := (allTriples_le K (fun j => fo j m) 0 1 2 (by decide) (by decide) (by decide)).1
    have t012 : allTriplesMinimum K (fun j => fo j m) ≤ fo 0 m + fo 1 m + fo 2 m :=
      (allTriples_le K (fun j => fo j m) 0 1 2 (by decide) (by decide) (by decide)).2
    have t013 : allTriplesMinimum K (fun j => fo j m) ≤ fo 0 m + fo 1 m + fo 3 m :=
      (allTriples_le K (fun j => fo j m) 0 1 3 (by decide) (by decide) (by decide)).2
    have t014 : allTriplesMinimum K (fun j => fo j m) ≤ fo 0 m + fo 1 m + fo 4 m :=
      (allTriples_le K (fun j => fo j m) 0 1 4 (by decide) (by decide) (by decide)).2
    have t015 : allTriplesMinimum K (fun j => fo j m) ≤ fo 0 m + fo 1 m + fo 5 m :=
      (allTriples_le K (fun j => fo j m) 0 1 5 (by decide) (by decide) (by decide)).2
    have t023 : allTriplesMinimum K (fun j => fo j m) ≤ fo 0 m + fo 2 m + fo 3 m :=
      (allTriples_le K (fun j => fo j m) 0 2 3 (by decide) (by decide) (by decide)).2
    have t024 : allTriplesMinimum K (fun j => fo j m) ≤ fo 0 m + fo 2 m + fo 4 m :=
      (allTriples_le K (fun j => fo j m) 0 2 4 (by decide) (by decide) (by decide)).2
    have t025 : allTriplesMinimum K (fun j => fo j m) ≤ fo 0 m + fo 2 m + fo 5 m :=
      (allTriples_le K (fun j => fo j m) 0 2 5 (by decide) (by decide) (by decide)).2
    have t034 : allTriplesMinimum K (fun j => fo j m) ≤ fo 0 m + fo 3 m + fo 4 m :=
      (allTriples_le K (fun j => fo j m) 0 3 4 (by decide) (by decide) (by decide)).2
    have t035 : allTriplesMinimum K (fun j => fo j m) ≤ fo 0 m + fo 3 m + fo 5 m :=
      (allTriples_le K (fun j => fo j m) 0 3 5 (by decide) (by decide) (by decide)).2
    have t045 : allTriplesMinimum K (fun j => fo j m) ≤ fo 0 m + fo 4 m + fo 5 m :=
      (allTriples_le K (fun j => fo j m) 0 4 5 (by decide) (by decide) (by decide)).2
    have t123 : allTriplesMinimum K (fun j => fo j m) ≤ fo 1 m + fo 2 m + fo 3 m :=
      (allTriples_le K (fun j => fo j m) 1 2 3 (by decide) (by decide) (by decide)).2
    have t124 : allTriplesMinimum K (fun j => fo j m) ≤ fo 1 m + fo 2 m + fo 4 m :=
      (allTriples_le K (fun j => fo j m) 1 2 4 (by decide) (by decide) (by decide)).2
    have t125 : allTriplesMinimum K (fun j => fo j m) ≤ fo 1 m + fo 2 m + fo 5 m :=
      (allTriples_le K (fun j => fo j m) 1 2 5 (by decide) (by decide) (by decide)).2
    have t134 : allTriplesMinimum K (fun j => fo j m) ≤ fo 1 m + fo 3 m + fo 4 m :=
      (allTriples_le K (fun j => fo j m) 1 3 4 (by decide) (by decide) (by decide)).2
    have t135 : allTriplesMinimum K (fun j => fo j m) ≤ fo 1 m + fo 3 m + fo 5 m :=
      (allTriples_le K (fun j => fo j m) 1 3 5 (by decide) (by decide) (by decide)).2
    have t145 : allTriplesMinimum K (fun j => fo j m) ≤ fo 1 m + fo 4 m + fo 5 m :=
      (allTriples_le K (fun j => fo j m) 1 4 5 (by decide) (by decide) (by decide)).2
    have t234 : allTriplesMinimum K (fun j => fo j m) ≤ fo 2 m + fo 3 m + fo 4 m :=
      (allTriples_le K (fun j => fo j m) 2 3 4 (by decide) (by decide) (by decide)).2
    have t235 : allTriplesMinimum K (fun j => fo j m) ≤ fo 2 m + fo 3 m + fo 5 m :=
      (allTriples_le K (fun j => fo j m) 2 3 5 (by decide) (by decide) (by decide)).2
    have t245 : allTriplesMinimum K (fun j => fo j m) ≤ fo 2 m + fo 4 m + fo 5 m :=
      (allTriples_le K (fun j => fo j m) 2 4 5 (by decide) (by decide) (by decide)).2
    have t345 : allTriplesMinimum K (fun j => fo j m) ≤ fo 3 m + fo 4 m + fo 5 m :=
      (allTriples_le K (fun j => fo j m) 3 4 5 (by decide) (by decide) (by decide)).2
    generalize allTriplesMinimum K (fun j => fo j m) = t at *
    refine le_min (le_min ?_ ?_) ?_
    · apply le_partition_term <;> omega
    · apply le_partition_term <;> omega
    · apply le_partition_term <;> omega

/-- The minimum over all triples is below `kMaxDistance` and below each of the
twenty triple sums. -/
theorem allTriples_bounds (K : Int) (o : Nat → Int) :
    allTriplesMinimum K o ≤ K ∧
    allTriplesMinimum K o ≤ o 0 + o 1 + o 2 ∧
    allTriplesMinimum K o ≤ o 0 + o 1 + o 3 ∧
    allTriplesMinimum K o ≤ o 0 + o 1 + o 4 ∧
    allTriplesMinimum K o ≤ o 0 + o 1 + o 5 ∧
    allTriplesMinimum K o ≤ o 0 + o 2 + o 3 ∧
    allTriplesMinimum K o ≤ o 0 + o 2 + o 4 ∧
    allTriplesMinimum K o ≤ o 0 + o 2 + o 5 ∧
    allTriplesMinimum K o ≤ o 0 + o 3 + o 4 ∧
    allTriplesMinimum K o ≤ o 0 + o 3 + o 5 ∧
    allTriplesMinimum K o ≤ o 0 + o 4 + o 5 ∧
    allTriplesMinimum K o ≤ o 1 + o 2 + o 3 ∧
    allTriplesMinimum K o ≤ o 1 + o 2 + o 4 ∧
    allTriplesMinimum K o ≤ o 1 + o 2 + o 5 ∧
    allTriplesMinimum K o ≤ o 1 + o 3 + o 4 ∧
    allTriplesMinimum K o ≤ o 1 + o 3 + o 5 ∧
    allTriplesMinimum K o ≤ o 1 + o 4 + o 5 ∧
    allTriplesMinimum K o ≤ o 2 + o 3 + o 4 ∧
    allTriplesMinimum K o ≤ o 2 + o 3 + o 5 ∧
    allTriplesMinimum K o ≤ o 2 + o 4 + o 5 ∧
    allTriplesMinimum K o ≤ o 3 + o 4 + o 5 :=
  ⟨(allTriples_le K o 0 1 2 (by decide) (by decide) (by decide)).1,
    (allTriples_le K o 0 1 2 (by decide) (by decide) (by decide)).2,
    (allTriples_le K o 0 1 3 (by decide) (by decide) (by decide)).2,
    (allTriples_le K o 0 1 4 (by decide) (by decide) (by decide)).2,
    (allTriples_le K o 0 1 5 (by decide) (by decide) (by decide)).2,
    (allTriples_le K o 0 2 3 (by decide) (by decide) (by decide)).2,
    (allTriples_le K o 0 2 4 (by decide) (by decide) (by decide)).2,
    (allTriples_le K o 0 2 5 (by decide) (by decide) (by decide)).2,
    (allTriples_le K o 0 3 4 (by decide) (by decide) (by decide)).2,
    (allTriples_le K o 0 3 5 (by decide) (by decide) (by decide)).2,
    (allTriples_le K o 0 4 5 (by decide) (by decide) (by decide)).2,
    (allTriples_le K o 1 2 3 (by decide) (by decide) (by decide)).2,
    (allTriples_le K o 1 2 4 (by decide) (by decide) (by decide)).2,
    (allTriples_le K o 1 2 5 (by decide) (by decide) (by decide)).2,
    (allTriples_le K o 1 3 4 (by decide) (by decide) (by decide)).2,
    (allTriples_le K o 1 3 5 (by decide) (by decide) (by decide)).2,
    (allTriples_le K o 1 4 5 (by decide) (by decide) (by decide)).2,
    (allTriples_le K o 2 3 4 (by decide) (by decide) (by decide)).2,
    (allTriples_le K o 2 3 5 (by decide) (by decide) (by decide)).2,
    (allTriples_le K o 2 4 5 (by decide) (by decide) (by decide)).2,
    (allTriples_le K o 3 4 5 (by decide) (by decide) (by decide)).2⟩

/-- A value below `kMaxDistance` and below each of the twenty triple sums is below
the minimum over all triples. -/
theorem le_allTriples_of_bounds (K : Int) (o : Nat → Int) (x : Int) (hK : x ≤ K)
    (h012 : x ≤ o 0 + o 1 + o 2)
    (h013 : x ≤ o 0 + o 1 + o 3)
    (h014 : x ≤ o 0 + o 1 + o 4)
    (h015 : x ≤ o 0 + o 1 + o 5)
    (h023 : x ≤ o 0 + o 2 + o 3)
    (h024 : x ≤ o 0 + o 2 + o 4)
    (h025 : x ≤ o 0 + o 2 + o 5)
    (h034 : x ≤ o 0 + o 3 + o 4)
    (h035 : x ≤ o 0 + o 3 + o 5)
    (h045 : x ≤ o 0 + o 4 + o 5)
    (h123 : x ≤ o 1 + o 2 + o 3)
    (h124 : x ≤ o 1 + o 2 + o 4)
    (h125 : x ≤ o 1 + o 2 + o 5)
    (h134 : x ≤ o 1 + o 3 + o 4)
    (h135 : x ≤ o 1 + o 3 + o 5)
    (h145 : x ≤ o 1 + o 4 + o 5)
    (h234 : x ≤ o 2 + o 3 + o 4)
    (h235 : x ≤ o 2 + o 3 + o 5)
    (h245 : x ≤ o 2 + o 4 + o 5)
    (h345 : x ≤ o 3 + o 4 + o 5) :
    x ≤ allTriplesMinimum K o := by
  apply le_allTriples K o x hK
  intro a b c hab hbc hc
  interval_cases c <;> interval_cases b <;> interval_cases a <;> omega

/-- The minimum over all triples does not change when the six edges are relabelled
cyclically. -/
theorem allTriples_rotate (K : Int) (o : Nat → Int) :
    allTriplesMinimum K (fun j => o ((j + 1) % 6)) = allTriplesMinimum K o := by
  obtain ⟨rK, r012, r013, r014, r015, r023, r024, r025, r034, r035, r045, r123, r124, r125, r134, r135, r145, r234, r235, r245, r345⟩ :=
    allTriples_bounds K (fun j => o ((j + 1) % 6))
  obtain ⟨sK, s012, s013, s014, s015, s023, s024, s025, s034, s035, s045, s123, s124, s125, s134, s135, s145, s234, s235, s245, s345⟩ :=
    allTriples_bounds K o
  norm_num at r012 r013 r014 r015 r023 r024 r025 r034 r035 r045
  norm_num at r123 r124 r125 r134 r135 r145 r234 r235 r245 r345
  apply le_antisymm
  · apply le_allTriples_of_bounds K o _ rK <;> omega
  · apply le_allTriples_of_bounds K (fun j => o ((j + 1) % 6)) _ sK <;> norm_num <;> omega

/-- C9: for every six per-edge maps `out[0..5]` of distances (values that are
not negative, as every distance map holds), applying the three-partition
combination of `EvaluateForkFrames` to the cyclically relabelled maps
`out'[j] = out[(j + 1) mod 6]` gives, at each cell, the same value as applying
it to `out`. -/
theorem C9_rotation_invariant_on_distances (kMaxDistance : Int)
    (out : Nat → PositionEvaluation) (m : MoveIndex) (hnn : ∀ j, j < 6 → 0 ≤ out j m) :
    ForkFramesCombine kMaxDistance (rotateEdges out) m
      = ForkFramesCombine kMaxDistance out m := by
  have hrot : ∀ j, j < 6 → 0 ≤ rotateEdges out j m := by
    intro j _
    exact hnn ((j + 1) % 6) (Nat.mod_lt _ (by decide))
  rw [fork_combine_eq_triples kMaxDistance out m hnn,
    fork_combine_eq_triples kMaxDistance (rotateEdges out) m hrot]
  exact allTriples_rotate kMaxDistance (fun j => out j m)

/-- Witness for C9: the sample maps of chain `0` at cell `0`, with
`kMaxDistance = 50`. -/
theorem C9_rotation_invariant_on_distances_witness :
    (∀ j, j < 6 → 0 ≤ sampleOutside 0 j 0) ∧
    ForkFramesCombine 50 (rotateEdges (sampleOutside 0)) 0
      = ForkFramesCombine 50 (sampleOutside 0) 0 :=
  have hnn : ∀ j, j < 6 → 0 ≤ sampleOutside 0 j 0 := by
    intro j _
    unfold sampleOutside
    omega
  ⟨hnn, C9_rotation_invariant_on_distances 50 (sampleOutside 0) 0 hnn⟩

/-- C10: for every six per-edge values `out[0..5]` in `[0, kMaxDistance]`, the
three-partition combination of `EvaluateForkFrames` equals the minimum, over all
three-element subsets `{a, b, c}` of the edges `{0, ..., 5}`, of the saturated
sum `out[a] + out[b] + out[c]`; the subsets are listed as the increasing triples,
and there are 20 of them. -/
theorem C10_partitions_cover_all_triples (kMaxDistance : Int)
    (out : Nat → PositionEvaluation) (m : MoveIndex)
    (hrange : ∀ j, j < 6 → 0 ≤ out j m ∧ out j m ≤ kMaxDistance) :
    ForkFramesCombine kMaxDistance out m = allTriplesMinimum kMaxDistance (fun j => out j m) ∧
    edgeTriples.length = 20 ∧
    (∀ a b c : Nat, (a, b, c) ∈ edgeTriples ↔ a < b ∧ b < c ∧ c < 6) :=
  ⟨fork_combine_eq_triples kMaxDistance out m (fun j hj => (hrange j hj).1),
   by decide, mem_edgeTriples_iff⟩

/-- Witness for C10: the sample maps of chain `0` at cell `0`, whose values are
`0, 1, 2, 3, 4, 5`, with `kMaxDistance = 50`. -/
theorem C10_partitions_cover_all_triples_witness :
    (∀ j, j < 6 → 0 ≤ sampleOutside 0 j 0 ∧ sampleOutside 0 j 0 ≤ 50) ∧
    ForkFramesCombine 50 (sampleOutside 0) 0
      = allTriplesMinimum 50 (fun j => sampleOutside 0 j 0) :=
  have hrange : ∀ j, j < 6 → 0 ≤ sampleOutside 0 j 0 ∧ sampleOutside 0 j 0 ≤ 50 := by
    intro j hj
    unfold sampleOutside
    omega
  ⟨hrange, (C10_partitions_cover_all_triples 50 (sampleOutside 0) 0 hrange).1⟩

/-! ### The edge pairs of `EvaluateForkFrames` -/

/-- The body of the chain loop is the combination read off `forkFramePairs`. -/
theorem fork_combine_eq_pairs (K : Int) (fo : Nat → PositionEvaluation) :
    ForkFramesCombine K fo = ForkFramesFromPairs K fo forkFramePairs :=
  rfl

/-- On edge indices, `edgesAdjacent` is the congruence of the difference with `+1`
or `-1` modulo `6`. -/
theorem edgesAdjacent_iff :
    ∀ a b : Fin 6, edgesAdjacent a.val b.val = true ↔
      (((a.val : Int) - (b.val : Int) - 1) % 6 = 0 ∨ ((a.val : Int) - (b.val : Int) + 1) % 6 = 0) := by
  decide

/-- C11 (as stated, refuted): the first pair that `EvaluateForkFrames` takes a
minimum over is `(0, 1)`, the edges tagged `ne` and `nwe`, and `0 - 1` is
congruent to `-1` modulo `6`: the pair joins two adjacent edges. -/
theorem C11_first_pair_is_adjacent :
    forkFramePairs.head? = some (0, 1) ∧
    kEdgeCornerNames.take 2 = ["ne", "nwe"] ∧
    edgesAdjacent 0 1 = true ∧
    ((0 : Int) - 1 + 1) % 6 = 0 := by
  decide

/-- C11 (amended): with the six edges indexed `0..5` in the order of the edge tags
`ne, nwe, swe, se, see, nee`, the nine edge pairs that `EvaluateForkFrames` takes
a minimum over are `forkFramePairs`; five of them, `(0,4), (5,3), (0,3), (2,4),
(5,1)`, pair an edge with a non-adjacent edge, and four, `(0,1), (2,3), (5,4),
(2,1)`, pair two edges whose indices differ by `+1` or `-1` modulo `6`; every pair
joins an edge of `{0, 2, 5}` with an edge of `{1, 3, 4}`, so never an edge with
itself. -/
theorem C11_five_of_nine_pairs_non_adjacent :
    (∀ (K : Int) (fo : Nat → PositionEvaluation),
      ForkFramesCombine K fo = ForkFramesFromPairs K fo forkFramePairs) ∧
    kEdgeCornerNames.take 6 = ["ne", "nwe", "swe", "se", "see", "nee"] ∧
    forkFramePairs.filter (fun p => !edgesAdjacent p.1 p.2)
      = [(0, 4), (5, 3), (0, 3), (2, 4), (5, 1)] ∧
    forkFramePairs.filter (fun p => edgesAdjacent p.1 p.2)
      = [(0, 1), (2, 3), (5, 4), (2, 1)] ∧
    (∀ p ∈ forkFramePairs, (p.1 = 0 ∨ p.1 = 2 ∨ p.1 = 5) ∧ (p.2 = 1 ∨ p.2 = 3 ∨ p.2 = 4)) ∧
    (∀ a b : Fin 6, edgesAdjacent a.val b.val = true ↔
      (((a.val : Int) - (b.val : Int) - 1) % 6 = 0 ∨
        ((a.val : Int) - (b.val : Int) + 1) % 6 = 0)) :=
  ⟨fork_combine_eq_pairs, by decide, by decide, by decide, by decide, edgesAdjacent_iff⟩

/-! ### `EvaluateForPlayer` and `EvaluatePartialGoal` -/

/-- A map whose values all lie in `[0, K]`. -/
theorem set_min_bounds (K v : Int) (ev : PositionEvaluation) (m0 : MoveIndex) (hv : 0 ≤ v)
    (h : ∀ m, 0 ≤ ev m ∧ ev m ≤ K) :
    ∀ m, 0 ≤ ev.set m0 (min (ev m0) v) m ∧ ev.set m0 (min (ev m0) v) m ≤ K := by
  intro m
  unfold PositionEvaluation.set
  have h0 := h m0
  have h1 := h m
  by_cases hm : m = m0
  · simp only [hm, if_true]
    omega
  · simp only [hm, if_false]
    exact h1

/-- The inner ring loop keeps all values in `[0, K]` when `moves_to_win` is not
negative. -/
theorem ring_loop_bounds (K : Int) (c2m : Cell → MoveIndex) (frame : Nat → Nat) (v : Int)
    (hv : 0 ≤ v) (js : List Nat) (ev : PositionEvaluation)
    (h : ∀ m, 0 ≤ ev m ∧ ev m ≤ K) :
    ∀ m, 0 ≤ RingFrameLoop c2m frame v js ev m ∧ RingFrameLoop c2m frame v js ev m ≤ K := by
  induction js generalizing ev with
  | nil => exact h
  | cons j rest ih =>
    unfold RingFrameLoop
    apply ih
    apply set_min_bounds K v _ _ hv
    exact set_min_bounds K v ev _ hv h

/-- The ring frames keep all values in `[0, K]`, whatever the frames. -/
theorem ring_frames_bounds (K : Int) (c2m : Cell → MoveIndex)
    (frames : List (Option (Nat → Nat))) (ev : PositionEvaluation)
    (h : ∀ m, 0 ≤ ev m ∧ ev m ≤ K) :
    ∀ m, 0 ≤ EvaluateRingFrames c2m frames ev m ∧ EvaluateRingFrames c2m frames ev m ≤ K := by
  induction frames generalizing ev with
  | nil => exact h
  | cons f rest ih =>
    cases f with
    | none => exact ih ev h
    | some frame =>
      unfold EvaluateRingFrames
      apply ih
      by_cases hv : 0 ≤ movesToWin frame
      · exact ring_loop_bounds K c2m frame _ hv _ ev h
      · have hnil : (movesToWin frame + 1).toNat = 0 := by omega
        rw [hnil]
        exact h

/-- The bridge loop keeps all values in `[0, K]` when the combinations are. -/
theorem bridge_loop_bounds (K : Int) (cc : Nat → Nat → PositionEvaluation)
    (ps : List (Nat × Nat)) (hcc : ∀ p ∈ ps, ∀ m, 0 ≤ cc p.1 p.2 m ∧ cc p.1 p.2 m ≤ K)
    (ev : PositionEvaluation) (h : ∀ m, 0 ≤ ev m ∧ ev m ≤ K) :
    ∀ m, 0 ≤ EvaluateBridgeFramesLoop cc ps ev m ∧ EvaluateBridgeFramesLoop cc ps ev m ≤ K := by
  induction ps generalizing ev with
  | nil => exact h
  | cons p rest ih =>
    unfold EvaluateBridgeFramesLoop
    apply ih (fun q hq => hcc q (List.mem_cons_of_mem _ hq))
    intro m
    have h1 := h m
    have h2 := hcc p (List.mem_cons_self _ _) m
    unfold SetToMinimum
    omega

/-- The fork combination of six values in `[0, K]` lies in `[0, K]`. -/
theorem fork_combine_bounds (K : Int) (fo : Nat → PositionEvaluation) (m : MoveIndex)
    (hK : 0 ≤ K) (h : ∀ j, j < 6 → 0 ≤ fo j m) :
    0 ≤ ForkFramesCombine K fo m ∧ ForkFramesCombine K fo m ≤ K := by
  rw [fork_combine_apply]
  have h0 := h 0 (by decide)
  have h1 := h 1 (by decide)
  have h2 := h 2 (by decide)
  have h3 := h 3 (by decide)
  have h4 := h 4 (by decide)
  have h5 := h 5 (by decide)
  have a1 : 0 ≤ min (min (min (fo 0 m) (fo 1 m) + min (fo 2 m) (fo 3 m)) K + min (fo 5 m) (fo 4 m)) K
      ∧ min (min (min (fo 0 m) (fo 1 m) + min (fo 2 m) (fo 3 m)) K + min (fo 5 m) (fo 4 m)) K ≤ K := by
    omega
  have a2 : 0 ≤ min (min (min (fo 0 m) (fo 4 m) + min (fo 2 m) (fo 1 m)) K + min (fo 5 m) (fo 3 m)) K
      ∧ min (min (min (fo 0 m) (fo 4 m) + min (fo 2 m) (fo 1 m)) K + min (fo 5 m) (fo 3 m)) K ≤ K := by
    omega
  have a3 : 0 ≤ min (min (min (fo 0 m) (fo 3 m) + min (fo 2 m) (fo 4 m)) K + min (fo 5 m) (fo 1 m)) K
      ∧ min (min (min (fo 0 m) (fo 3 m) + min (fo 2 m) (fo 4 m)) K + min (fo 5 m) (fo 1 m)) K ≤ K := by
    omega
  generalize min (min (min (fo 0 m) (fo 1 m) + min (fo 2 m) (fo 3 m)) K
      + min (fo 5 m) (fo 4 m)) K = q1 at a1 ⊢
  generalize min (min (min (fo 0 m) (fo 4 m) + min (fo 2 m) (fo 1 m)) K
      + min (fo 5 m) (fo 3 m)) K = q2 at a2 ⊢
  generalize min (min (min (fo 0 m) (fo 3 m) + min (fo 2 m) (fo 4 m)) K
      + min (fo 5 m) (fo 1 m)) K = q3 at a3 ⊢
  omega

/-- The chain loop keeps all values in `[0, K]` when the `from_outside` maps are
not negative. -/
theorem fork_loop_bounds (K : Int) (fo : Nat → Nat → PositionEvaluation) (hK : 0 ≤ K)
    (chains : List Nat) (hfo : ∀ chain ∈ chains, ∀ j, j < 6 → ∀ m, 0 ≤ fo chain j m)
    (ev : PositionEvaluation)
    (h : ∀ m, 0 ≤ ev m ∧ ev m ≤ K) :
    ∀ m, 0 ≤ EvaluateForkFramesLoop K fo chains ev m
      ∧ EvaluateForkFramesLoop K fo chains ev m ≤ K := by
  induction chains generalizing ev with
  | nil => exact h
  | cons c rest ih =>
    unfold EvaluateForkFramesLoop
    apply ih (fun q hq => hfo q (List.mem_cons_of_mem _ hq))
    intro m
    have h1 := h m
    have h2 := fork_combine_bounds K (fo c) m hK
      (fun j hj => hfo c (List.mem_cons_self _ _) j hj m)
    unfold SetToMinimum
    omega

/-- The fork frames keep all values in `[0, K]`. -/
theorem fork_frames_bounds (K : Int) (fo : Nat → Nat → PositionEvaluation) (hK : 0 ≤ K)
    (chains : List Nat) (hfo : ∀ chain ∈ chains, ∀ j, j < 6 → ∀ m, 0 ≤ fo chain j m)
    (ev : PositionEvaluation)
    (h : ∀ m, 0 ≤ ev m ∧ ev m ≤ K) :
    ∀ m, 0 ≤ EvaluateForkFrames K chains fo ev m ∧ EvaluateForkFrames K chains fo ev m ≤ K := by
  unfold EvaluateForkFrames
  split
  · exact h
  · exact fork_loop_bounds K fo hK chains hfo ev h

/-- The corner pairs visited by `EvaluateBridgeFrames` are the pairs `i < j < 6`. -/
theorem cornerPairs_sorted : ∀ p ∈ cornerPairs, p.1 < p.2 ∧ p.2 < 6 := by
  decide

/-- C12: for every evaluator input (position and player) and every move index
`c`, given that the ring frames have `n >= 1` and that the maps returned by
`SetToCombination` (for the player's chains and the six edges, and for the
corner pairs `i < j`) lie in `[0, kMaxDistance]`, the map produced by
`EvaluateForPlayer` satisfies `0 <= eval(c) <= kMaxDistance`.  `SetToSum` is the
saturated sum modelled from the spec; on such maps its values lie in
`[0, kMaxDistance]`.  The proof does not use the condition on the ring frames: a
frame with `n = 0` has `moves_to_win = -1` and its loop body never runs. -/
theorem C12_evaluation_within_bounds (inp : EvaluatorInput) (c : MoveIndex)
    (_hring : ∀ frame, some frame ∈ inp.ring_frames → 1 ≤ frame 0)
    (hfork : ∀ chain ∈ inp.current_chains, ∀ j, j < 6 → ∀ m,
      0 ≤ inp.from_outside chain j m ∧ inp.from_outside chain j m ≤ inp.kMaxDistance)
    (hbridge : ∀ i j, i < j → j < 6 → ∀ m, 0 ≤ inp.corner_combination i j m ∧
      inp.corner_combination i j m ≤ inp.kMaxDistance) :
    0 ≤ EvaluateForPlayer inp c ∧ EvaluateForPlayer inp c ≤ inp.kMaxDistance := by
  have hK : 0 ≤ inp.kMaxDistance := by
    have := hbridge 0 1 (by decide) (by decide) c
    omega
  unfold EvaluateForPlayer
  apply ring_frames_bounds
  apply bridge_loop_bounds inp.kMaxDistance inp.corner_combination cornerPairs
    (fun p hp => hbridge p.1 p.2 (cornerPairs_sorted p hp).1 (cornerPairs_sorted p hp).2)
  apply fork_frames_bounds inp.kMaxDistance inp.from_outside hK inp.current_chains
    (fun chain hc j hj m => (hfork chain hc j hj m).1)
  intro m
  unfold SetAllMovesTo
  omega

/-- Witness for C12: the sample evaluator input at move index `3`. -/
theorem C12_evaluation_within_bounds_witness :
    (∀ frame, some frame ∈ sampleEvaluatorInput.ring_frames → 1 ≤ frame 0) ∧
    (∀ chain ∈ sampleEvaluatorInput.current_chains, ∀ j, j < 6 → ∀ m,
      0 ≤ sampleEvaluatorInput.from_outside chain j m ∧
      sampleEvaluatorInput.from_outside chain j m ≤ sampleEvaluatorInput.kMaxDistance) ∧
    (∀ i j, i < j → j < 6 → ∀ m, 0 ≤ sampleEvaluatorInput.corner_combination i j m ∧
      sampleEvaluatorInput.corner_combination i j m ≤ sampleEvaluatorInput.kMaxDistance) ∧
    (0 ≤ EvaluateForPlayer sampleEvaluatorInput 3 ∧
      EvaluateForPlayer sampleEvaluatorInput 3 ≤ sampleEvaluatorInput.kMaxDistance) :=
  have hring : ∀ frame, some frame ∈ sampleEvaluatorInput.ring_frames → 1 ≤ frame 0 := by
    intro frame hf
    simp only [sampleEvaluatorInput, List.mem_cons, List.mem_singleton, Option.some.injEq,
      List.mem_nil_iff, or_false, false_or] at hf
    rcases hf with hf | hf
    · exact absurd hf (by simp)
    · rw [hf]
      simp
  have hfork : ∀ chain ∈ sampleEvaluatorInput.current_chains, ∀ j, j < 6 → ∀ m,
      0 ≤ sampleEvaluatorInput.from_outside chain j m ∧
      sampleEvaluatorInput.from_outside chain j m ≤ sampleEvaluatorInput.kMaxDistance := by
    intro chain _ j _ m
    simp only [sampleEvaluatorInput]
    omega
  have hbridge : ∀ i j, i < j → j < 6 → ∀ m,
      0 ≤ sampleEvaluatorInput.corner_combination i j m ∧
      sampleEvaluatorInput.corner_combination i j m ≤ sampleEvaluatorInput.kMaxDistance := by
    intro i j _ _ m
    simp only [sampleEvaluatorInput]
    omega
  ⟨hring, hfork, hbridge,
   C12_evaluation_within_bounds sampleEvaluatorInput 3 hring hfork hbridge⟩

/-- The inner ring loop commutes with a cellwise minimum on its input. -/
theorem ring_loop_min (c2m : Cell → MoveIndex) (frame : Nat → Nat) (v : Int) (js : List Nat)
    (a b : PositionEvaluation) :
    RingFrameLoop c2m frame v js (SetToMinimum a b)
      = SetToMinimum a (RingFrameLoop c2m frame v js b) := by
  induction js generalizing b with
  | nil => rfl
  | cons j rest ih =>
    have hset : ∀ (x : PositionEvaluation) (m0 : MoveIndex),
        (SetToMinimum a x).set m0 (min (SetToMinimum a x m0) v)
          = SetToMinimum a (x.set m0 (min (x m0) v)) := by
      intro x m0
      funext m
      unfold PositionEvaluation.set SetToMinimum
      by_cases hm : m = m0
      · simp only [hm, if_true]
        omega
      · simp only [hm, if_false]
    unfold RingFrameLoop
    simp only [hset]
    exact ih _

/-- The ring frames commute with a cellwise minimum on their input. -/
theorem ring_frames_min (c2m : Cell → MoveIndex) (frames : List (Option (Nat → Nat)))
    (a b : PositionEvaluation) :
    EvaluateRingFrames c2m frames (SetToMinimum a b)
      = SetToMinimum a (EvaluateRingFrames c2m frames b) := by
  induction frames generalizing b with
  | nil => rfl
  | cons f rest ih =>
    cases f with
    | none => exact ih b
    | some frame =>
      unfold EvaluateRingFrames
      rw [ring_loop_min]
      exact ih _

/-- The bridge loop commutes with a cellwise minimum on its input. -/
theorem bridge_loop_min (cc : Nat → Nat → PositionEvaluation) (ps : List (Nat × Nat))
    (a b : PositionEvaluation) :
    EvaluateBridgeFramesLoop cc ps (SetToMinimum a b)
      = SetToMinimum a (EvaluateBridgeFramesLoop cc ps b) := by
  induction ps generalizing b with
  | nil => rfl
  | cons p rest ih =>
    unfold EvaluateBridgeFramesLoop
    have hstep : SetToMinimum (SetToMinimum a b) (cc p.1 p.2)
        = SetToMinimum a (SetToMinimum b (cc p.1 p.2)) := by
      funext m
      unfold SetToMinimum
      omega
    rw [hstep]
    exact ih _

/-- The fork frames never raise a value. -/
theorem fork_frames_le (K : Int) (chains : List Nat) (fo : Nat → Nat → PositionEvaluation)
    (ev : PositionEvaluation) (m : MoveIndex) :
    EvaluateForkFrames K chains fo ev m ≤ ev m := by
  have h : EvaluateForkFrames K chains fo ev m
      = (perChainValues K fo chains m).foldl min (ev m) := by
    unfold EvaluateForkFrames
    cases chains with
    | nil => rfl
    | cons c cs => exact fork_loop_apply K fo (c :: cs) ev m
  rw [h]
  exact (foldl_min_le _ _).1

/-- The full evaluation is the cellwise minimum of the ring, bridge and fork
evaluations, each started from `kMaxDistance`. -/
theorem evaluate_for_player_eq_min (inp : EvaluatorInput) (c : MoveIndex) :
    EvaluateForPlayer inp c =
      min (EvaluateRingFrames inp.CellToMoveIndex inp.ring_frames
            (SetAllMovesTo inp.kMaxDistance) c)
        (min (EvaluateBridgeFrames inp.corner_combination (SetAllMovesTo inp.kMaxDistance) c)
          (EvaluateForkFrames inp.kMaxDistance inp.current_chains inp.from_outside
            (SetAllMovesTo inp.kMaxDistance) c)) := by
  have hF : EvaluateForkFrames inp.kMaxDistance inp.current_chains inp.from_outside
        (SetAllMovesTo inp.kMaxDistance)
      = SetToMinimum (EvaluateForkFrames inp.kMaxDistance inp.current_chains inp.from_outside
          (SetAllMovesTo inp.kMaxDistance)) (SetAllMovesTo inp.kMaxDistance) := by
    funext m
    have := fork_frames_le inp.kMaxDistance inp.current_chains inp.from_outside
      (SetAllMovesTo inp.kMaxDistance) m
    unfold SetToMinimum
    unfold SetAllMovesTo at this ⊢
    omega
  unfold EvaluateForPlayer EvaluateBridgeFrames
  generalize EvaluateForkFrames inp.kMaxDistance inp.current_chains inp.from_outside
    (SetAllMovesTo inp.kMaxDistance) = F at hF ⊢
  have hB : EvaluateBridgeFramesLoop inp.corner_combination cornerPairs F
      = SetToMinimum F (EvaluateBridgeFramesLoop inp.corner_combination cornerPairs
          (SetAllMovesTo inp.kMaxDistance)) := by
    conv_lhs => rw [hF]
    exact bridge_loop_min _ _ _ _
  rw [hB]
  generalize EvaluateBridgeFramesLoop inp.corner_combination cornerPairs
    (SetAllMovesTo inp.kMaxDistance) = B
  have hFB : SetToMinimum F B = SetToMinimum (SetToMinimum F B) (SetAllMovesTo inp.kMaxDistance) := by
    funext m
    have h1 := congrFun hF m
    unfold SetToMinimum at h1 ⊢
    unfold SetAllMovesTo at h1 ⊢
    omega
  rw [hFB, ring_frames_min]
  unfold SetToMinimum
  omega

/-- C13: for every evaluator input (position and player), the "total" evaluation
of `EvaluatePartialGoal` is the result of `EvaluateForPlayer`, the ring, bridge
and fork goals each yield a map, and at every move index `c` the total is the
minimum of the ring, bridge and fork evaluations at `c`. -/
theorem C13_total_is_min_of_goals (inp : EvaluatorInput)
    (pair_combination : ChainRef → ChainRef → PositionEvaluation) :
    EvaluatePartialGoal inp pair_combination kZerothCell (-3) = some (EvaluateForPlayer inp) ∧
    ∃ ring bridge fork : PositionEvaluation,
      EvaluatePartialGoal inp pair_combination kZerothCell kZerothCell = some ring ∧
      EvaluatePartialGoal inp pair_combination kZerothCell (-1) = some bridge ∧
      EvaluatePartialGoal inp pair_combination kZerothCell (-2) = some fork ∧
      ∀ c : MoveIndex, EvaluateForPlayer inp c = min (ring c) (min (bridge c) (fork c)) := by
  refine ⟨by simp [EvaluatePartialGoal, kZerothCell],
    EvaluateRingFrames inp.CellToMoveIndex inp.ring_frames (SetAllMovesTo inp.kMaxDistance),
    EvaluateBridgeFrames inp.corner_combination (SetAllMovesTo inp.kMaxDistance),
    EvaluateForkFrames inp.kMaxDistance inp.current_chains inp.from_outside
      (SetAllMovesTo inp.kMaxDistance),
    by simp [EvaluatePartialGoal, kZerothCell], by simp [EvaluatePartialGoal, kZerothCell],
    by simp [EvaluatePartialGoal, kZerothCell], ?_⟩
  intro c
  exact evaluate_for_player_eq_min inp c

/-- What `GetCellEdgeOrCorner` yields for a tag that `FromString` does not read as
a cell. -/
theorem get_edge_corner_tag (FromString : String → Cell) (str : String)
    (h : FromString str = kZerothCell) :
    GetCellEdgeOrCorner FromString str =
      match findEdgeCornerName str kEdgeCornerNames 0 with
      | some c => (true, c)
      | none => (false, kZerothCell) := by
  unfold GetCellEdgeOrCorner
  simp only [h, ne_eq, not_true_eq_false, if_false]

/-- C14 (code defect): whenever `FromString` reads none of the twelve tags as a
board cell, as the sample cell reader does, for `i` in `0..5` the `i`-th edge tag
of `(ne, nwe, swe, se, see, nee)` is encoded by `GetCellEdgeOrCorner` as the cell
`-(i+1)` and the `i`-th corner tag of `(nwc, wc, swc, sec, ec, nec)` as `-(i+7)`;
`EvaluatePartialGoal` decodes `-(i+1)` to the shared edge chain `i` and `-(i+7)`
to the shared corner chain `i`, every index passed to `GetEdgeChain` or
`GetCornerChain` lies in `0..5`, and two such endpoints are combined as decoded;
but a cell value `>= kZerothCell`, such as the cells `3` and `2` of the
connection `c3-b2`, is decoded to the address of a one-stone `Chain` that is
local to the decoding block, and the evaluation, which reads through that
address after the block has ended, has no defined result: no endpoint pair with
a stone in it is evaluated as the combination of the decoded chains. -/
theorem C14_stone_endpoint_read_after_block_ended :
    kEdgeCornerNames.take 6 = ["ne", "nwe", "swe", "se", "see", "nee"] ∧
    kEdgeCornerNames.drop 6 = ["nwc", "wc", "swc", "sec", "ec", "nec"] ∧
    (∀ name ∈ kEdgeCornerNames, sampleExternals.FromString name = kZerothCell) ∧
    (∀ FromString : String → Cell,
      (∀ name ∈ kEdgeCornerNames, FromString name = kZerothCell) →
      ∀ i : Fin 6,
        GetCellEdgeOrCorner FromString (kEdgeCornerNames.getD i.val "")
          = (true, -((i.val : Int) + 1)) ∧
        GetCellEdgeOrCorner FromString (kEdgeCornerNames.getD (i.val + 6) "")
          = (true, -((i.val : Int) + 7))) ∧
    (∀ i : Fin 6,
      decodeEndpoint (-((i.val : Int) + 1))
        = some (ChainPtr.shared (ChainRef.edge (i.val : Int))) ∧
      decodeEndpoint (-((i.val : Int) + 7))
        = some (ChainPtr.shared (ChainRef.corner (i.val : Int)))) ∧
    (∀ (cell : Cell) (i : Int),
      decodeEndpoint cell = some (ChainPtr.shared (ChainRef.edge i)) → 0 ≤ i ∧ i ≤ 5) ∧
    (∀ (cell : Cell) (i : Int),
      decodeEndpoint cell = some (ChainPtr.shared (ChainRef.corner i)) → 0 ≤ i ∧ i ≤ 5) ∧
    (∀ (inp : EvaluatorInput) (pc : ChainRef → ChainRef → PositionEvaluation)
      (cell1 cell2 : Cell) (chain1 chain2 : ChainRef),
      decodeEndpoint cell1 = some (ChainPtr.shared chain1) →
      decodeEndpoint cell2 = some (ChainPtr.shared chain2) →
      EvaluatePartialGoal inp pc cell1 cell2 = some (pc chain1 chain2)) ∧
    GetCellEdgeOrCorner sampleExternals.FromString "c3" = (true, 3) ∧
    GetCellEdgeOrCorner sampleExternals.FromString "b2" = (true, 2) ∧
    (∀ cell : Cell, cell ≥ kZerothCell →
      decodeEndpoint cell = some (ChainPtr.blockLocal (ChainRef.stone cell)) ∧
      derefChain (ChainPtr.blockLocal (ChainRef.stone cell)) = none) ∧
    (∀ (inp : EvaluatorInput) (pc : ChainRef → ChainRef → PositionEvaluation),
      EvaluatePartialGoal inp pc 3 2 = none ∧
      EvaluatePartialGoal inp pc 3 2 ≠ some (pc (ChainRef.stone 3) (ChainRef.stone 2))) ∧
    (∀ (inp : EvaluatorInput) (pc : ChainRef → ChainRef → PositionEvaluation)
      (cell1 cell2 : Cell), cell1 ≠ kZerothCell →
      cell1 ≥ kZerothCell ∨ cell2 ≥ kZerothCell →
      EvaluatePartialGoal inp pc cell1 cell2 = none) := by
  refine ⟨by decide, by decide, by decide, ?_, by decide, ?_, ?_, ?_, by decide, by decide,
    ?_, ?_, ?_⟩
  · intro FromString htags i
    have hmem1 : kEdgeCornerNames.getD i.val "" ∈ kEdgeCornerNames := by
      revert i
      decide
    have hmem2 : kEdgeCornerNames.getD (i.val + 6) "" ∈ kEdgeCornerNames := by
      revert i
      decide
    rw [get_edge_corner_tag FromString _ (htags _ hmem1),
      get_edge_corner_tag FromString _ (htags _ hmem2)]
    revert i
    decide
  · intro cell i h
    unfold decodeEndpoint kZerothCell at h
    by_cases h1 : cell ≥ (0 : Int)
    · simp [h1] at h
    · by_cases h2 : cell ≥ (-6 : Int)
      · simp only [h1, h2, if_true, if_false, Option.some.injEq, ChainPtr.shared.injEq,
          ChainRef.edge.injEq] at h
        unfold Cell at *
        omega
      · by_cases h3 : cell ≥ (-12 : Int) <;> simp [h1, h2, h3] at h
  · intro cell i h
    unfold decodeEndpoint kZerothCell at h
    by_cases h1 : cell ≥ (0 : Int)
    · simp [h1] at h
    · by_cases h2 : cell ≥ (-6 : Int)
      · simp [h1, h2] at h
      · by_cases h3 : cell ≥ (-12 : Int)
        · simp only [h1, h2, h3, if_true, if_false, Option.some.injEq,
            ChainPtr.shared.injEq, ChainRef.corner.injEq] at h
          unfold Cell at *
          omega
        · simp [h1, h2, h3] at h
  · intro inp pc cell1 cell2 chain1 chain2 h1 h2
    have hne : cell1 ≠ kZerothCell := by
      intro h0
      rw [h0] at h1
      simp [decodeEndpoint, kZerothCell] at h1
    unfold EvaluatePartialGoal
    simp only [hne, false_and, if_false, h1, h2, derefChain]
  · intro cell h
    refine ⟨?_, rfl⟩
    unfold decodeEndpoint
    rw [if_pos h]
  · intro inp pc
    have h : EvaluatePartialGoal inp pc 3 2 = none := by
      simp [EvaluatePartialGoal, decodeEndpoint, derefChain, kZerothCell]
    rw [h]
    exact ⟨rfl, by simp⟩
  · intro inp pc cell1 cell2 hne h
    unfold EvaluatePartialGoal
    simp only [hne, false_and, if_false]
    rcases h with h | h
    · have h1 : decodeEndpoint cell1 = some (ChainPtr.blockLocal (ChainRef.stone cell1)) := by
        unfold decodeEndpoint
        rw [if_pos h]
      rw [h1]
      cases decodeEndpoint cell2 <;> simp [derefChain]
    · have h2 : decodeEndpoint cell2 = some (ChainPtr.blockLocal (ChainRef.stone cell2)) := by
        unfold decodeEndpoint
        rw [if_pos h]
      rw [h2]
      cases h1 : decodeEndpoint cell1 with
      | none => rfl
      | some p => cases p <;> simp [derefChain]

/-! ### The iteration loop of the search drivers -/

/-- What the iteration loop reports when it is left: the stored value is
`depth + 1`; after a conclusive iteration it does not exceed the value that the
last test of the loop read from `*max_depth_`, and after a failed test it does. -/
theorem iteration_loop_written (env : SearchEnv)
    (root_call : Searcher → Int → Searcher × Outcome) (check_index : Bool)
    (conclusive : List CellEval → Int → Bool) (rounds : Nat) (st : Searcher) (depth : Int)
    (st' : Searcher) (d : Int) (by_break : Bool) (cap_read written : Int)
    (h : IterationLoop env root_call check_index conclusive rounds st depth
      = (st', SearchExit.wrote d by_break cap_read written)) :
    written = d + 1 ∧ (by_break = true → written ≤ cap_read) ∧
      (by_break = false → cap_read < written) := by
  induction rounds generalizing st depth with
  | zero => simp [IterationLoop] at h
  | succ rounds ih =>
    unfold IterationLoop at h
    by_cases hlt : depth < env.max_depth_ st.max_depth_reads
    · rw [if_pos hlt] at h
      generalize root_call { st with max_depth_reads := st.max_depth_reads + 1 } depth = r at h
      obtain ⟨st1, o⟩ := r
      cases o with
      | value v =>
        simp only at h
        cases hc : rootConclusive st1 check_index conclusive depth with
        | none => simp [hc] at h
        | some c =>
          cases c with
          | true =>
            simp only [hc, Prod.mk.injEq, SearchExit.wrote.injEq] at h
            obtain ⟨_, hd, hb, hcap, hw⟩ := h
            subst hd hb hcap hw
            refine ⟨rfl, fun _ => by omega, fun hf => by simp at hf⟩
          | false =>
            simp only [hc] at h
            exact ih st1 (depth + 1) h
      | aborted => simp at h
      | fault => simp at h
      | outOfFrames => simp at h
      | outOfSteps => simp at h
    · rw [if_neg hlt] at h
      simp only [Prod.mk.injEq, SearchExit.wrote.injEq] at h
      obtain ⟨_, hd, hb, hcap, hw⟩ := h
      subst hd hb hcap hw
      refine ⟨rfl, fun hf => by simp at hf, fun _ => by omega⟩

/-- C17 (as stated, refuted): with the shared cap at `1` throughout, the attacker
search on the sample position finishes iteration `0` without a conclusive
result, the test `1 < 1` fails, and the loop is left without an abort with
`depth = 1`; the value `2` is written to `*max_depth_`, which is greater than
the cap's value `1`. -/
theorem C17_cap_raised_when_loop_runs_out :
    (SearchForAttackerInternal (sampleSearchEnv 1) 20 10 5
        (Searcher.create samplePosition)).2 = SearchExit.wrote 1 false 1 2 ∧
    (1 : Int) < 2 := by
  decide

/-- C17 (amended): in `SearchForAttackerInternal` and `SearchForDefenderInternal`,
on every path that leaves the iteration loop without an abort the value written
to `*max_depth_` is `depth + 1`; after a conclusive iteration (`break`) it is not
greater than the value that the loop test of that iteration read from
`*max_depth_`, and when the loop is left because the test `depth < *max_depth_`
failed it is greater than the value that this test read, so the cap is raised. -/
theorem C17_written_cap_by_exit_path (env : SearchEnv) (steps frames rounds : Nat)
    (st st' : Searcher) (d : Int) (by_break : Bool) (cap_read written : Int)
    (h : SearchForAttackerInternal env steps frames rounds st
          = (st', SearchExit.wrote d by_break cap_read written) ∨
        SearchForDefenderInternal env steps frames rounds st
          = (st', SearchExit.wrote d by_break cap_read written)) :
    written = d + 1 ∧ (by_break = true → written ≤ cap_read) ∧
      (by_break = false → cap_read < written) := by
  rcases h with h | h
  · exact iteration_loop_written env _ _ _ rounds st 0 st' d by_break cap_read written h
  · exact iteration_loop_written env _ _ _ rounds st 0 st' d by_break cap_read written h

/-- Witness for C17 (amended): the defender search on the sample position with the
cap at `2` is left by a conclusive iteration `1` and writes `2`. -/
theorem C17_written_cap_by_exit_path_witness :
    (SearchForDefenderInternal (sampleSearchEnv 2) 20 10 5 (Searcher.create samplePosition)).2
      = SearchExit.wrote 1 true 2 2 ∧
    ((2 : Int) = 1 + 1 ∧ ((true = true) → (2 : Int) ≤ 2) ∧ ((true = false) → (2 : Int) < 2)) :=
  ⟨by decide,
   C17_written_cap_by_exit_path (sampleSearchEnv 2) 20 10 5 (Searcher.create samplePosition)
     (SearchForDefenderInternal (sampleSearchEnv 2) 20 10 5 (Searcher.create samplePosition)).1
     1 true 2 2 (Or.inr (Prod.ext rfl (by decide)))⟩

/-! ### Sorting and `ExpandMoves` -/

/-- Insertion into an ordered list rearranges the elements only. -/
theorem insertSorted_perm {α : Type} (lt : α → α → Bool) (x : α) (l : List α) :
    (insertSorted lt x l).Perm (x :: l) := by
  induction l with
  | nil => exact List.Perm.refl _
  | cons y ys ih =>
    unfold insertSorted
    by_cases h : lt y x = true
    · rw [if_pos h]
      exact (List.Perm.cons y ih).trans (List.Perm.swap x y ys)
    · rw [if_neg h]

/-- Sorting rearranges the elements only. -/
theorem sortBy_perm {α : Type} (lt : α → α → Bool) (l : List α) : (sortBy lt l).Perm l := by
  induction l with
  | nil => exact List.Perm.refl _
  | cons x xs ih =>
    unfold sortBy
    exact (insertSorted_perm lt x _).trans (List.Perm.cons x ih)

/-- On the empty board every cell is empty. -/
theorem cellIsEmpty_of_moveCount_zero (position : Position) (cell : Cell)
    (h : position.MoveCount = 0) : position.CellIsEmpty cell = true := by
  unfold Position.MoveCount at h
  unfold Position.CellIsEmpty
  rw [List.length_eq_zero.mp h]
  rfl

/-- Every candidate of `ExpandMoves` is an empty board cell other than
`kZerothCell`, when the cells of the board are. -/
theorem expandCandidates_real (b : BoardEnv) (position : Position) (player : Player)
    (hxy : ∀ x y : Int, b.board_bitmask x y = true → b.XYToCell x y ≠ kZerothCell)
    (hmi : ∀ i : Nat, i < b.NumAvailableMoves position →
      b.MoveIndexToCell (i : Int) ≠ kZerothCell)
    (ce : CellEval) (hce : ce ∈ expandCandidates b position player) :
    ce.cell ≠ kZerothCell ∧ position.CellIsEmpty ce.cell = true ∧
      IsBoardCell b position ce.cell := by
  have hempty : ∀ mc ∈ emptyMoves b position,
      mc.2 ≠ kZerothCell ∧ position.CellIsEmpty mc.2 = true ∧ IsBoardCell b position mc.2 := by
    intro mc hmc
    unfold emptyMoves at hmc
    obtain ⟨i, hi, hsome⟩ := List.mem_filterMap.mp hmc
    have hi' := List.mem_range.mp hi
    by_cases he : position.CellIsEmpty (b.MoveIndexToCell (i : Int)) = true
    · rw [if_pos he] at hsome
      have hmc2 : mc.2 = b.MoveIndexToCell (i : Int) := by
        have := Option.some.inj hsome
        rw [← this]
      rw [hmc2]
      exact ⟨hmi i hi', he, Or.inl ⟨i, hi', rfl⟩⟩
    · rw [if_neg he] at hsome
      exact absurd hsome (by simp)
  unfold expandCandidates at hce
  by_cases h0 : position.MoveCount = 0
  · rw [if_pos h0] at hce
    obtain ⟨cell, hcell, rfl⟩ := List.mem_map.mp hce
    unfold firstMoveCells at hcell
    obtain ⟨dy, _, hrow⟩ := List.mem_flatMap.mp hcell
    obtain ⟨dx, _, hsome⟩ := List.mem_filterMap.mp hrow
    by_cases hb : b.board_bitmask (b.kMiddleColumn + (dx : Int)) (b.kMiddleRow + (dy : Int)) = true
    · rw [if_pos hb] at hsome
      have hc := Option.some.inj hsome
      simp only [CellEval.make]
      rw [← hc]
      exact ⟨hxy _ _ hb, cellIsEmpty_of_moveCount_zero _ _ h0, Or.inr ⟨_, _, hb, rfl⟩⟩
    · rw [if_neg hb] at hsome
      exact absurd hsome (by simp)
  · rw [if_neg h0] at hce
    by_cases h1 : position.MoveCount = 1
    · rw [if_pos h1] at hce
      obtain ⟨mc, hmc, rfl⟩ := List.mem_map.mp hce
      simp only [CellEval.make]
      exact hempty mc hmc
    · rw [if_neg h1] at hce
      obtain ⟨mc, hmc, hsome⟩ := List.mem_filterMap.mp hce
      split at hsome
      · have hc := Option.some.inj hsome
        rw [← hc]
        simp only [CellEval.make]
        exact hempty mc hmc
      · exact absurd hsome (by simp)

/-- No candidate of `ExpandMoves` passes the filter for the pass cell. -/
theorem expandCandidates_filter_pass (b : BoardEnv) (position : Position) (player : Player)
    (hxy : ∀ x y : Int, b.board_bitmask x y = true → b.XYToCell x y ≠ kZerothCell)
    (hmi : ∀ i : Nat, i < b.NumAvailableMoves position →
      b.MoveIndexToCell (i : Int) ≠ kZerothCell) :
    (expandCandidates b position player).filter (fun ce => decide (ce.cell = kZerothCell))
      = [] := by
  rw [List.filter_eq_nil_iff]
  intro ce hce
  have := (expandCandidates_real b position player hxy hmi ce hce).1
  simpa using this

/-- C19: for every position, player and level, provided the cells that the board
functions yield differ from `kZerothCell`, the move list created by
`ExpandMoves(player, level)` contains a `kZerothCell` (pass) entry if and only if
`level == 0`, and then exactly one, the entry `CellEval(kZerothCell,
kPotentialScale * baseline)`, whose value is `kPotentialScale * baseline` when
that fits the 16-bit field; every other entry is an empty cell of the board. -/
theorem C19_expand_moves_pass_entry (b : BoardEnv) (position : Position) (player : Player)
    (level : Int)
    (hxy : ∀ x y : Int, b.board_bitmask x y = true → b.XYToCell x y ≠ kZerothCell)
    (hmi : ∀ i : Nat, i < b.NumAvailableMoves position →
      b.MoveIndexToCell (i : Int) ≠ kZerothCell) :
    ((∃ ce ∈ ExpandMovesList b position player level, ce.cell = kZerothCell) ↔ level = 0) ∧
    (level = 0 →
      (ExpandMovesList b position player level).filter
          (fun ce => decide (ce.cell = kZerothCell))
        = [CellEval.make kZerothCell (kPotentialScale * expandBaseline b position player)]) ∧
    (-32768 ≤ kPotentialScale * expandBaseline b position player →
      kPotentialScale * expandBaseline b position player ≤ 32767 →
      (CellEval.make kZerothCell (kPotentialScale * expandBaseline b position player)).value
        = kPotentialScale * expandBaseline b position player) ∧
    (∀ ce ∈ ExpandMovesList b position player level, ce.cell ≠ kZerothCell →
      position.CellIsEmpty ce.cell = true ∧ IsBoardCell b position ce.cell) := by
  have hfilter := expandCandidates_filter_pass b position player hxy hmi
  refine ⟨?_, ?_, ?_, ?_⟩
  · constructor
    · rintro ⟨ce, hce, hcell⟩
      by_contra hl
      unfold ExpandMovesList at hce
      rw [if_neg hl] at hce
      have hmem := (sortBy_perm CellEvalCompareAsc _).mem_iff.mp hce
      exact (expandCandidates_real b position player hxy hmi ce hmem).1 hcell
    · intro hl
      refine ⟨CellEval.make kZerothCell (kPotentialScale * expandBaseline b position player),
        ?_, rfl⟩
      unfold ExpandMovesList
      rw [if_pos hl]
      apply (sortBy_perm CellEvalCompareAsc _).mem_iff.mpr
      simp
  · intro hl
    unfold ExpandMovesList
    rw [if_pos hl]
    apply List.perm_singleton.mp
    refine ((sortBy_perm CellEvalCompareAsc _).filter _).trans ?_
    rw [List.filter_append, hfilter]
    simp [CellEval.make]
  · intro hlo hhi
    simp only [CellEval.make, toInt16]
    omega
  · intro ce hce hne
    unfold ExpandMovesList at hce
    have hmem := (sortBy_perm CellEvalCompareAsc _).mem_iff.mp hce
    by_cases hl : level = 0
    · rw [if_pos hl] at hmem
      rcases List.mem_append.mp hmem with hc | hp
      · exact (expandCandidates_real b position player hxy hmi ce hc).2
      · have : ce = CellEval.make kZerothCell
            (kPotentialScale * expandBaseline b position player) := by simpa using hp
        rw [this] at hne
        exact absurd rfl hne
    · rw [if_neg hl] at hmem
      exact (expandCandidates_real b position player hxy hmi ce hmem).2

/-- Witness for C19: the sample board with one black stone on cell `1`, White to
expand at level `0`: the list holds the cells `3` and `2` and one pass entry. -/
theorem C19_expand_moves_pass_entry_witness :
    (∀ x y : Int, sampleBoard.board_bitmask x y = true →
      sampleBoard.XYToCell x y ≠ kZerothCell) ∧
    (∀ i : Nat, i < sampleBoard.NumAvailableMoves samplePosition →
      sampleBoard.MoveIndexToCell (i : Int) ≠ kZerothCell) ∧
    ExpandMovesList sampleBoard samplePosition Player.kWhite 0
      = [CellEval.mk 3 500, CellEval.mk 2 500, CellEval.mk 0 500] ∧
    ((0 : Int) = 0 →
      (ExpandMovesList sampleBoard samplePosition Player.kWhite 0).filter
          (fun ce => decide (ce.cell = kZerothCell))
        = [CellEval.make kZerothCell
            (kPotentialScale * expandBaseline sampleBoard samplePosition Player.kWhite)]) :=
  have hxy : ∀ x y : Int, sampleBoard.board_bitmask x y = true →
      sampleBoard.XYToCell x y ≠ kZerothCell := by
    intro x y h
    simp only [sampleBoard, decide_eq_true_eq] at h
    simp only [sampleBoard, kZerothCell]
    unfold Cell
    omega
  have hmi : ∀ i : Nat, i < sampleBoard.NumAvailableMoves samplePosition →
      sampleBoard.MoveIndexToCell (i : Int) ≠ kZerothCell := by
    intro i _
    simp only [sampleBoard, kZerothCell]
    unfold Cell
    omega
  ⟨hxy, hmi, by decide,
   (C19_expand_moves_pass_entry sampleBoard samplePosition Player.kWhite 0 hxy hmi).2.1⟩

/-! ### The invariant of the searcher state -/

/-- A stored 16-bit value fits the field. -/
theorem toInt16_range (x : Int) : InInt16 (toInt16 x) := by
  unfold InInt16 toInt16
  omega

/-- A value that fits the field is stored as it is. -/
theorem toInt16_of_range (x : Int) (h : InInt16 x) : toInt16 x = x := by
  unfold InInt16 at h
  unfold toInt16
  omega

/-- An index that names a vector lies inside the arena, and its vector is a
member of the arena. -/
theorem getMoves_some (st : Searcher) (idx : Nat) (moves : List CellEval)
    (h : st.getMoves idx = some moves) :
    idx < st.vectors_.length ∧ some moves ∈ st.vectors_ := by
  unfold Searcher.getMoves at h
  rw [List.getD_eq_getElem?_getD] at h
  by_cases hlt : idx < st.vectors_.length
  · refine ⟨hlt, ?_⟩
    rw [List.getElem?_eq_getElem hlt] at h
    simp only [Option.getD_some] at h
    rw [← h]
    exact List.getElem_mem hlt
  · rw [List.getElem?_eq_none (by omega)] at h
    simp at h

/-- A member of the arena is the vector of some index. -/
theorem mem_vectors_getMoves (st : Searcher) (moves : List CellEval)
    (h : some moves ∈ st.vectors_) : ∃ idx, st.getMoves idx = some moves := by
  obtain ⟨i, hi, heq⟩ := List.getElem_of_mem h
  refine ⟨i, ?_⟩
  unfold Searcher.getMoves
  rw [List.getD_eq_getElem?_getD, List.getElem?_eq_getElem hi, heq]
  rfl

/-- With the arena shape, an index that names a vector is not `0`. -/
theorem index_pos_of_shape (st : Searcher) (hs : ArenaShape st) (idx : Nat)
    (moves : List CellEval) (h : st.getMoves idx = some moves) : 1 ≤ idx := by
  by_contra hlt
  have h0 : idx = 0 := by omega
  subst h0
  unfold ArenaShape at hs
  unfold Searcher.getMoves at h
  cases hv : st.vectors_ with
  | nil => rw [hv] at h; simp at h
  | cons x xs =>
    rw [hv] at h hs
    simp only [List.getD_cons_zero] at h
    rw [h] at hs
    simp at hs

/-- The relation `Grows` holds between a state and itself. -/
theorem Grows.refl (st : Searcher) : Grows st st :=
  ⟨le_refl _, fun _ moves h => ⟨moves, h, le_refl _⟩, fun h => h⟩

/-- The relation `Grows` composes. -/
theorem Grows.trans {st1 st2 st3 : Searcher} (h12 : Grows st1 st2) (h23 : Grows st2 st3) :
    Grows st1 st3 := by
  refine ⟨le_trans h12.length_le h23.length_le, ?_, fun h => h23.inv (h12.inv h)⟩
  intro idx moves h
  obtain ⟨m2, h2, hl2⟩ := h12.lists idx moves h
  obtain ⟨m3, h3, hl3⟩ := h23.lists idx m2 h2
  exact ⟨m3, h3, le_trans hl2 hl3⟩

/-- A change of the state that leaves the arena and the table alone. -/
theorem grows_of_eq (st st' : Searcher) (hv : st'.vectors_ = st.vectors_)
    (ht : st'.tt_ = st.tt_) : Grows st st' := by
  refine ⟨by rw [hv], ?_, ?_⟩
  · intro idx moves h
    refine ⟨moves, ?_, le_refl _⟩
    unfold Searcher.getMoves at h ⊢
    rw [hv]
    exact h
  · intro h
    refine ⟨?_, ?_, ?_⟩
    · have := h.shape
      unfold ArenaShape at this ⊢
      rw [hv]
      exact this
    · have := h.values
      unfold ArenaValuesOk at this ⊢
      rw [hv]
      exact this
    · have := h.table
      unfold TableOk at this ⊢
      rw [hv, ht]
      exact this

/-- A new vector at the end of the arena. -/
theorem grows_pushMoves (st : Searcher) (moves : List CellEval)
    (hval : ∀ ce ∈ moves, InInt16 ce.value) : Grows st (st.pushMoves moves).2 := by
  unfold Searcher.pushMoves
  refine ⟨by simp, ?_, ?_⟩
  · intro idx l h
    refine ⟨l, ?_, le_refl _⟩
    have hlt := (getMoves_some st idx l h).1
    unfold Searcher.getMoves at h ⊢
    simp only
    rw [List.getD_append _ _ _ _ hlt]
    exact h
  · intro h
    refine ⟨?_, ?_, ?_⟩
    · have hs := h.shape
      unfold ArenaShape at hs ⊢
      simp only [List.map_append, List.map_cons, List.map_nil, Option.isSome_some,
        List.length_append, List.length_singleton, Nat.add_sub_cancel]
      rw [hs]
      have hpos : 0 < st.vectors_.length := by
        cases hv : st.vectors_ with
        | nil => rw [hv] at hs; simp at hs
        | cons x xs => simp
      have : st.vectors_.length = (st.vectors_.length - 1) + 1 := by omega
      conv_rhs => rw [this, List.replicate_succ']
      simp
    · intro l hl ce hce
      simp only [List.mem_append, List.mem_singleton, Option.some.injEq] at hl
      rcases hl with hl | hl
      · exact h.values l hl ce hce
      · rw [hl] at hce
        exact hval ce hce
    · intro slot hslot
      have := h.table slot hslot
      simp only [List.length_append, List.length_singleton]
      exact ⟨this.1, by omega, this.2.2⟩

/-- Reading a list after one entry was set. -/
theorem getD_set_eq {α : Type} (l : List α) (i j : Nat) (a d : α) :
    (l.set i a).getD j d = if i = j ∧ i < l.length then a else l.getD j d := by
  rw [List.getD_eq_getElem?_getD, List.getD_eq_getElem?_getD, List.getElem?_set]
  by_cases hij : i = j
  · by_cases hlt : i < l.length
    · subst hij
      simp [hlt]
    · subst hij
      simp only [if_true, hlt, if_false, and_false]
      rw [List.getElem?_eq_none (by omega)]
  · simp [hij]

/-- Setting an entry to what it holds changes nothing. -/
theorem set_getD_self {α : Type} (l : List α) (i : Nat) (a d : α) (hlt : i < l.length)
    (h : l.getD i d = a) : l.set i a = l := by
  induction l generalizing i with
  | nil => simp at hlt
  | cons x xs ih =>
    cases i with
    | zero =>
      simp only [List.getD_cons_zero] at h
      simp [h]
    | succ k =>
      simp only [List.getD_cons_succ] at h
      simp only [List.set_cons_succ, List.cons.injEq, true_and]
      exact ih k (by simpa using hlt) h

/-- A change of one vector in place that does not shorten it and keeps its values
in range. -/
theorem grows_modifyMoves (st : Searcher) (idx : Nat) (f : List CellEval → List CellEval)
    (hlen : ∀ moves, st.getMoves idx = some moves → moves.length ≤ (f moves).length)
    (hval : SearcherInv st → ∀ moves, st.getMoves idx = some moves →
      ∀ ce ∈ f moves, InInt16 ce.value) :
    Grows st (st.modifyMoves idx f) := by
  unfold Searcher.modifyMoves
  cases hget : st.vectors_.getD idx none with
  | none => exact Grows.refl st
  | some moves =>
    have hg : st.getMoves idx = some moves := hget
    have hlt := (getMoves_some st idx moves hg).1
    refine ⟨by simp, ?_, ?_⟩
    · intro idx' l h
      unfold Searcher.getMoves at h ⊢
      simp only
      rw [getD_set_eq]
      by_cases hi : idx = idx'
      · subst hi
        rw [hget] at h
        have hl : moves = l := Option.some.inj h
        subst hl
        simp only [hlt, and_self, if_true]
        exact ⟨f moves, rfl, hlen moves hg⟩
      · simp only [hi, false_and, if_false]
        exact ⟨l, h, le_refl _⟩
    · intro h
      refine ⟨?_, ?_, ?_⟩
      · have hs := h.shape
        unfold ArenaShape at hs ⊢
        simp only [List.map_set, Option.isSome_some, List.length_set]
        rw [set_getD_self _ idx true false (by simpa using hlt)]
        · exact hs
        · rw [List.getD_eq_getElem?_getD, List.getElem?_map]
          rw [List.getD_eq_getElem?_getD] at hget
          rw [List.getElem?_eq_getElem hlt] at hget ⊢
          simp only [Option.getD_some] at hget
          simp [hget]
      · intro l hl ce hce
        rcases List.mem_or_eq_of_mem_set hl with hold | hnew
        · exact h.values l hold ce hce
        · have hl' : l = f moves := Option.some.inj hnew
          rw [hl'] at hce
          exact hval h moves hg ce hce
      · intro slot hslot
        have := h.table slot hslot
        simp only [List.length_set]
        exact this

/-- A slot of the table after a store is an old slot or holds the stored node. -/
theorem mem_StoreValue (capacity : Nat) (tt : TranspositionTable) (hash : Hash)
    (entry : EvalKindDepthMoves) (slot : Hash × EvalKindDepthMoves)
    (h : slot ∈ StoreValue capacity tt hash entry) : slot ∈ tt ∨ slot.2 = entry := by
  unfold StoreValue at h
  split at h
  · obtain ⟨s, hs, heq⟩ := List.mem_map.mp h
    by_cases hk : s.1 = hash
    · rw [if_pos hk] at heq
      right
      rw [← heq]
    · rw [if_neg hk] at heq
      left
      rw [← heq]
      exact hs
  · split at h
    · rcases List.mem_append.mp h with h1 | h2
      · exact Or.inl h1
      · right
        have : slot = (hash, entry) := by simpa using h2
        rw [this]
    · exact Or.inl h

/-- The store of a node that names a vector of the arena. -/
theorem grows_storeNode (env : SearchEnv) (st : Searcher) (hash : Hash) (value : Int)
    (kind : Kind) (depth : Int) (idx : Nat) (moves : List CellEval)
    (hidx : st.getMoves idx = some moves) :
    Grows st (st.storeNode env hash value kind depth idx) := by
  unfold Searcher.storeNode
  refine ⟨le_refl _, fun i l h => ⟨l, h, le_refl _⟩, ?_⟩
  intro h
  refine ⟨h.shape, h.values, ?_⟩
  intro slot hslot
  rcases mem_StoreValue _ _ _ _ slot hslot with hold | hnew
  · exact h.table slot hold
  · rw [hnew]
    exact ⟨index_pos_of_shape st h.shape idx moves hidx, (getMoves_some st idx moves hidx).1,
      toInt16_range value⟩

/-- The vector of an index after a change in place. -/
theorem getMoves_modifyMoves (st : Searcher) (idx : Nat) (f : List CellEval → List CellEval)
    (moves : List CellEval) (h : st.getMoves idx = some moves) :
    (st.modifyMoves idx f).getMoves idx = some (f moves) := by
  have hlt := (getMoves_some st idx moves h).1
  unfold Searcher.modifyMoves
  unfold Searcher.getMoves at h
  rw [h]
  unfold Searcher.getMoves
  simp only
  rw [getD_set_eq]
  simp [hlt]

/-- The assignment `moves[i].value = v` keeps the state within `Grows`. -/
theorem grows_writeValue (st : Searcher) (idx i : Nat) (v : Int) :
    Grows st (st.writeValue idx i v) := by
  unfold Searcher.writeValue
  apply grows_modifyMoves
  · intro moves _
    simp
  · intro h moves hm ce hce
    rcases List.mem_or_eq_of_mem_set hce with hold | hnew
    · exact h.values moves (getMoves_some st idx moves hm).2 ce hold
    · rw [hnew]
      exact toInt16_range v

/-- The entry written by `moves[i].value = v`. -/
theorem getMoves_writeValue (st : Searcher) (idx i : Nat) (v : Int) (moves : List CellEval)
    (h : st.getMoves idx = some moves) (hi : i < moves.length) :
    ∃ moves', (st.writeValue idx i v).getMoves idx = some moves' ∧
      moves'.length = moves.length ∧ (moves'.getD i default).value = toInt16 v := by
  refine ⟨_, getMoves_modifyMoves st idx _ moves h, by simp, ?_⟩
  rw [getD_set_eq]
  simp [hi, CellEval.setValue]

/-- Every value of a vector built by `ExpandMoves` fits the 16-bit field. -/
theorem expandMovesList_values (b : BoardEnv) (position : Position) (player : Player)
    (level : Int) : ∀ ce ∈ ExpandMovesList b position player level, InInt16 ce.value := by
  have hcand : ∀ ce ∈ expandCandidates b position player, InInt16 ce.value := by
    intro ce hce
    unfold expandCandidates at hce
    split at hce
    · obtain ⟨c, _, rfl⟩ := List.mem_map.mp hce
      exact toInt16_range _
    · split at hce
      · obtain ⟨c, _, rfl⟩ := List.mem_map.mp hce
        exact toInt16_range _
      · obtain ⟨mc, _, hsome⟩ := List.mem_filterMap.mp hce
        split at hsome
        · rw [← Option.some.inj hsome]
          exact toInt16_range _
        · exact absurd hsome (by simp)
  intro ce hce
  unfold ExpandMovesList at hce
  have hmem := (sortBy_perm CellEvalCompareAsc _).mem_iff.mp hce
  split at hmem
  · rcases List.mem_append.mp hmem with hc | hp
    · exact hcand ce hc
    · have : ce = CellEval.make kZerothCell
          (kPotentialScale * expandBaseline b position player) := by simpa using hp
      rw [this]
      exact toInt16_range _
  · exact hcand ce hmem

/-- The function `ExpandMoves` keeps the state within `Grows`. -/
theorem grows_ExpandMoves (env : SearchEnv) (st : Searcher) (player : Player) (level : Int) :
    Grows st (ExpandMoves env st player level).2 :=
  grows_pushMoves st _ (expandMovesList_values env.board st.position_ player level)

/-- The common head of `Attack` and `Defend` keeps the state within `Grows`. -/
theorem grows_nodeEntry (env : SearchEnv) (st : Searcher) (is_attack : Bool) (hash : Hash)
    (alpha beta depth level : Int) :
    Grows st (nodeEntry env st is_attack hash alpha beta depth level).1 := by
  have hfst : (nodeEntry env st is_attack hash alpha beta depth level).1
      = { st with max_depth_reads := st.max_depth_reads + 1,
                  call_log := st.call_log ++ [CallRecord.mk is_attack depth level] } := by
    unfold nodeEntry
    simp only
    split
    · rfl
    · split
      · rfl
      · split
        · rfl
        · split <;> rfl
  rw [hfst]
  exact grows_of_eq _ _ rfl rfl

/-- The appending loop only adds attacker entries at the end. -/
theorem appendInterestingLoop_spec (best : Int) (check : Bool) (size : Nat)
    (attacks moves : List CellEval) :
    moves.length ≤ (appendInterestingLoop best check size attacks moves).length ∧
      ∀ ce ∈ appendInterestingLoop best check size attacks moves, ce ∈ moves ∨ ce ∈ attacks := by
  induction attacks generalizing moves with
  | nil => exact ⟨le_refl _, fun ce h => Or.inl h⟩
  | cons a rest ih =>
    unfold appendInterestingLoop
    split
    · exact ⟨le_refl _, fun ce h => Or.inl h⟩
    · split
      · obtain ⟨h1, h2⟩ := ih moves
        refine ⟨h1, fun ce h => ?_⟩
        rcases h2 ce h with h | h
        · exact Or.inl h
        · exact Or.inr (List.mem_cons_of_mem _ h)
      · obtain ⟨h1, h2⟩ := ih (moves ++ [a])
        refine ⟨by simp at h1; omega, fun ce h => ?_⟩
        rcases h2 ce h with h | h
        · rcases List.mem_append.mp h with h | h
          · exact Or.inl h
          · right
            have : ce = a := by simpa using h
            rw [this]
            exact List.mem_cons_self _ _
        · exact Or.inr (List.mem_cons_of_mem _ h)

/-- The appending only adds attacker entries at the end. -/
theorem appendInterestingNodes_spec (attacks moves appended : List CellEval)
    (h : AppendInterestingNodes attacks moves = some appended) :
    moves.length ≤ appended.length ∧ ∀ ce ∈ appended, ce ∈ moves ∨ ce ∈ attacks := by
  unfold AppendInterestingNodes at h
  simp only at h
  split at h
  · rw [← Option.some.inj h]
    exact appendInterestingLoop_spec _ _ _ _ _
  · split at h
    · rw [← Option.some.inj h]
      exact appendInterestingLoop_spec _ _ _ _ _
    · exact absurd h (by simp)

/-- The call of `AppendInterestingNodesIfNotPresent` keeps the state within
`Grows`. -/
theorem grows_appendInteresting (st : Searcher) (attack_hash : Hash) (idx : Nat) :
    Grows st (appendInteresting st attack_hash idx).1 := by
  unfold appendInteresting
  split
  · exact Grows.refl st
  · split
    · exact Grows.refl st
    · split
      · rename_i attacks moves hatt hmov
        split
        · exact Grows.refl st
        · split
          · exact Grows.refl st
          · rename_i appended happ
            have hspec := appendInterestingNodes_spec attacks moves appended happ
            apply grows_modifyMoves
            · intro l hl
              rw [hmov] at hl
              rw [← Option.some.inj hl]
              exact hspec.1
            · intro hinv l _ ce hce
              rcases hspec.2 ce hce with h | h
              · exact hinv.values moves (getMoves_some st idx moves hmov).2 ce h
              · exact hinv.values attacks (getMoves_some st _ attacks hatt).2 ce h
      · exact Grows.refl st

/-- Sorting a prefix keeps the length and the elements. -/
theorem sortPrefix_perm {α : Type} (lt : α → α → Bool) (i : Nat) (l : List α) :
    (sortPrefix lt i l).Perm l := by
  unfold sortPrefix
  have h := (sortBy_perm lt (l.take i)).append_right (l.drop i)
  rw [List.take_append_drop] at h
  exact h

/-- The end of `Attack` and `Defend` keeps the state within `Grows`. -/
theorem grows_finishNode (env : SearchEnv) (lt : CellEval → CellEval → Bool) (st : Searcher)
    (hash : Hash) (depth : Int) (idx i : Nat) (kind : Kind) :
    Grows st (finishNode env lt st hash depth idx i kind).1 := by
  unfold finishNode
  split
  · exact Grows.refl st
  · rename_i moves hm
    simp only
    have h1 : Grows st (st.modifyMoves idx
        (fun _ => sortPrefix lt (if i < moves.length then i + 1 else i) moves)) := by
      apply grows_modifyMoves
      · intro l hl
        rw [hm] at hl
        rw [← Option.some.inj hl]
        exact le_of_eq (sortPrefix_perm lt _ moves).length_eq.symm
      · intro hinv l _ ce hce
        exact hinv.values moves (getMoves_some st idx moves hm).2 ce
          ((sortPrefix_perm lt _ moves).mem_iff.mp hce)
    exact h1.trans (grows_storeNode env _ hash _ kind depth idx _
      (getMoves_modifyMoves st idx _ moves hm))

/-- A change of `position_` alone keeps the state within `Grows`. -/
theorem grows_position (st : Searcher) (p : Position) :
    Grows st { st with position_ := p } :=
  grows_of_eq _ _ rfl rfl

/-- One move of the attacker keeps the state within `Grows`. -/
theorem grows_attackMove (env : SearchEnv) (defend : DefendCall) (hd : GoodCall defend)
    (a : AttackArgs) (idx i : Nat) (ce : CellEval) (value beta : Int) (st : Searcher) :
    Grows st (attackMove env defend a idx i ce value beta st).1 := by
  unfold attackMove
  split
  · split
    · split
      · rename_i st1 v hcall
        have h := hd st ⟨attackerPassChild a.hash, a.alpha, beta, a.depth, a.level + 1, a.max_level⟩
        rw [hcall] at h
        exact h.trans (grows_writeValue st1 idx i v)
      · rename_i st1 o _ hcall
        have h := hd st ⟨attackerPassChild a.hash, a.alpha, beta, a.depth, a.level + 1, a.max_level⟩
        rw [hcall] at h
        exact h
    · exact Grows.refl st
  · split
    · exact grows_writeValue st idx i kWon
    · split
      · rename_i st1 v hcall
        have h := hd { st with position_ :=
            (st.position_.MakeMoveReversibly env.winning_condition env.attacker_ ce.cell).2 }
          ⟨env.ModifyZobristHash a.hash env.attacker_ (env.board.CellToMoveIndex ce.cell),
            a.alpha - kPotentialScale, beta - kPotentialScale, a.depth - 1, a.level + 1,
            a.max_level⟩
        rw [hcall] at h
        exact (((grows_position st _).trans h).trans (grows_position st1 st.position_)).trans
          (grows_writeValue _ idx i _)
      · rename_i st1 o _ hcall
        have h := hd { st with position_ :=
            (st.position_.MakeMoveReversibly env.winning_condition env.attacker_ ce.cell).2 }
          ⟨env.ModifyZobristHash a.hash env.attacker_ (env.board.CellToMoveIndex ce.cell),
            a.alpha - kPotentialScale, beta - kPotentialScale, a.depth - 1, a.level + 1,
            a.max_level⟩
        rw [hcall] at h
        exact (grows_position st _).trans h

/-- The move loop of `Attack` keeps the state within `Grows`. -/
theorem grows_AttackLoop (env : SearchEnv) (defend : DefendCall) (hd : GoodCall defend)
    (a : AttackArgs) (idx : Nat) (steps : Nat) (st : Searcher) (i : Nat) (value : Int)
    (kind : Kind) (beta : Int) :
    Grows st (AttackLoop env defend a idx steps st i value kind beta).1 := by
  induction steps generalizing st i value kind beta with
  | zero => exact Grows.refl st
  | succ steps ih =>
    unfold AttackLoop
    split
    · exact Grows.refl st
    · rename_i moves hm
      split
      · have hmove := grows_attackMove env defend hd a idx i (moves.getD i default) value beta st
        split
        · rename_i st1 o hres
          rw [hres] at hmove
          exact hmove
        · rename_i st1 hres
          rw [hres] at hmove
          exact hmove
        · rename_i st1 v hres
          rw [hres] at hmove
          split
          · exact hmove
          · split
            · exact hmove.trans (ih st1 (i + 1) v Kind.kExact v)
            · exact hmove.trans (ih st1 (i + 1) v kind beta)
      · exact Grows.refl st

/-- The body of `Attack` keeps the state within `Grows` when the nested calls
do. -/
theorem grows_AttackNode (env : SearchEnv) (steps : Nat) (defend : DefendCall)
    (hd : GoodCall defend) : GoodCall (AttackNode env steps defend) := by
  intro st a
  unfold AttackNode
  have hentry := grows_nodeEntry env st true a.hash a.alpha a.beta a.depth a.level
  split
  · rename_i st1 o hres
    rw [hres] at hentry
    exact hentry
  · rename_i st1 found hres
    rw [hres] at hentry
    simp only
    have hexp : Grows st1
        (if found = 0 then ExpandMoves env st1 env.attacker_ a.level else (found, st1)).2 := by
      split
      · exact grows_ExpandMoves env st1 env.attacker_ a.level
      · exact Grows.refl st1
    generalize (if found = 0 then ExpandMoves env st1 env.attacker_ a.level
      else (found, st1)) = expanded at hexp
    have h2 := hentry.trans hexp
    split
    · exact h2
    · rename_i moves hm
      split
      · split
        · exact h2
        · exact h2.trans (grows_storeNode env _ a.hash _ _ a.depth expanded.1 moves hm)
      · have hloop := grows_AttackLoop env defend hd a expanded.1 steps expanded.2 0 kDraw
          Kind.kBeta a.beta
        split
        · rename_i st3 o hres3
          rw [hres3] at hloop
          exact h2.trans hloop
        · rename_i st3 i kind hres3
          rw [hres3] at hloop
          exact (h2.trans hloop).trans (grows_finishNode env _ st3 a.hash a.depth expanded.1 i kind)

/-- One move of the defender keeps the state within `Grows`. -/
theorem grows_defendMove (env : SearchEnv) (attack : AttackCall) (ha : GoodCall attack)
    (d : DefendArgs) (idx i : Nat) (ce : CellEval) (alpha : Int) (st : Searcher) :
    Grows st (defendMove env attack d idx i ce alpha st).1 := by
  unfold defendMove
  split
  · split
    · rename_i st1 v hcall
      have h := ha st ⟨defenderPassChild d.hash, alpha - kPotentialScale, d.beta - kPotentialScale, d.depth,
          d.level + 1, d.max_level, true⟩
      rw [hcall] at h
      have hw := h.trans (grows_writeValue st1 idx i v)
      split
      · have happ := grows_appendInteresting (st1.writeValue idx i v)
          (defenderPassChild d.hash) idx
        split
        · rename_i st2 o hres
          rw [hres] at happ
          exact hw.trans happ
        · rename_i st2 hres
          rw [hres] at happ
          exact hw.trans happ
      · exact hw
    · rename_i st1 o _ hcall
      have h := ha st ⟨defenderPassChild d.hash, alpha - kPotentialScale, d.beta - kPotentialScale, d.depth,
          d.level + 1, d.max_level, true⟩
      rw [hcall] at h
      exact h
  · split
    · exact grows_writeValue st idx i kLost
    · split
      · rename_i st1 v hcall
        have h := ha { st with position_ :=
            (st.position_.MakeMoveReversibly env.winning_condition env.defender_ ce.cell).2 }
          ⟨env.ModifyZobristHash d.hash env.defender_ (env.board.CellToMoveIndex ce.cell),
            alpha + kPotentialScale, d.beta + kPotentialScale, d.depth + 1, d.level + 1,
            d.max_level, false⟩
        rw [hcall] at h
        exact (((grows_position st _).trans h).trans (grows_position st1 st.position_)).trans
          (grows_writeValue _ idx i _)
      · rename_i st1 o _ hcall
        have h := ha { st with position_ :=
            (st.position_.MakeMoveReversibly env.winning_condition env.defender_ ce.cell).2 }
          ⟨env.ModifyZobristHash d.hash env.defender_ (env.board.CellToMoveIndex ce.cell),
            alpha + kPotentialScale, d.beta + kPotentialScale, d.depth + 1, d.level + 1,
            d.max_level, false⟩
        rw [hcall] at h
        exact (grows_position st _).trans h

/-- The move loop of `Defend` keeps the state within `Grows`. -/
theorem grows_DefendLoop (env : SearchEnv) (attack : AttackCall) (ha : GoodCall attack)
    (d : DefendArgs) (idx : Nat) (steps : Nat) (st : Searcher) (i : Nat) (kind : Kind)
    (alpha : Int) :
    Grows st (DefendLoop env attack d idx steps st i kind alpha).1 := by
  induction steps generalizing st i kind alpha with
  | zero => exact Grows.refl st
  | succ steps ih =>
    unfold DefendLoop
    split
    · exact Grows.refl st
    · rename_i moves hm
      split
      · have hmove := grows_defendMove env attack ha d idx i (moves.getD i default) alpha st
        split
        · rename_i st1 o hres
          rw [hres] at hmove
          exact hmove
        · rename_i st1 hres
          rw [hres] at hmove
          exact hmove
        · rename_i st1 v hres
          rw [hres] at hmove
          split
          · exact hmove
          · split
            · exact hmove.trans (ih st1 (i + 1) Kind.kExact v)
            · exact hmove.trans (ih st1 (i + 1) kind alpha)
      · exact Grows.refl st

/-- The body of `Defend` keeps the state within `Grows` when the nested calls
do. -/
theorem grows_DefendNode (env : SearchEnv) (steps : Nat) (attack : AttackCall)
    (ha : GoodCall attack) : GoodCall (DefendNode env steps attack) := by
  intro st d
  unfold DefendNode
  have hentry := grows_nodeEntry env st false d.hash d.alpha d.beta d.depth d.level
  split
  · rename_i st1 o hres
    rw [hres] at hentry
    exact hentry
  · rename_i st1 found hres
    rw [hres] at hentry
    simp only
    have hexp : Grows st1
        (if found = 0 then st1.pushMoves [CellEval.make kZerothCell d.alpha]
          else (found, st1)).2 := by
      split
      · apply grows_pushMoves
        intro ce hce
        have : ce = CellEval.make kZerothCell d.alpha := by simpa using hce
        rw [this]
        exact toInt16_range _
      · exact Grows.refl st1
    generalize (if found = 0 then st1.pushMoves [CellEval.make kZerothCell d.alpha]
      else (found, st1)) = expanded at hexp
    have h2 := hentry.trans hexp
    have hloop := grows_DefendLoop env attack ha d expanded.1 steps expanded.2 0 Kind.kAlpha
      d.alpha
    split
    · rename_i st3 o hres3
      rw [hres3] at hloop
      exact h2.trans hloop
    · rename_i st3 i kind hres3
      rw [hres3] at hloop
      exact (h2.trans hloop).trans (grows_finishNode env _ st3 d.hash d.depth expanded.1 i kind)

/-- With any budgets, `Attack` and `Defend` keep the state within `Grows`. -/
theorem good_SearchCalls (env : SearchEnv) (steps frames : Nat) :
    GoodCall (SearchCalls env steps frames).1 ∧ GoodCall (SearchCalls env steps frames).2 := by
  induction frames with
  | zero => exact ⟨fun st _ => Grows.refl st, fun st _ => Grows.refl st⟩
  | succ n ih =>
    exact ⟨grows_AttackNode env steps _ ih.2, grows_DefendNode env steps _ ih.1⟩

/-- A freshly constructed searcher satisfies the invariant. -/
theorem inv_create (position : Position) : SearcherInv (Searcher.create position) := by
  refine ⟨rfl, ?_, ?_⟩
  · intro moves h
    simp [Searcher.create] at h
  · intro slot h
    simp [Searcher.create] at h

/-- Every reachable state satisfies the invariant. -/
theorem inv_of_reachable (env : SearchEnv) (st : Searcher) (h : Reachable env st) :
    SearcherInv st := by
  induction h with
  | create position => exact inv_create position
  | attack steps frames st a _ ih => exact ((good_SearchCalls env steps frames).1 st a).inv ih
  | defend steps frames st d _ ih => exact ((good_SearchCalls env steps frames).2 st d).inv ih

/-- The invariant of the searcher state gives the arena-id invariant. -/
theorem arena_id_of_inv (st : Searcher) (h : SearcherInv st) : ArenaIdInvariant st := by
  have hs := h.shape
  unfold ArenaShape at hs
  have hlen : 0 < st.vectors_.length := by
    have := congrArg List.length hs
    simp only [List.length_map, List.length_cons, List.length_replicate] at this
    omega
  refine ⟨fun slot hslot => ⟨(h.table slot hslot).1, (h.table slot hslot).2.1⟩, hlen, ?_⟩
  intro i hi
  have hget : (st.getMoves i).isSome = (false :: List.replicate (st.vectors_.length - 1) true).getD
      i false := by
    rw [← hs]
    unfold Searcher.getMoves
    rw [List.getD_eq_getElem?_getD, List.getD_eq_getElem?_getD, List.getElem?_map,
      List.getElem?_eq_getElem hi]
    rfl
  constructor
  · intro hnone
    by_contra hne
    obtain ⟨k, rfl⟩ : ∃ k, i = k + 1 := ⟨i - 1, by omega⟩
    rw [hnone] at hget
    rw [List.getD_eq_getElem?_getD, List.getElem?_cons_succ,
      List.getElem?_replicate] at hget
    rw [if_pos (by omega)] at hget
    simp at hget
  · intro h0
    subst h0
    simpa using hget

/-- C18: in every state reachable from a freshly constructed `Searcher` by calls
of `Attack` and `Defend`, whatever their arguments, every node of the table has
`1 <= moves_index < vectors_.size()`, index `0` of the arena is null, and every
other index of the arena names a vector. -/
theorem C18_arena_id_invariant (env : SearchEnv) (st : Searcher) (h : Reachable env st) :
    ArenaIdInvariant st :=
  arena_id_of_inv st (inv_of_reachable env st h)

/-- C18 at a state reached by a root call of `Attack` on the sample board. -/
theorem C18_arena_id_invariant_witness :
    ArenaIdInvariant (Attack (sampleSearchEnv 2) 20 10 (Searcher.create samplePosition)
      ⟨0, -kInfinity, kInfinity, 1, 0, 2, false⟩).1 :=
  C18_arena_id_invariant (sampleSearchEnv 2) _
    (Reachable.attack 20 10 _ _ (Reachable.create samplePosition))

/-- A node found in the table is the value of one of its slots. -/
theorem findValue_mem (tt : TranspositionTable) (hash : Hash) (e : EvalKindDepthMoves)
    (h : FindValue tt hash = some e) : (hash, e) ∈ tt := by
  induction tt with
  | nil => simp [FindValue] at h
  | cons slot rest ih =>
    unfold FindValue at h
    split at h
    · rename_i heq
      have he : slot.2 = e := Option.some.inj h
      have : slot = (hash, e) := Prod.ext heq he
      rw [this]
      exact List.mem_cons_self _ _
    · exact List.mem_cons_of_mem _ (ih h)

/-- No call is recorded between a state and itself. -/
theorem LogBounded.same (D M : Int) (st : Searcher) : LogBounded D M st st :=
  fun _ h => Or.inl h

/-- The recorded calls of two parts of a run. -/
theorem LogBounded.append {D M : Int} {st1 st2 st3 : Searcher} (h12 : LogBounded D M st1 st2)
    (h23 : LogBounded D M st2 st3) : LogBounded D M st1 st3 := by
  intro r hr
  rcases h23 r hr with h | h
  · exact h12 r h
  · exact Or.inr h

/-- A step that leaves the record of calls alone. -/
theorem logBounded_of_eq (D M : Int) (st st' : Searcher) (h : st'.call_log = st.call_log) :
    LogBounded D M st st' := by
  intro r hr
  rw [h] at hr
  exact Or.inl hr

/-- A change of a vector leaves the record of calls alone. -/
theorem call_log_modifyMoves (st : Searcher) (idx : Nat) (f : List CellEval → List CellEval) :
    (st.modifyMoves idx f).call_log = st.call_log := by
  unfold Searcher.modifyMoves
  split <;> rfl

/-- The end of a node leaves the record of calls alone and returns a value or a
fault. -/
theorem finishNode_bounded (D M : Int) (env : SearchEnv) (lt : CellEval → CellEval → Bool)
    (st : Searcher) (hash : Hash) (depth : Int) (idx i : Nat) (kind : Kind) :
    BoundedRun D M st (finishNode env lt st hash depth idx i kind) := by
  unfold finishNode
  split
  · exact ⟨by simp, LogBounded.same D M st⟩
  · refine ⟨by simp, logBounded_of_eq D M _ _ ?_⟩
    simp only [Searcher.storeNode]
    exact call_log_modifyMoves st idx _

/-- The head of a node records its call and leaves with a value, by `longjmp` or
with a fault. -/
theorem nodeEntry_bounded (D M : Int) (env : SearchEnv) (st : Searcher) (is_attack : Bool)
    (hash : Hash) (alpha beta depth level : Int)
    (hb : CallInBounds D M { is_attack := is_attack, depth := depth, level := level }) :
    LogBounded D M st (nodeEntry env st is_attack hash alpha beta depth level).1 ∧
      ∀ o, (nodeEntry env st is_attack hash alpha beta depth level).2 = NodeEntry.leave o →
        o ≠ Outcome.outOfFrames := by
  have hlog : ∀ st1 : Searcher, st1.call_log = st.call_log ++
      [{ is_attack := is_attack, depth := depth, level := level }] → LogBounded D M st st1 := by
    intro st1 h r hr
    rw [h] at hr
    rcases List.mem_append.mp hr with h1 | h1
    · exact Or.inl h1
    · rw [List.mem_singleton] at h1
      rw [h1]
      exact Or.inr hb
  unfold nodeEntry
  simp only
  split
  · exact ⟨hlog _ rfl, by intro o h; cases h; simp⟩
  · split
    · exact ⟨hlog _ rfl, by intro o h; cases h⟩
    · split
      · exact ⟨hlog _ rfl, by intro o h; cases h; simp⟩
      · split
        · exact ⟨hlog _ rfl, by intro o h; cases h; simp⟩
        · exact ⟨hlog _ rfl, by intro o h; cases h⟩

/-- The call of `AppendInterestingNodesIfNotPresent` leaves the record of calls
alone and does not use up the budget of nested calls. -/
theorem appendInteresting_bounded (D M : Int) (st : Searcher) (attack_hash : Hash)
    (idx : Nat) :
    LogBounded D M st (appendInteresting st attack_hash idx).1 ∧
      (appendInteresting st attack_hash idx).2 ≠ some Outcome.outOfFrames := by
  unfold appendInteresting
  split
  · exact ⟨LogBounded.same D M st, by simp⟩
  · split
    · exact ⟨LogBounded.same D M st, by simp⟩
    · split
      · split
        · exact ⟨LogBounded.same D M st, by simp⟩
        · split
          · exact ⟨LogBounded.same D M st, by simp⟩
          · exact ⟨logBounded_of_eq D M _ _ (call_log_modifyMoves st idx _), by simp⟩
      · exact ⟨LogBounded.same D M st, by simp⟩

/-- One move of the attacker within the bounds. -/
theorem attackMove_bounded (D M : Int) (env : SearchEnv) (defend : DefendCall)
    (a : AttackArgs) (ha : AttackPre D M a) (hd0 : a.depth ≠ 0) (hlev : a.level ≤ M)
    (hchild : ∀ st d, DefendPre D M d → d.level = a.level + 1 →
      BoundedRun D M st (defend st d))
    (idx i : Nat) (ce : CellEval) (value beta : Int) (st : Searcher) :
    LogBounded D M st (attackMove env defend a idx i ce value beta st).1 ∧
      (attackMove env defend a idx i ce value beta st).2 ≠ MoveResult.stop Outcome.outOfFrames := by
  obtain ⟨hM, hdlo, hdhi, hllo, _, hroot⟩ := ha
  unfold attackMove
  split
  · split
    · rename_i hl0
      have h := hchild st ⟨attackerPassChild a.hash, a.alpha, beta, a.depth, a.level + 1,
        a.max_level⟩ ⟨hM, hdlo, hroot hl0, by simp only; omega, by simp only; omega⟩ rfl
      split
      · rename_i st1 v hcall
        rw [hcall] at h
        exact ⟨h.2.append (logBounded_of_eq D M _ _ (call_log_modifyMoves st1 idx _)), by simp⟩
      · rename_i st1 o _ hcall
        rw [hcall] at h
        refine ⟨h.2, ?_⟩
        intro hc
        exact h.1 (MoveResult.stop.inj hc)
    · exact ⟨LogBounded.same D M st, by simp⟩
  · split
    · exact ⟨logBounded_of_eq D M _ _ (call_log_modifyMoves st idx _), by simp⟩
    · have h := hchild { st with position_ :=
            (st.position_.MakeMoveReversibly env.winning_condition env.attacker_ ce.cell).2 }
          ⟨env.ModifyZobristHash a.hash env.attacker_ (env.board.CellToMoveIndex ce.cell),
            a.alpha - kPotentialScale, beta - kPotentialScale, a.depth - 1, a.level + 1,
            a.max_level⟩
          ⟨hM, by simp only; omega, by simp only; omega, by simp only; omega,
            by simp only; omega⟩ rfl
      split
      · rename_i st1 v hcall
        rw [hcall] at h
        refine ⟨?_, by simp⟩
        have h1 : LogBounded D M st st1 := fun r hr => h.2 r hr
        exact h1.append (logBounded_of_eq D M _ _ (call_log_modifyMoves _ idx _))
      · rename_i st1 o _ hcall
        rw [hcall] at h
        refine ⟨fun r hr => h.2 r hr, ?_⟩
        intro hc
        exact h.1 (MoveResult.stop.inj hc)

/-- The move loop of `Attack` within the bounds. -/
theorem attackLoop_bounded (D M : Int) (env : SearchEnv) (defend : DefendCall)
    (a : AttackArgs) (ha : AttackPre D M a) (hd0 : a.depth ≠ 0) (hlev : a.level ≤ M)
    (hchild : ∀ st d, DefendPre D M d → d.level = a.level + 1 →
      BoundedRun D M st (defend st d))
    (idx : Nat) (steps : Nat) (st : Searcher) (i : Nat) (value : Int) (kind : Kind)
    (beta : Int) :
    LogBounded D M st (AttackLoop env defend a idx steps st i value kind beta).1 ∧
      (AttackLoop env defend a idx steps st i value kind beta).2 ≠
        LoopResult.stop Outcome.outOfFrames := by
  induction steps generalizing st i value kind beta with
  | zero => exact ⟨LogBounded.same D M st, by simp [AttackLoop]⟩
  | succ steps ih =>
    unfold AttackLoop
    split
    · exact ⟨LogBounded.same D M st, by simp⟩
    · split
      · rename_i moves _ _
        have hmove := attackMove_bounded D M env defend a ha hd0 hlev hchild idx i
          (moves.getD i default) value beta st
        split
        · rename_i st1 o hres
          rw [hres] at hmove
          refine ⟨hmove.1, ?_⟩
          intro hc
          exact hmove.2 (by rw [LoopResult.stop.inj hc])
        · rename_i st1 hres
          rw [hres] at hmove
          exact ⟨hmove.1, by simp⟩
        · rename_i st1 v hres
          rw [hres] at hmove
          split
          · exact ⟨hmove.1, by simp⟩
          · split
            · exact ⟨hmove.1.append (ih st1 (i + 1) v Kind.kExact v).1,
                (ih st1 (i + 1) v Kind.kExact v).2⟩
            · exact ⟨hmove.1.append (ih st1 (i + 1) v kind beta).1,
                (ih st1 (i + 1) v kind beta).2⟩
      · exact ⟨LogBounded.same D M st, by simp⟩

/-- The body of `Attack` within the bounds: the nested calls of `Defend` are
entered only below the level cap and with a depth other than `0`. -/
theorem attackNode_bounded (D M : Int) (env : SearchEnv) (steps : Nat) (defend : DefendCall)
    (st : Searcher) (a : AttackArgs) (ha : AttackPre D M a)
    (hchild : a.depth ≠ 0 → a.level ≤ M → ∀ st d, DefendPre D M d → d.level = a.level + 1 →
      BoundedRun D M st (defend st d)) :
    BoundedRun D M st (AttackNode env steps defend st a) := by
  have hb : CallInBounds D M { is_attack := true, depth := a.depth, level := a.level } :=
    ⟨ha.2.2.2.1, ha.2.2.2.2.1, ha.2.1, ha.2.2.1⟩
  have hentry := nodeEntry_bounded D M env st true a.hash a.alpha a.beta a.depth a.level hb
  unfold AttackNode
  split
  · rename_i st1 o hres
    rw [hres] at hentry
    exact ⟨hentry.2 o rfl, hentry.1⟩
  · rename_i st1 found hres
    rw [hres] at hentry
    simp only
    have hexp : LogBounded D M st1
        (if found = 0 then ExpandMoves env st1 env.attacker_ a.level else (found, st1)).2 := by
      split
      · exact logBounded_of_eq D M _ _ rfl
      · exact LogBounded.same D M st1
    generalize (if found = 0 then ExpandMoves env st1 env.attacker_ a.level
      else (found, st1)) = expanded at hexp
    have h2 := hentry.1.append hexp
    split
    · exact ⟨by simp, h2⟩
    · split
      · split
        · exact ⟨by simp, h2⟩
        · exact ⟨by simp, h2.append (logBounded_of_eq D M _ _ rfl)⟩
      · rename_i hhor
        have hd0 : a.depth ≠ 0 := fun h => hhor (Or.inl h)
        have hlev : a.level ≤ M := by
          have : ¬ a.level > a.max_level := fun h => hhor (Or.inr h)
          rw [ha.1] at this
          omega
        have hloop := attackLoop_bounded D M env defend a ha hd0 hlev (hchild hd0 hlev)
          expanded.1 steps expanded.2 0 kDraw Kind.kBeta a.beta
        split
        · rename_i st3 o hres3
          rw [hres3] at hloop
          refine ⟨?_, h2.append hloop.1⟩
          intro hc
          have hc1 : o = Outcome.outOfFrames := hc
          exact hloop.2 (by rw [hc1])
        · rename_i st3 i kind hres3
          rw [hres3] at hloop
          have hfin := finishNode_bounded D M env CellEvalCompareAsc st3 a.hash a.depth
            expanded.1 i kind
          exact ⟨hfin.1, (h2.append hloop.1).append hfin.2⟩

/-- One move of the defender within the bounds. -/
theorem defendMove_bounded (D M : Int) (env : SearchEnv) (attack : AttackCall)
    (d : DefendArgs) (hd : DefendPre D M d)
    (hchild : ∀ st a, AttackPre D M a → a.level = d.level + 1 →
      BoundedRun D M st (attack st a))
    (idx i : Nat) (ce : CellEval) (alpha : Int) (st : Searcher) :
    LogBounded D M st (defendMove env attack d idx i ce alpha st).1 ∧
      (defendMove env attack d idx i ce alpha st).2 ≠ MoveResult.stop Outcome.outOfFrames := by
  obtain ⟨hM, hdlo, hdhi, hllo, hlhi⟩ := hd
  unfold defendMove
  split
  · have h := hchild st ⟨defenderPassChild d.hash, alpha - kPotentialScale,
      d.beta - kPotentialScale, d.depth, d.level + 1, d.max_level, true⟩
      ⟨hM, hdlo, by simp only; omega, by simp only; omega, by simp only; omega,
        by simp only; omega⟩ rfl
    split
    · rename_i st1 v hcall
      rw [hcall] at h
      have hw : LogBounded D M st (st1.writeValue idx i v) :=
        LogBounded.append (fun r hr => h.2 r hr)
          (logBounded_of_eq D M _ _ (call_log_modifyMoves st1 idx _))
      split
      · have happ := appendInteresting_bounded D M (st1.writeValue idx i v)
          (defenderPassChild d.hash) idx
        split
        · rename_i st2 o hres
          rw [hres] at happ
          refine ⟨hw.append happ.1, ?_⟩
          intro hc
          exact happ.2 (by rw [MoveResult.stop.inj hc])
        · rename_i st2 hres
          rw [hres] at happ
          exact ⟨hw.append happ.1, by simp⟩
      · exact ⟨hw, by simp⟩
    · rename_i st1 o _ hcall
      rw [hcall] at h
      refine ⟨fun r hr => h.2 r hr, ?_⟩
      intro hc
      exact h.1 (MoveResult.stop.inj hc)
  · split
    · exact ⟨logBounded_of_eq D M _ _ (call_log_modifyMoves st idx _), by simp⟩
    · have h := hchild { st with position_ :=
            (st.position_.MakeMoveReversibly env.winning_condition env.defender_ ce.cell).2 }
          ⟨env.ModifyZobristHash d.hash env.defender_ (env.board.CellToMoveIndex ce.cell),
            alpha + kPotentialScale, d.beta + kPotentialScale, d.depth + 1, d.level + 1,
            d.max_level, false⟩
          ⟨hM, by simp only; omega, by simp only; omega, by simp only; omega,
            by simp only; omega, by simp only; omega⟩ rfl
      split
      · rename_i st1 v hcall
        rw [hcall] at h
        refine ⟨?_, by simp⟩
        have h1 : LogBounded D M st st1 := fun r hr => h.2 r hr
        exact h1.append (logBounded_of_eq D M _ _ (call_log_modifyMoves _ idx _))
      · rename_i st1 o _ hcall
        rw [hcall] at h
        refine ⟨fun r hr => h.2 r hr, ?_⟩
        intro hc
        exact h.1 (MoveResult.stop.inj hc)

/-- The move loop of `Defend` within the bounds. -/
theorem defendLoop_bounded (D M : Int) (env : SearchEnv) (attack : AttackCall)
    (d : DefendArgs) (hd : DefendPre D M d)
    (hchild : ∀ st a, AttackPre D M a → a.level = d.level + 1 →
      BoundedRun D M st (attack st a))
    (idx : Nat) (steps : Nat) (st : Searcher) (i : Nat) (kind : Kind) (alpha : Int) :
    LogBounded D M st (DefendLoop env attack d idx steps st i kind alpha).1 ∧
      (DefendLoop env attack d idx steps st i kind alpha).2 ≠
        LoopResult.stop Outcome.outOfFrames := by
  induction steps generalizing st i kind alpha with
  | zero => exact ⟨LogBounded.same D M st, by simp [DefendLoop]⟩
  | succ steps ih =>
    unfold DefendLoop
    split
    · exact ⟨LogBounded.same D M st, by simp⟩
    · split
      · rename_i moves _ _
        have hmove := defendMove_bounded D M env attack d hd hchild idx i
          (moves.getD i default) alpha st
        split
        · rename_i st1 o hres
          rw [hres] at hmove
          refine ⟨hmove.1, ?_⟩
          intro hc
          exact hmove.2 (by rw [LoopResult.stop.inj hc])
        · rename_i st1 hres
          rw [hres] at hmove
          exact ⟨hmove.1, by simp⟩
        · rename_i st1 v hres
          rw [hres] at hmove
          split
          · exact ⟨hmove.1, by simp⟩
          · split
            · exact ⟨hmove.1.append (ih st1 (i + 1) Kind.kExact v).1,
                (ih st1 (i + 1) Kind.kExact v).2⟩
            · exact ⟨hmove.1.append (ih st1 (i + 1) kind alpha).1,
                (ih st1 (i + 1) kind alpha).2⟩
      · exact ⟨LogBounded.same D M st, by simp⟩

/-- The body of `Defend` within the bounds. -/
theorem defendNode_bounded (D M : Int) (env : SearchEnv) (steps : Nat) (attack : AttackCall)
    (st : Searcher) (d : DefendArgs) (hd : DefendPre D M d)
    (hchild : ∀ st a, AttackPre D M a → a.level = d.level + 1 →
      BoundedRun D M st (attack st a)) :
    BoundedRun D M st (DefendNode env steps attack st d) := by
  have hb : CallInBounds D M { is_attack := false, depth := d.depth, level := d.level } :=
    ⟨hd.2.2.2.1, by have := hd.2.2.2.2; simp only; omega, hd.2.1,
      by have := hd.2.2.1; simp only; omega⟩
  have hentry := nodeEntry_bounded D M env st false d.hash d.alpha d.beta d.depth d.level hb
  unfold DefendNode
  split
  · rename_i st1 o hres
    rw [hres] at hentry
    exact ⟨hentry.2 o rfl, hentry.1⟩
  · rename_i st1 found hres
    rw [hres] at hentry
    simp only
    have hexp : LogBounded D M st1
        (if found = 0 then st1.pushMoves [CellEval.make kZerothCell d.alpha]
          else (found, st1)).2 := by
      split
      · exact logBounded_of_eq D M _ _ rfl
      · exact LogBounded.same D M st1
    generalize (if found = 0 then st1.pushMoves [CellEval.make kZerothCell d.alpha]
      else (found, st1)) = expanded at hexp
    have h2 := hentry.1.append hexp
    have hloop := defendLoop_bounded D M env attack d hd hchild expanded.1 steps expanded.2 0
      Kind.kAlpha d.alpha
    split
    · rename_i st3 o hres3
      rw [hres3] at hloop
      refine ⟨?_, h2.append hloop.1⟩
      intro hc
      have hc1 : o = Outcome.outOfFrames := hc
      exact hloop.2 (by rw [hc1])
    · rename_i st3 i kind hres3
      rw [hres3] at hloop
      have hfin := finishNode_bounded D M env CellEvalCompareDesc st3 d.hash d.depth
        expanded.1 i kind
      exact ⟨hfin.1, (h2.append hloop.1).append hfin.2⟩

/-- With a budget of `M + 3 - level` nested calls, `Attack` and `Defend` entered
within the bounds stay within them and do not use up the budget. -/
theorem searchCalls_bounded (D M : Int) (env : SearchEnv) (steps frames : Nat) :
    (∀ st a, AttackPre D M a → M + 3 - a.level ≤ frames →
      BoundedRun D M st ((SearchCalls env steps frames).1 st a)) ∧
    (∀ st d, DefendPre D M d → M + 3 - d.level ≤ frames →
      BoundedRun D M st ((SearchCalls env steps frames).2 st d)) := by
  induction frames with
  | zero =>
    constructor
    · intro st a ha hf
      have := ha.2.2.2.2.1
      omega
    · intro st d hd hf
      have := hd.2.2.2.2
      omega
  | succ n ih =>
    constructor
    · intro st a ha hf
      exact attackNode_bounded D M env steps _ st a ha
        (fun _ _ st1 d hd hl => ih.2 st1 d hd (by omega))
    · intro st d hd hf
      exact defendNode_bounded D M env steps _ st d hd
        (fun st1 a ha hl => ih.1 st1 a ha (by omega))

/-- C20: for a root call `Attack(0, -kInfinity, +kInfinity, D, 0, 2 * D, false)`
or `Defend(0, -kInfinity, +kInfinity, D, 0, 2 * D)` with `D >= 0`, every call
entered has `0 <= level <= 2 * D + 2` and `0 <= depth <= D + 1`, and a budget
of `2 * D + 3` nested frames or more is never used up, whatever the state and
the budget of loop rounds; for `D < 100` these are at most `300` frames. -/
theorem C20_recursion_bounded_by_level_cap (env : SearchEnv) (steps frames : Nat) (D : Int)
    (hD : 0 ≤ D) (hframes : 2 * D + 3 ≤ frames) (st : Searcher) :
    ((Attack env steps frames st ⟨0, -kInfinity, kInfinity, D, 0, 2 * D, false⟩).2 ≠
        Outcome.outOfFrames ∧
      ∀ r ∈ (Attack env steps frames st
          ⟨0, -kInfinity, kInfinity, D, 0, 2 * D, false⟩).1.call_log,
        r ∈ st.call_log ∨
          (0 ≤ r.level ∧ r.level ≤ 2 * D + 2 ∧ 0 ≤ r.depth ∧ r.depth ≤ D + 1)) ∧
    ((Defend env steps frames st ⟨0, -kInfinity, kInfinity, D, 0, 2 * D⟩).2 ≠
        Outcome.outOfFrames ∧
      ∀ r ∈ (Defend env steps frames st ⟨0, -kInfinity, kInfinity, D, 0, 2 * D⟩).1.call_log,
        r ∈ st.call_log ∨
          (0 ≤ r.level ∧ r.level ≤ 2 * D + 2 ∧ 0 ≤ r.depth ∧ r.depth ≤ D + 1)) ∧
    (D < 100 → 2 * D + 3 ≤ 300) := by
  refine ⟨?_, ?_, fun h => by omega⟩
  · exact (searchCalls_bounded D (2 * D) env steps frames).1 st
      ⟨0, -kInfinity, kInfinity, D, 0, 2 * D, false⟩
      ⟨rfl, hD, by simp only; omega, le_refl _, by simp only; omega, fun _ => le_refl _⟩
      (by simp only; omega)
  · exact (searchCalls_bounded D (2 * D) env steps frames).2 st
      ⟨0, -kInfinity, kInfinity, D, 0, 2 * D⟩
      ⟨rfl, hD, le_refl _, le_refl _, by simp only; omega⟩
      (by simp only; omega)

/-- C20 at the root calls of depth `1` on the sample board with a budget of `5`
nested frames. -/
theorem C20_recursion_bounded_by_level_cap_witness :
    ((Attack (sampleSearchEnv 2) 20 5 (Searcher.create samplePosition)
        ⟨0, -kInfinity, kInfinity, 1, 0, 2 * 1, false⟩).2 ≠ Outcome.outOfFrames ∧
      ∀ r ∈ (Attack (sampleSearchEnv 2) 20 5 (Searcher.create samplePosition)
          ⟨0, -kInfinity, kInfinity, 1, 0, 2 * 1, false⟩).1.call_log,
        r ∈ (Searcher.create samplePosition).call_log ∨
          (0 ≤ r.level ∧ r.level ≤ 2 * 1 + 2 ∧ 0 ≤ r.depth ∧ r.depth ≤ 1 + 1)) ∧
    ((Defend (sampleSearchEnv 2) 20 5 (Searcher.create samplePosition)
        ⟨0, -kInfinity, kInfinity, 1, 0, 2 * 1⟩).2 ≠ Outcome.outOfFrames ∧
      ∀ r ∈ (Defend (sampleSearchEnv 2) 20 5 (Searcher.create samplePosition)
          ⟨0, -kInfinity, kInfinity, 1, 0, 2 * 1⟩).1.call_log,
        r ∈ (Searcher.create samplePosition).call_log ∨
          (0 ≤ r.level ∧ r.level ≤ 2 * 1 + 2 ∧ 0 ≤ r.depth ∧ r.depth ≤ 1 + 1)) ∧
    ((1 : Int) < 100 → (2 : Int) * 1 + 3 ≤ 300) :=
  C20_recursion_bounded_by_level_cap (sampleSearchEnv 2) 20 5 1 (by decide) (by decide)
    (Searcher.create samplePosition)

/-! ### The kinds set by a break -/

/-- Insertion into a list whose head has the least value keeps the least value
at the head. -/
theorem insertSorted_asc_head (x : CellEval) (l : List CellEval)
    (h : ∀ y ∈ l, (l.getD 0 default).value ≤ y.value) :
    ∀ y ∈ insertSorted CellEvalCompareAsc x l,
      ((insertSorted CellEvalCompareAsc x l).getD 0 default).value ≤ y.value := by
  cases l with
  | nil =>
    intro y hy
    simp only [insertSorted, List.mem_singleton] at hy
    rw [hy]
    simp [insertSorted]
  | cons z zs =>
    have hz : ∀ y ∈ z :: zs, z.value ≤ y.value := by simpa using h
    intro y hy
    unfold insertSorted at hy ⊢
    split at hy
    · rename_i hlt
      rw [if_pos hlt]
      simp only [List.getD_cons_zero]
      have hzx : z.value ≤ x.value := by
        unfold CellEvalCompareAsc at hlt
        split at hlt
        · exact le_of_lt (of_decide_eq_true hlt)
        · rename_i heq
          exact le_of_eq (not_not.mp heq)
      rcases List.mem_cons.mp hy with rfl | hy1
      · exact le_refl _
      · have := (insertSorted_perm CellEvalCompareAsc x zs).mem_iff.mp hy1
        rcases List.mem_cons.mp this with rfl | hy2
        · exact hzx
        · exact hz y (List.mem_cons_of_mem _ hy2)
    · rename_i hlt
      rw [if_neg hlt]
      simp only [List.getD_cons_zero]
      have hxz : x.value ≤ z.value := by
        unfold CellEvalCompareAsc at hlt
        split at hlt
        · have := of_decide_eq_false (eq_false_of_ne_true hlt)
          omega
        · rename_i heq
          exact le_of_eq (not_not.mp heq).symm
      rcases List.mem_cons.mp hy with rfl | hy1
      · exact le_refl _
      · exact le_trans hxz (hz y hy1)

/-- The head of a list sorted by `CellEvalCompareAsc` has the least value. -/
theorem sortBy_asc_head (l : List CellEval) :
    ∀ y ∈ sortBy CellEvalCompareAsc l,
      ((sortBy CellEvalCompareAsc l).getD 0 default).value ≤ y.value := by
  induction l with
  | nil => intro y hy; simp [sortBy] at hy
  | cons x xs ih => exact insertSorted_asc_head x _ ih

/-- Insertion into a list whose head has the greatest value keeps the greatest
value at the head. -/
theorem insertSorted_desc_head (x : CellEval) (l : List CellEval)
    (h : ∀ y ∈ l, y.value ≤ (l.getD 0 default).value) :
    ∀ y ∈ insertSorted CellEvalCompareDesc x l,
      y.value ≤ ((insertSorted CellEvalCompareDesc x l).getD 0 default).value := by
  cases l with
  | nil =>
    intro y hy
    simp only [insertSorted, List.mem_singleton] at hy
    rw [hy]
    simp [insertSorted]
  | cons z zs =>
    have hz : ∀ y ∈ z :: zs, y.value ≤ z.value := by simpa using h
    intro y hy
    unfold insertSorted at hy ⊢
    split at hy
    · rename_i hlt
      rw [if_pos hlt]
      simp only [List.getD_cons_zero]
      have hzx : x.value ≤ z.value := by
        unfold CellEvalCompareDesc at hlt
        split at hlt
        · exact le_of_lt (of_decide_eq_true hlt)
        · rename_i heq
          exact le_of_eq (not_not.mp heq).symm
      rcases List.mem_cons.mp hy with rfl | hy1
      · exact le_refl _
      · have := (insertSorted_perm CellEvalCompareDesc x zs).mem_iff.mp hy1
        rcases List.mem_cons.mp this with rfl | hy2
        · exact hzx
        · exact hz y (List.mem_cons_of_mem _ hy2)
    · rename_i hlt
      rw [if_neg hlt]
      simp only [List.getD_cons_zero]
      have hxz : z.value ≤ x.value := by
        unfold CellEvalCompareDesc at hlt
        split at hlt
        · have := of_decide_eq_false (eq_false_of_ne_true hlt)
          omega
        · rename_i heq
          exact le_of_eq (not_not.mp heq)
      rcases List.mem_cons.mp hy with rfl | hy1
      · exact le_refl _
      · exact le_trans (hz y hy1) hxz

/-- The head of a list sorted by `CellEvalCompareDesc` has the greatest value. -/
theorem sortBy_desc_head (l : List CellEval) :
    ∀ y ∈ sortBy CellEvalCompareDesc l,
      y.value ≤ ((sortBy CellEvalCompareDesc l).getD 0 default).value := by
  induction l with
  | nil => intro y hy; simp [sortBy] at hy
  | cons x xs ih => exact insertSorted_desc_head x _ ih

/-- The head of a vector after the sort of a prefix is the head of the sorted
prefix, and the entry of an index inside the prefix is a member of it. -/
theorem sortPrefix_head (lt : CellEval → CellEval → Bool) (k j : Nat) (l : List CellEval)
    (hj : j < l.length) (hjk : j < k) :
    (sortPrefix lt k l).getD 0 default = (sortBy lt (l.take k)).getD 0 default ∧
      l.getD j default ∈ sortBy lt (l.take k) ∧ (sortPrefix lt k l).isEmpty = false := by
  have hmem : l.getD j default ∈ l.take k := by
    rw [List.getD_eq_getElem?_getD, List.getElem?_eq_getElem hj]
    simp only [Option.getD_some]
    rw [List.mem_take_iff_getElem]
    exact ⟨j, by omega, rfl⟩
  have hmem2 : l.getD j default ∈ sortBy lt (l.take k) := (sortBy_perm lt _).mem_iff.mpr hmem
  have hne : sortBy lt (l.take k) ≠ [] := List.ne_nil_of_mem hmem2
  unfold sortPrefix
  refine ⟨?_, hmem2, ?_⟩
  · cases hs : sortBy lt (l.take k) with
    | nil => exact absurd hs hne
    | cons x xs => rfl
  · cases hs : sortBy lt (l.take k) with
    | nil => exact absurd hs hne
    | cons x xs => rfl

/-- A node found under `hash` after the store under `hash` is the stored one. -/
theorem findValue_storeValue (capacity : Nat) (tt : TranspositionTable) (hash : Hash)
    (entry e : EvalKindDepthMoves)
    (h : FindValue (StoreValue capacity tt hash entry) hash = some e) : e = entry := by
  have hmap : ∀ l : TranspositionTable, ∀ e1,
      FindValue (l.map (fun slot => if slot.1 = hash then (slot.1, entry) else slot)) hash
        = some e1 → e1 = entry := by
    intro l
    induction l with
    | nil => intro e1 h1; simp [FindValue] at h1
    | cons slot rest ih =>
      intro e1 h1
      simp only [List.map_cons] at h1
      unfold FindValue at h1
      by_cases hs : slot.1 = hash
      · rw [if_pos hs] at h1
        simp only [hs, if_true] at h1
        exact (Option.some.inj h1).symm
      · rw [if_neg hs] at h1
        simp only [hs, if_false] at h1
        exact ih e1 h1
  have happ : ∀ l : TranspositionTable, FindValue l hash = none →
      FindValue (l ++ [(hash, entry)]) hash = some entry := by
    intro l
    induction l with
    | nil => intro _; simp [FindValue]
    | cons slot rest ih =>
      intro h1
      unfold FindValue at h1
      simp only [List.cons_append]
      unfold FindValue
      split at h1
      · simp at h1
      · rename_i hs
        rw [if_neg hs]
        exact ih h1
  unfold StoreValue at h
  split at h
  · exact hmap tt e h
  · rename_i hnone
    have hn : FindValue tt hash = none := by
      cases hf : FindValue tt hash with
      | none => rfl
      | some x => rw [hf] at hnone; simp at hnone
    split at h
    · rw [happ tt hn] at h
      exact (Option.some.inj h).symm
    · rw [hn] at h
      simp at h

/-- A change of `position_` alone leaves every vector alone. -/
theorem getMoves_position (st : Searcher) (p : Position) (idx : Nat) :
    ({ st with position_ := p } : Searcher).getMoves idx = st.getMoves idx := rfl

/-- What one move of the attacker leaves in the vector: after a move that wins at
once the entry holds `kWon`; otherwise `value` is what the entry holds, unless
the entry is a pass skipped at a level other than `0`, which leaves `value` as it
was. -/
theorem attackMove_spec (env : SearchEnv) (defend : DefendCall) (hd : GoodCall defend)
    (a : AttackArgs) (idx i : Nat) (ce : CellEval) (value beta : Int) (st : Searcher)
    (moves : List CellEval) (hm : st.getMoves idx = some moves) (hi : i < moves.length) :
    ((attackMove env defend a idx i ce value beta st).2 = MoveResult.decided →
      ∃ m, (attackMove env defend a idx i ce value beta st).1.getMoves idx = some m ∧
        i < m.length ∧ (m.getD i default).value = kWon) ∧
    (∀ v, (attackMove env defend a idx i ce value beta st).2 = MoveResult.valued v →
      v = value ∨
      ∃ m, (attackMove env defend a idx i ce value beta st).1.getMoves idx = some m ∧
        i < m.length ∧ (m.getD i default).value = v) := by
  unfold attackMove
  split
  · split
    · have h := hd st ⟨attackerPassChild a.hash, a.alpha, beta, a.depth, a.level + 1,
        a.max_level⟩
      split
      · rename_i st1 v hcall
        rw [hcall] at h
        obtain ⟨m1, hm1, hlen1⟩ := h.lists idx moves hm
        obtain ⟨m2, hm2, hlen2, hv2⟩ := getMoves_writeValue st1 idx i v m1 hm1 (by omega)
        refine ⟨(by intro hc; cases hc), ?_⟩
        intro v1 hv1
        have : toInt16 v = v1 := MoveResult.valued.inj hv1
        exact Or.inr ⟨m2, hm2, by omega, by rw [hv2, this]⟩
      · exact ⟨(by intro hc; cases hc), by intro v1 hv1; cases hv1⟩
    · refine ⟨(by intro hc; cases hc), ?_⟩
      intro v1 hv1
      exact Or.inl (MoveResult.valued.inj hv1).symm
  · split
    · obtain ⟨m2, hm2, hlen2, hv2⟩ := getMoves_writeValue st idx i kWon moves hm hi
      refine ⟨fun _ => ⟨m2, hm2, by omega, by rw [hv2]; decide⟩, by intro v1 hv1; cases hv1⟩
    · have h := hd { st with position_ :=
            (st.position_.MakeMoveReversibly env.winning_condition env.attacker_ ce.cell).2 }
          ⟨env.ModifyZobristHash a.hash env.attacker_ (env.board.CellToMoveIndex ce.cell),
            a.alpha - kPotentialScale, beta - kPotentialScale, a.depth - 1, a.level + 1,
            a.max_level⟩
      split
      · rename_i st1 v hcall
        rw [hcall] at h
        obtain ⟨m1, hm1, hlen1⟩ := h.lists idx moves hm
        obtain ⟨m2, hm2, hlen2, hv2⟩ := getMoves_writeValue
          ({ st1 with position_ := st.position_ } : Searcher) idx i (v + kPotentialScale) m1 hm1
          (by omega)
        refine ⟨(by intro hc; cases hc), ?_⟩
        intro v1 hv1
        have : toInt16 (v + kPotentialScale) = v1 := MoveResult.valued.inj hv1
        exact Or.inr ⟨m2, hm2, by omega, by rw [hv2, this]⟩
      · exact ⟨(by intro hc; cases hc), by intro v1 hv1; cases hv1⟩

/-- When the move loop of `Attack` is left with kind `kAlpha`, the entry of the
index it is left at holds a value that is at most `alpha` or at most `kWon`,
unless `alpha` is `kDraw` or more. -/
theorem attackLoop_alpha (env : SearchEnv) (defend : DefendCall) (hd : GoodCall defend)
    (a : AttackArgs) (idx : Nat) (steps : Nat) (st : Searcher) (i : Nat) (value : Int)
    (kind : Kind) (beta : Int) (st' : Searcher) (j : Nat)
    (hval : value = kDraw ∨ ¬ (value ≤ a.alpha ∧ a.level > 0)) (hkind : kind ≠ Kind.kAlpha)
    (hres : AttackLoop env defend a idx steps st i value kind beta =
      (st', LoopResult.exit j Kind.kAlpha)) :
    kDraw ≤ a.alpha ∨ ∃ m, st'.getMoves idx = some m ∧ j < m.length ∧
      ((m.getD j default).value ≤ a.alpha ∨ (m.getD j default).value ≤ kWon) := by
  induction steps generalizing st i value kind beta with
  | zero => simp [AttackLoop] at hres
  | succ steps ih =>
    unfold AttackLoop at hres
    split at hres
    · simp at hres
    · rename_i moves hm
      split at hres
      · rename_i hi
        have hspec := attackMove_spec env defend hd a idx i (moves.getD i default) value beta st
          moves hm hi
        split at hres
        · simp at hres
        · rename_i st1 hmove
          rw [hmove] at hspec
          obtain ⟨m, hm1, hlt, hv⟩ := hspec.1 rfl
          have h1 : st1 = st' := (Prod.mk.inj hres).1
          have h2 : i = j := (LoopResult.exit.inj (Prod.mk.inj hres).2).1
          subst h1 h2
          exact Or.inr ⟨m, hm1, hlt, Or.inr (le_of_eq hv)⟩
        · rename_i st1 v hmove
          rw [hmove] at hspec
          split at hres
          · rename_i hcut
            have h1 : st1 = st' := (Prod.mk.inj hres).1
            have h2 : i = j := (LoopResult.exit.inj (Prod.mk.inj hres).2).1
            subst h1 h2
            rcases hspec.2 v rfl with hstale | ⟨m, hm1, hlt, hv⟩
            · rcases hval with hdraw | hno
              · left
                rw [← hdraw, ← hstale]
                exact hcut.1
              · rw [hstale] at hcut
                exact absurd hcut hno
            · exact Or.inr ⟨m, hm1, hlt, Or.inl (by rw [hv]; exact hcut.1)⟩
          · rename_i hcut
            split at hres
            · exact ih st1 (i + 1) v Kind.kExact v (Or.inr hcut) (by decide) hres
            · exact ih st1 (i + 1) v kind beta (Or.inr hcut) hkind hres
      · have h3 : kind = Kind.kAlpha := (LoopResult.exit.inj (Prod.mk.inj hres).2).2
        exact absurd h3 hkind

/-- What one move of the defender leaves in the vector: after a move that wins at
once the entry holds `kLost`; otherwise `value` is below `beta` or is what the
entry holds. -/
theorem defendMove_spec (env : SearchEnv) (attack : AttackCall) (ha : GoodCall attack)
    (d : DefendArgs) (idx i : Nat) (ce : CellEval) (alpha : Int) (st : Searcher)
    (moves : List CellEval) (hm : st.getMoves idx = some moves) (hi : i < moves.length) :
    ((defendMove env attack d idx i ce alpha st).2 = MoveResult.decided →
      ∃ m, (defendMove env attack d idx i ce alpha st).1.getMoves idx = some m ∧
        i < m.length ∧ (m.getD i default).value = kLost) ∧
    (∀ v, (defendMove env attack d idx i ce alpha st).2 = MoveResult.valued v →
      v < d.beta ∨
      ∃ m, (defendMove env attack d idx i ce alpha st).1.getMoves idx = some m ∧
        i < m.length ∧ (m.getD i default).value = v) := by
  unfold defendMove
  split
  · have h := ha st ⟨defenderPassChild d.hash, alpha - kPotentialScale,
      d.beta - kPotentialScale, d.depth, d.level + 1, d.max_level, true⟩
    split
    · rename_i st1 v hcall
      rw [hcall] at h
      split
      · rename_i hlt
        split
        · exact ⟨(by intro hc; cases hc), by intro v1 hv1; cases hv1⟩
        · refine ⟨(by intro hc; cases hc), ?_⟩
          intro v1 hv1
          have : toInt16 v = v1 := MoveResult.valued.inj hv1
          rw [← this]
          exact Or.inl hlt
      · obtain ⟨m1, hm1, hlen1⟩ := h.lists idx moves hm
        obtain ⟨m2, hm2, hlen2, hv2⟩ := getMoves_writeValue st1 idx i v m1 hm1 (by omega)
        refine ⟨(by intro hc; cases hc), ?_⟩
        intro v1 hv1
        have : toInt16 v = v1 := MoveResult.valued.inj hv1
        exact Or.inr ⟨m2, hm2, by omega, by rw [hv2, this]⟩
    · exact ⟨(by intro hc; cases hc), by intro v1 hv1; cases hv1⟩
  · split
    · obtain ⟨m2, hm2, hlen2, hv2⟩ := getMoves_writeValue st idx i kLost moves hm hi
      refine ⟨fun _ => ⟨m2, hm2, by omega, by rw [hv2]; decide⟩, by intro v1 hv1; cases hv1⟩
    · have h := ha { st with position_ :=
            (st.position_.MakeMoveReversibly env.winning_condition env.defender_ ce.cell).2 }
          ⟨env.ModifyZobristHash d.hash env.defender_ (env.board.CellToMoveIndex ce.cell),
            alpha + kPotentialScale, d.beta + kPotentialScale, d.depth + 1, d.level + 1,
            d.max_level, false⟩
      split
      · rename_i st1 v hcall
        rw [hcall] at h
        obtain ⟨m1, hm1, hlen1⟩ := h.lists idx moves hm
        obtain ⟨m2, hm2, hlen2, hv2⟩ := getMoves_writeValue
          ({ st1 with position_ := st.position_ } : Searcher) idx i (v - kPotentialScale) m1 hm1
          (by omega)
        refine ⟨(by intro hc; cases hc), ?_⟩
        intro v1 hv1
        have : toInt16 (v - kPotentialScale) = v1 := MoveResult.valued.inj hv1
        exact Or.inr ⟨m2, hm2, by omega, by rw [hv2, this]⟩
      · exact ⟨(by intro hc; cases hc), by intro v1 hv1; cases hv1⟩

/-- When the move loop of `Defend` is left with kind `kBeta`, the entry of the
index it is left at holds a value that is at least `beta` or at least `kLost`. -/
theorem defendLoop_beta (env : SearchEnv) (attack : AttackCall) (ha : GoodCall attack)
    (d : DefendArgs) (idx : Nat) (steps : Nat) (st : Searcher) (i : Nat)
    (kind : Kind) (alpha : Int) (st' : Searcher) (j : Nat) (hkind : kind ≠ Kind.kBeta)
    (hres : DefendLoop env attack d idx steps st i kind alpha =
      (st', LoopResult.exit j Kind.kBeta)) :
    ∃ m, st'.getMoves idx = some m ∧ j < m.length ∧
      ((m.getD j default).value ≥ d.beta ∨ (m.getD j default).value ≥ kLost) := by
  induction steps generalizing st i kind alpha with
  | zero => simp [DefendLoop] at hres
  | succ steps ih =>
    unfold DefendLoop at hres
    split at hres
    · simp at hres
    · rename_i moves hm
      split at hres
      · rename_i hi
        have hspec := defendMove_spec env attack ha d idx i (moves.getD i default) alpha st
          moves hm hi
        split at hres
        · simp at hres
        · rename_i st1 hmove
          rw [hmove] at hspec
          obtain ⟨m, hm1, hlt, hv⟩ := hspec.1 rfl
          have h1 : st1 = st' := (Prod.mk.inj hres).1
          have h2 : i = j := (LoopResult.exit.inj (Prod.mk.inj hres).2).1
          subst h1 h2
          exact ⟨m, hm1, hlt, Or.inr (ge_of_eq hv)⟩
        · rename_i st1 v hmove
          rw [hmove] at hspec
          split at hres
          · rename_i hcut
            have h1 : st1 = st' := (Prod.mk.inj hres).1
            have h2 : i = j := (LoopResult.exit.inj (Prod.mk.inj hres).2).1
            subst h1 h2
            rcases hspec.2 v rfl with hlow | ⟨m, hm1, hlt, hv⟩
            · have := hcut.1
              omega
            · exact ⟨m, hm1, hlt, Or.inl (by rw [hv]; exact hcut.1)⟩
          · split at hres
            · exact ih st1 (i + 1) Kind.kExact v (by decide) hres
            · exact ih st1 (i + 1) kind alpha hkind hres
      · have h3 : kind = Kind.kBeta := (LoopResult.exit.inj (Prod.mk.inj hres).2).2
        exact absurd h3 hkind

/-- A move of the attacker that stops the loop did not return a value. -/
theorem attackMove_stop (env : SearchEnv) (defend : DefendCall) (a : AttackArgs)
    (idx i : Nat) (ce : CellEval) (value beta : Int) (st : Searcher) (o : Outcome)
    (h : (attackMove env defend a idx i ce value beta st).2 = MoveResult.stop o) (v : Int) :
    o ≠ Outcome.value v := by
  unfold attackMove at h
  split at h
  · split at h
    · split at h
      · cases h
      · rename_i hne _
        have := MoveResult.stop.inj h
        rw [← this]
        exact fun hc => hne v hc
    · cases h
  · split at h
    · cases h
    · split at h
      · cases h
      · rename_i hne _
        have := MoveResult.stop.inj h
        rw [← this]
        exact fun hc => hne v hc

/-- The move loop of `Attack`, when stopped, did not return a value. -/
theorem attackLoop_stop (env : SearchEnv) (defend : DefendCall) (a : AttackArgs)
    (idx : Nat) (steps : Nat) (st : Searcher) (i : Nat) (value : Int) (kind : Kind)
    (beta : Int) (o : Outcome)
    (h : (AttackLoop env defend a idx steps st i value kind beta).2 = LoopResult.stop o)
    (v : Int) : o ≠ Outcome.value v := by
  induction steps generalizing st i value kind beta with
  | zero =>
    simp only [AttackLoop] at h
    rw [← LoopResult.stop.inj h]
    simp
  | succ steps ih =>
    unfold AttackLoop at h
    split at h
    · rw [← LoopResult.stop.inj h]
      simp
    · split at h
      · split at h
        · rename_i st1 o1 hmove
          rw [← LoopResult.stop.inj h]
          exact attackMove_stop env defend a idx i _ value beta st o1 (by rw [hmove]) v
        · cases h
        · split at h
          · cases h
          · split at h
            · exact ih _ _ _ _ _ h
            · exact ih _ _ _ _ _ h
      · cases h

/-- A move of the defender that stops the loop did not return a value. -/
theorem defendMove_stop (env : SearchEnv) (attack : AttackCall) (d : DefendArgs)
    (idx i : Nat) (ce : CellEval) (alpha : Int) (st : Searcher) (o : Outcome)
    (h : (defendMove env attack d idx i ce alpha st).2 = MoveResult.stop o) (v : Int) :
    o ≠ Outcome.value v := by
  unfold defendMove at h
  split at h
  · split at h
    · split at h
      · unfold appendInteresting at h
        split at h
        · rename_i hres
          have := MoveResult.stop.inj h
          rw [← this]
          revert hres
          split
          · intro hres; cases hres; simp
          · split
            · intro hres; cases hres; simp
            · split
              · split
                · intro hres; cases hres; simp
                · split
                  · intro hres; cases hres; simp
                  · intro hres; cases hres
              · intro hres; cases hres; simp
        · cases h
      · cases h
    · rename_i hne _
      have := MoveResult.stop.inj h
      rw [← this]
      exact fun hc => hne v hc
  · split at h
    · cases h
    · split at h
      · cases h
      · rename_i hne _
        have := MoveResult.stop.inj h
        rw [← this]
        exact fun hc => hne v hc

/-- The move loop of `Defend`, when stopped, did not return a value. -/
theorem defendLoop_stop (env : SearchEnv) (attack : AttackCall) (d : DefendArgs)
    (idx : Nat) (steps : Nat) (st : Searcher) (i : Nat) (kind : Kind)
    (alpha : Int) (o : Outcome)
    (h : (DefendLoop env attack d idx steps st i kind alpha).2 = LoopResult.stop o)
    (v : Int) : o ≠ Outcome.value v := by
  induction steps generalizing st i kind alpha with
  | zero =>
    simp only [DefendLoop] at h
    rw [← LoopResult.stop.inj h]
    simp
  | succ steps ih =>
    unfold DefendLoop at h
    split at h
    · rw [← LoopResult.stop.inj h]
      simp
    · split at h
      · split at h
        · rename_i st1 o1 hmove
          rw [← LoopResult.stop.inj h]
          exact defendMove_stop env attack d idx i _ alpha st o1 (by rw [hmove]) v
        · cases h
        · split at h
          · cases h
          · split at h
            · exact ih _ _ _ _ h
            · exact ih _ _ _ _ h
      · cases h

/-- A change of a vector leaves the table alone. -/
theorem tt_modifyMoves (st : Searcher) (idx : Nat) (f : List CellEval → List CellEval) :
    (st.modifyMoves idx f).tt_ = st.tt_ := by
  unfold Searcher.modifyMoves
  split <;> rfl

/-- When the head of a node returns a value, the node of the hash is in the
table and its kind and value allow the return. -/
theorem nodeEntry_hit (env : SearchEnv) (st : Searcher) (is_attack : Bool) (hash : Hash)
    (alpha beta depth level : Int) (st1 : Searcher) (v : Int)
    (h : nodeEntry env st is_attack hash alpha beta depth level =
      (st1, NodeEntry.leave (Outcome.value v))) :
    ∃ node, FindValue st1.tt_ hash = some node ∧
      (node.kind = Kind.kExact ∨ (node.kind = Kind.kAlpha ∧ node.value ≤ alpha) ∨
        (node.kind = Kind.kBeta ∧ node.value ≥ beta)) := by
  unfold nodeEntry at h
  simp only at h
  split at h
  · cases h
  · split at h
    · cases h
    · rename_i node hfind
      split at h
      · rename_i hcond
        have h1 := (Prod.mk.inj h).1
        rw [← h1]
        exact ⟨node, hfind, hcond.2⟩
      · split at h
        · cases h
        · cases h

/-- The node that the end of `Attack` or `Defend` leaves under the hash: it has
the kind of the loop, and when the loop was left inside the vector its value is
the value of the head of the sorted prefix, which holds the entry the loop was
left at. -/
theorem finishNode_entry (env : SearchEnv) (lt : CellEval → CellEval → Bool) (st : Searcher)
    (hash : Hash) (depth : Int) (idx i : Nat) (kind : Kind) (st' : Searcher) (v : Int)
    (e : EvalKindDepthMoves) (hinv : SearcherInv st)
    (hres : finishNode env lt st hash depth idx i kind = (st', Outcome.value v))
    (hfind : FindValue st'.tt_ hash = some e) :
    e.kind = kind ∧ ∀ m, st.getMoves idx = some m → i < m.length →
      e.value = ((sortBy lt (m.take (i + 1))).getD 0 default).value ∧
        m.getD i default ∈ sortBy lt (m.take (i + 1)) := by
  unfold finishNode at hres
  split at hres
  · cases hres
  · rename_i moves hm
    simp only at hres
    have h1 := (Prod.mk.inj hres).1
    rw [← h1] at hfind
    simp only [Searcher.storeNode, tt_modifyMoves] at hfind
    have he := findValue_storeValue _ _ _ _ _ hfind
    refine ⟨by rw [he], ?_⟩
    intro m hm2 hi
    have hmm : moves = m := Option.some.inj (hm.symm.trans hm2)
    subst hmm
    rw [if_pos hi] at he
    obtain ⟨hhead, hmem, hne⟩ := sortPrefix_head lt (i + 1) i moves hi (by omega)
    refine ⟨?_, hmem⟩
    rw [he]
    simp only
    rw [hne]
    simp only [Bool.false_eq_true, if_false]
    rw [hhead]
    apply toInt16_of_range
    have hin : (sortBy lt (moves.take (i + 1))).getD 0 default ∈ moves := by
      have hpos : 0 < (sortBy lt (moves.take (i + 1))).length :=
        List.length_pos_of_mem hmem
      have : (sortBy lt (moves.take (i + 1))).getD 0 default ∈
          sortBy lt (moves.take (i + 1)) := by
        rw [List.getD_eq_getElem?_getD, List.getElem?_eq_getElem hpos]
        exact List.getElem_mem hpos
      exact List.mem_of_mem_take ((sortBy_perm lt _).mem_iff.mp this)
    exact hinv.values moves (getMoves_some st idx moves hm).2 _ hin

/-- A node of kind `kAlpha` under the hash of a call of `Attack` that returned:
its value is at most `alpha`, or at most `kWon`, or `alpha` is `kDraw` or more. -/
theorem attackNode_alpha (env : SearchEnv) (steps : Nat) (defend : DefendCall)
    (hd : GoodCall defend) (st : Searcher) (a : AttackArgs) (hinv : SearcherInv st)
    (st' : Searcher) (v : Int) (e : EvalKindDepthMoves)
    (hres : AttackNode env steps defend st a = (st', Outcome.value v))
    (hfind : FindValue st'.tt_ a.hash = some e) (hk : e.kind = Kind.kAlpha) :
    e.value ≤ a.alpha ∨ e.value ≤ kWon ∨ kDraw ≤ a.alpha := by
  have hentry := grows_nodeEntry env st true a.hash a.alpha a.beta a.depth a.level
  unfold AttackNode at hres
  split at hres
  · rename_i st1 o hne
    have h1 := (Prod.mk.inj hres).1
    have h2 := (Prod.mk.inj hres).2
    subst h1 h2
    obtain ⟨node, hnode, hcond⟩ := nodeEntry_hit env st true a.hash a.alpha a.beta a.depth
      a.level st1 v hne
    have : node = e := Option.some.inj (hnode.symm.trans hfind)
    subst this
    rcases hcond with h | h | h
    · rw [h] at hk; cases hk
    · exact Or.inl h.2
    · rw [h.1] at hk; cases hk
  · rename_i st1 found hne
    rw [hne] at hentry
    simp only at hres
    have hexp : Grows st1
        (if found = 0 then ExpandMoves env st1 env.attacker_ a.level else (found, st1)).2 := by
      split
      · exact grows_ExpandMoves env st1 env.attacker_ a.level
      · exact Grows.refl st1
    generalize (if found = 0 then ExpandMoves env st1 env.attacker_ a.level
      else (found, st1)) = expanded at hexp hres
    have h2 := hentry.trans hexp
    split at hres
    · cases hres
    · split at hres
      · split at hres
        · cases hres
        · have h1 := (Prod.mk.inj hres).1
          rw [← h1] at hfind
          simp only [Searcher.storeNode] at hfind
          have he := findValue_storeValue _ _ _ _ _ hfind
          rw [he] at hk
          cases hk
      · have hloop := grows_AttackLoop env defend hd a expanded.1 steps expanded.2 0 kDraw
          Kind.kBeta a.beta
        split at hres
        · rename_i st3 o hres3
          have h4 := (Prod.mk.inj hres).2
          exact absurd h4 (attackLoop_stop env defend a expanded.1 steps expanded.2 0 kDraw
            Kind.kBeta a.beta o (by rw [hres3]) v)
        · rename_i st3 i kind hres3
          rw [hres3] at hloop
          have hinv3 : SearcherInv st3 := (h2.trans hloop).inv hinv
          obtain ⟨hkind, hval⟩ := finishNode_entry env CellEvalCompareAsc st3 a.hash a.depth
            expanded.1 i kind st' v e hinv3 hres hfind
          rw [hk] at hkind
          rw [← hkind] at hres3
          rcases attackLoop_alpha env defend hd a expanded.1 steps expanded.2 0 kDraw Kind.kBeta
            a.beta st3 i (Or.inl rfl) (by decide) hres3 with h | ⟨m, hm, hi, hb⟩
          · exact Or.inr (Or.inr h)
          · obtain ⟨hev, hmem⟩ := hval m hm hi
            have hle := sortBy_asc_head (m.take (i + 1)) _ hmem
            rw [← hev] at hle
            rcases hb with hb | hb
            · exact Or.inl (le_trans hle hb)
            · exact Or.inr (Or.inl (le_trans hle hb))

/-- A node of kind `kBeta` under the hash of a call of `Defend` that returned:
its value is at least `beta` or at least `kLost`. -/
theorem defendNode_beta (env : SearchEnv) (steps : Nat) (attack : AttackCall)
    (ha : GoodCall attack) (st : Searcher) (d : DefendArgs) (hinv : SearcherInv st)
    (st' : Searcher) (v : Int) (e : EvalKindDepthMoves)
    (hres : DefendNode env steps attack st d = (st', Outcome.value v))
    (hfind : FindValue st'.tt_ d.hash = some e) (hk : e.kind = Kind.kBeta) :
    e.value ≥ d.beta ∨ e.value ≥ kLost := by
  have hentry := grows_nodeEntry env st false d.hash d.alpha d.beta d.depth d.level
  unfold DefendNode at hres
  split at hres
  · rename_i st1 o hne
    have h1 := (Prod.mk.inj hres).1
    have h2 := (Prod.mk.inj hres).2
    subst h1 h2
    obtain ⟨node, hnode, hcond⟩ := nodeEntry_hit env st false d.hash d.alpha d.beta d.depth
      d.level st1 v hne
    have : node = e := Option.some.inj (hnode.symm.trans hfind)
    subst this
    rcases hcond with h | h | h
    · rw [h] at hk; cases hk
    · rw [h.1] at hk; cases hk
    · exact Or.inl h.2
  · rename_i st1 found hne
    rw [hne] at hentry
    simp only at hres
    have hexp : Grows st1
        (if found = 0 then st1.pushMoves [CellEval.make kZerothCell d.alpha]
          else (found, st1)).2 := by
      split
      · apply grows_pushMoves
        intro ce hce
        have : ce = CellEval.make kZerothCell d.alpha := by simpa using hce
        rw [this]
        exact toInt16_range _
      · exact Grows.refl st1
    generalize (if found = 0 then st1.pushMoves [CellEval.make kZerothCell d.alpha]
      else (found, st1)) = expanded at hexp hres
    have h2 := hentry.trans hexp
    have hloop := grows_DefendLoop env attack ha d expanded.1 steps expanded.2 0 Kind.kAlpha
      d.alpha
    split at hres
    · rename_i st3 o hres3
      have h4 := (Prod.mk.inj hres).2
      exact absurd h4 (defendLoop_stop env attack d expanded.1 steps expanded.2 0
        Kind.kAlpha d.alpha o (by rw [hres3]) v)
    · rename_i st3 i kind hres3
      rw [hres3] at hloop
      have hinv3 : SearcherInv st3 := (h2.trans hloop).inv hinv
      obtain ⟨hkind, hval⟩ := finishNode_entry env CellEvalCompareDesc st3 d.hash d.depth
        expanded.1 i kind st' v e hinv3 hres hfind
      rw [hk] at hkind
      rw [← hkind] at hres3
      obtain ⟨m, hm, hi, hb⟩ := defendLoop_beta env attack ha d expanded.1 steps expanded.2 0
        Kind.kAlpha d.alpha st3 i (by decide) hres3
      obtain ⟨hev, hmem⟩ := hval m hm hi
      have hle := sortBy_desc_head (m.take (i + 1)) _ hmem
      rw [← hev] at hle
      rcases hb with hb | hb
      · exact Or.inl (le_trans hb hle)
      · exact Or.inr (le_trans hb hle)

/-- C16, refuted as stated: on the sample board with a white and a black stone,
`Defend(7, -20100, 19900, 0, 1, 2)` meets a move of the defender that wins at
once and leaves under its hash a node of kind `kBeta` with value `kLost = 10000`,
below its `beta = 19900`; and the root call `Attack(0, -kInfinity, +kInfinity, 1,
0, 2, false)` leaves under hash `0` a node that kept the initial kind `kBeta` with
value `10100`, below its `beta = kInfinity`. -/
theorem C16_beta_entry_below_beta :
    (FindValue (Defend (sampleSearchEnv 2) 20 10
        (Searcher.create { moves := [(Player.kWhite, 2), (Player.kBlack, 1)] })
        ⟨7, -20100, 19900, 0, 1, 2⟩).1.tt_ 7
      = some { value := kLost, kind := Kind.kBeta, depth := 0, moves_index := 1 } ∧
      ¬ (kLost ≥ 19900)) ∧
    (FindValue (Attack (sampleSearchEnv 2) 20 10 (Searcher.create samplePosition)
        ⟨0, -kInfinity, kInfinity, 1, 0, 2, false⟩).1.tt_ 0
      = some { value := 10100, kind := Kind.kBeta, depth := 1, moves_index := 1 } ∧
      ¬ ((10100 : Int) ≥ kInfinity)) := by
  decide

/-- C16, amended: only the kinds set by a `break` bound the value.  From a
reachable state, when a call of `Attack` returns a value, a node of kind `kAlpha` under
its hash has a value that is at most `alpha`, or at most `kWon` (the break after
a move that wins at once), unless `alpha` is `kDraw` or more (the break at a
skipped pass entry); when a call of `Defend` returns a value, a node of kind `kBeta`
under its hash has a value that is at least `beta`, or at least `kLost` (the
break after a move that wins at once). -/
theorem C16_break_kinds_bound_the_value (env : SearchEnv) (steps frames : Nat)
    (st : Searcher) (hst : Reachable env st) :
    (∀ (a : AttackArgs) (v : Int) (e : EvalKindDepthMoves),
      (Attack env steps frames st a).2 = Outcome.value v →
      FindValue (Attack env steps frames st a).1.tt_ a.hash = some e →
      e.kind = Kind.kAlpha →
      e.value ≤ a.alpha ∨ e.value ≤ kWon ∨ kDraw ≤ a.alpha) ∧
    (∀ (d : DefendArgs) (v : Int) (e : EvalKindDepthMoves),
      (Defend env steps frames st d).2 = Outcome.value v →
      FindValue (Defend env steps frames st d).1.tt_ d.hash = some e →
      e.kind = Kind.kBeta →
      e.value ≥ d.beta ∨ e.value ≥ kLost) := by
  have hinv := inv_of_reachable env st hst
  cases frames with
  | zero =>
    constructor
    · intro a v e hres
      simp [Attack, SearchCalls] at hres
    · intro d v e hres
      simp [Defend, SearchCalls] at hres
  | succ n =>
    constructor
    · intro a v e hres hfind hk
      exact attackNode_alpha env steps _ (good_SearchCalls env steps n).2 st a hinv _ v e
        (Prod.ext rfl hres) hfind hk
    · intro d v e hres hfind hk
      exact defendNode_beta env steps _ (good_SearchCalls env steps n).1 st d hinv _ v e
        (Prod.ext rfl hres) hfind hk

/-- C16 amended, at the node of kind `kBeta` that `Defend(7, -20100, 9000, 0, 1,
2)` leaves on the sample board with a white and a black stone. -/
theorem C16_break_kinds_bound_the_value_witness :
    kLost ≥ 9000 ∨ kLost ≥ kLost :=
  (C16_break_kinds_bound_the_value (sampleSearchEnv 2) 20 10
    (Searcher.create { moves := [(Player.kWhite, 2), (Player.kBlack, 1)] })
    (Reachable.create _)).2 ⟨7, -20100, 9000, 0, 1, 2⟩
    kLost { value := kLost, kind := Kind.kBeta, depth := 0, moves_index := 1 }
    (by decide) (by decide) rfl

/-! ### Sorted vectors -/

/-- Source text: `CellEvalCompareAsc` never orders two entries both ways. -/
theorem asc_asymm (a b : CellEval) (h : CellEvalCompareAsc a b = true) :
    CellEvalCompareAsc b a = false := by
  unfold CellEvalCompareAsc at h ⊢
  unfold Cell at *
  split at h
  · rename_i hne
    have h1 := of_decide_eq_true h
    rw [if_pos (fun hc => hne hc.symm)]
    exact decide_eq_false (by omega)
  · rename_i heq
    have h1 := of_decide_eq_true h
    have heq1 : a.value = b.value := not_not.mp heq
    rw [if_neg (fun hc => hc heq1.symm)]
    exact decide_eq_false (by omega)

/-- When `CellEvalCompareAsc` does not put `a` before `b`. -/
theorem asc_false_iff (a b : CellEval) :
    CellEvalCompareAsc a b = false ↔
      (b.value < a.value ∨ (a.value = b.value ∧ a.cell ≤ b.cell)) := by
  unfold CellEvalCompareAsc
  unfold Cell at *
  split
  · rename_i hne
    rw [decide_eq_false_iff_not]
    constructor
    · intro h; left; omega
    · intro h; omega
  · rename_i heq
    have heq1 : a.value = b.value := not_not.mp heq
    rw [decide_eq_false_iff_not]
    constructor
    · intro h; right; exact ⟨heq1, by omega⟩
    · intro h; omega

/-- With `CellEvalCompareAsc`, "not before" is transitive. -/
theorem asc_negtrans (a b c : CellEval) (h1 : CellEvalCompareAsc a b = false)
    (h2 : CellEvalCompareAsc b c = false) : CellEvalCompareAsc a c = false := by
  rw [asc_false_iff] at h1 h2 ⊢
  unfold Cell at *
  omega

/-- Source text: `CellEvalCompareDesc` never orders two entries both ways. -/
theorem desc_asymm (a b : CellEval) (h : CellEvalCompareDesc a b = true) :
    CellEvalCompareDesc b a = false := by
  unfold CellEvalCompareDesc at h ⊢
  unfold Cell at *
  split at h
  · rename_i hne
    have h1 := of_decide_eq_true h
    rw [if_pos (fun hc => hne hc.symm)]
    exact decide_eq_false (by omega)
  · rename_i heq
    have h1 := of_decide_eq_true h
    have heq1 : a.value = b.value := not_not.mp heq
    rw [if_neg (fun hc => hc heq1.symm)]
    exact decide_eq_false (by omega)

/-- When `CellEvalCompareDesc` does not put `a` before `b`. -/
theorem desc_false_iff (a b : CellEval) :
    CellEvalCompareDesc a b = false ↔
      (a.value < b.value ∨ (a.value = b.value ∧ b.cell ≤ a.cell)) := by
  unfold CellEvalCompareDesc
  unfold Cell at *
  split
  · rename_i hne
    rw [decide_eq_false_iff_not]
    constructor
    · intro h; left; omega
    · intro h; omega
  · rename_i heq
    have heq1 : a.value = b.value := not_not.mp heq
    rw [decide_eq_false_iff_not]
    constructor
    · intro h; right; exact ⟨heq1, by omega⟩
    · intro h; omega

/-- With `CellEvalCompareDesc`, "not before" is transitive. -/
theorem desc_negtrans (a b c : CellEval) (h1 : CellEvalCompareDesc a b = false)
    (h2 : CellEvalCompareDesc b c = false) : CellEvalCompareDesc a c = false := by
  rw [desc_false_iff] at h1 h2 ⊢
  unfold Cell at *
  omega

/-- Insertion into a sorted list gives a sorted list, for an order that never
orders two elements both ways and whose "not before" is transitive. -/
theorem insertSorted_sorted {α : Type} (lt : α → α → Bool)
    (hasymm : ∀ a b, lt a b = true → lt b a = false)
    (hneg : ∀ a b c, lt a b = false → lt b c = false → lt a c = false)
    (x : α) (l : List α) (h : l.Pairwise (fun a b => lt b a = false)) :
    (insertSorted lt x l).Pairwise (fun a b => lt b a = false) := by
  induction l with
  | nil => simp [insertSorted]
  | cons y ys ih =>
    rw [List.pairwise_cons] at h
    unfold insertSorted
    split
    · rename_i hlt
      rw [List.pairwise_cons]
      refine ⟨?_, ih h.2⟩
      intro z hz
      rcases List.mem_cons.mp ((insertSorted_perm lt x ys).mem_iff.mp hz) with rfl | hz1
      · exact hasymm _ _ hlt
      · exact h.1 z hz1
    · rename_i hlt
      have hyx : lt y x = false := by simpa using hlt
      rw [List.pairwise_cons, List.pairwise_cons]
      refine ⟨?_, h.1, h.2⟩
      intro z hz
      rcases List.mem_cons.mp hz with rfl | hz1
      · exact hyx
      · exact hneg z y x (h.1 z hz1) hyx

/-- The result of `sortBy` is sorted, for such an order. -/
theorem sortBy_sorted {α : Type} (lt : α → α → Bool)
    (hasymm : ∀ a b, lt a b = true → lt b a = false)
    (hneg : ∀ a b c, lt a b = false → lt b c = false → lt a c = false)
    (l : List α) : (sortBy lt l).Pairwise (fun a b => lt b a = false) := by
  induction l with
  | nil => simp [sortBy]
  | cons x xs ih => exact insertSorted_sorted lt hasymm hneg x _ ih

/-- In a vector sorted by `CellEvalCompareAsc` the values ascend. -/
theorem asc_sorted_values (l : List CellEval)
    (h : l.Pairwise (fun a b => CellEvalCompareAsc b a = false)) :
    l.Pairwise (fun a b => a.value ≤ b.value) := by
  refine h.imp ?_
  intro a b hab
  unfold CellEvalCompareAsc at hab
  split at hab
  · have := of_decide_eq_false hab
    omega
  · rename_i heq
    exact le_of_eq (not_not.mp heq).symm

/-! ### The horizon branch of `Attack` -/

/-- The binary search of `std::upper_bound` on a range that the predicate
`lt val` splits into a part where it fails and a part where it holds: the result
is the index where the second part starts. -/
theorem upperBoundLoop_spec (lt : CellEval → CellEval → Bool) (val : CellEval)
    (moves : List CellEval)
    (hmono : ∀ i j, i ≤ j → j < moves.length → lt val (moves.getD i val) = true →
      lt val (moves.getD j val) = true)
    (fuel first len : Nat) (hfuel : len ≤ fuel) (hlen : first + len ≤ moves.length)
    (hlow : ∀ i, i < first → lt val (moves.getD i val) = false)
    (hhigh : ∀ i, first + len ≤ i → i < moves.length → lt val (moves.getD i val) = true) :
    upperBoundLoop lt val moves fuel first len ≤ moves.length ∧
    (∀ i, i < upperBoundLoop lt val moves fuel first len → lt val (moves.getD i val) = false) ∧
    (∀ i, upperBoundLoop lt val moves fuel first len ≤ i → i < moves.length →
      lt val (moves.getD i val) = true) := by
  induction fuel generalizing first len with
  | zero =>
    have h0 : len = 0 := by omega
    subst h0
    unfold upperBoundLoop
    exact ⟨by omega, hlow, fun i hi hlt => hhigh i (by omega) hlt⟩
  | succ fuel ih =>
    unfold upperBoundLoop
    split
    · rename_i h0
      subst h0
      exact ⟨by omega, hlow, fun i hi hlt => hhigh i (by omega) hlt⟩
    · rename_i hne
      simp only
      have hhalf : len / 2 < len := Nat.div_lt_self (by omega) (by decide)
      split
      · rename_i hmid
        apply ih first (len / 2) (by omega) (by omega) hlow
        intro i hi hlt
        exact hmono (first + len / 2) i hi hlt hmid
      · rename_i hmid
        have hmid1 : lt val (moves.getD (first + len / 2) val) = false := by simpa using hmid
        apply ih (first + len / 2 + 1) (len - len / 2 - 1) (by omega) (by omega)
        · intro i hi
          by_contra hc
          have hc1 : lt val (moves.getD i val) = true := by simpa using hc
          have := hmono i (first + len / 2) (by omega) (by omega) hc1
          rw [this] at hmid1
          cases hmid1
        · intro i hi hlt
          exact hhigh i (by omega) hlt

/-- A list that a predicate on indices splits at `r` has `r` entries that fail
the predicate. -/
theorem countP_of_split (p : CellEval → Bool) (d : CellEval) (moves : List CellEval) (r : Nat)
    (hr : r ≤ moves.length)
    (hlow : ∀ i, i < r → p (moves.getD i d) = false)
    (hhigh : ∀ i, r ≤ i → i < moves.length → p (moves.getD i d) = true) :
    moves.countP (fun ce => !p ce) = r := by
  induction moves generalizing r with
  | nil =>
    simp at hr
    simp [hr]
  | cons x xs ih =>
    cases r with
    | zero =>
      rw [List.countP_eq_zero]
      intro ce hce
      obtain ⟨i, hi, heq⟩ := List.getElem_of_mem hce
      have := hhigh i (by omega) hi
      rw [List.getD_eq_getElem?_getD, List.getElem?_eq_getElem hi, heq] at this
      simpa using this
    | succ r =>
      have hx : p x = false := by
        have := hlow 0 (by omega)
        simpa using this
      rw [List.countP_cons_of_pos _ _ (by simp [hx])]
      congr 1
      apply ih r (by simpa using hr)
      · intro i hi
        have := hlow (i + 1) (by omega)
        simpa using this
      · intro i hi hlt
        have := hhigh (i + 1) (by omega) (by simpa using hlt)
        simpa using this

/-- In a vector with cells not below `kZerothCell`, the entries after the probe
`CellEval(kZerothCell, v)` in the order `CellEvalCompareAsc` are those with a
value above `v`. -/
theorem asc_probe (v : Int) (hv : InInt16 v) (ce : CellEval) (hcell : ce.cell ≥ kZerothCell) :
    CellEvalCompareAsc (CellEval.make kZerothCell v) ce = decide (v < ce.value) := by
  unfold CellEvalCompareAsc CellEval.make
  simp only [toInt16_of_range v hv]
  unfold kZerothCell at *
  unfold Cell at *
  split
  · rfl
  · rename_i heq
    have heq1 : v = ce.value := not_not.mp heq
    rw [decide_eq_false (by omega), decide_eq_false (by omega)]

/-- The mobility of the horizon branch: in a vector sorted by
`CellEvalCompareAsc` with cells not below `kZerothCell`, `upper_bound` for the
probe with the value of `moves[k]` is the number of entries with a value not
above it, and more than `k`. -/
theorem upper_bound_count (moves : List CellEval) (k : Nat) (hk : k < moves.length)
    (hsorted : moves.Pairwise (fun x y => CellEvalCompareAsc y x = false))
    (hcells : ∀ ce ∈ moves, ce.cell ≥ kZerothCell)
    (hfit : InInt16 (moves.getD k default).value) :
    upper_bound moves (CellEval.make kZerothCell (moves.getD k default).value)
      = moves.countP (fun ce => decide (ce.value ≤ (moves.getD k default).value)) ∧
    k + 1 ≤ upper_bound moves (CellEval.make kZerothCell (moves.getD k default).value) := by
  generalize hv : (moves.getD k default).value = v at hfit ⊢
  have hget : ∀ i (hi : i < moves.length) (d : CellEval),
      moves.getD i d = moves.get ⟨i, hi⟩ := by
    intro i hi d
    rw [List.getD_eq_getElem?_getD, List.getElem?_eq_getElem hi]
    rfl
  have hprobe : ∀ i, i < moves.length →
      CellEvalCompareAsc (CellEval.make kZerothCell v)
        (moves.getD i (CellEval.make kZerothCell v)) = decide (v < (moves.getD i default).value) := by
    intro i hi
    rw [hget i hi, hget i hi]
    exact asc_probe v hfit _ (hcells _ (List.get_mem _ _ _))
  have hvals := asc_sorted_values moves hsorted
  have hasc : ∀ i j, i ≤ j → j < moves.length →
      (moves.getD i default).value ≤ (moves.getD j default).value := by
    intro i j hij hj
    rw [hget i (by omega), hget j hj]
    rcases Nat.lt_or_eq_of_le hij with hlt | heq
    · exact List.pairwise_iff_get.mp hvals ⟨i, by omega⟩ ⟨j, hj⟩ hlt
    · subst heq
      exact le_refl _
  have hmono : ∀ i j, i ≤ j → j < moves.length →
      CellEvalCompareAsc (CellEval.make kZerothCell v)
        (moves.getD i (CellEval.make kZerothCell v)) = true →
      CellEvalCompareAsc (CellEval.make kZerothCell v)
        (moves.getD j (CellEval.make kZerothCell v)) = true := by
    intro i j hij hj hi
    rw [hprobe i (by omega)] at hi
    rw [hprobe j hj]
    have h1 := of_decide_eq_true hi
    have h2 := hasc i j hij hj
    exact decide_eq_true (by omega)
  obtain ⟨hle, hlow, hhigh⟩ := upperBoundLoop_spec CellEvalCompareAsc
    (CellEval.make kZerothCell v) moves hmono moves.length 0 moves.length (le_refl _)
    (by omega) (fun i hi => by omega) (fun i hi hlt => by omega)
  have hcount := countP_of_split (CellEvalCompareAsc (CellEval.make kZerothCell v))
    (CellEval.make kZerothCell v) moves _ hle hlow hhigh
  have hfun : moves.countP (fun ce => !CellEvalCompareAsc (CellEval.make kZerothCell v) ce)
      = moves.countP (fun ce => decide (ce.value ≤ v)) := by
    apply List.countP_congr
    intro ce hce
    rw [asc_probe v hfit ce (hcells ce hce)]
    simp
  unfold upper_bound
  constructor
  · rw [← hfun, hcount]
  · by_contra hc
    have := hhigh k (by omega) hk
    rw [hprobe k hk, hv] at this
    simp at this

/-- What `Attack` does at a horizon node that is not answered from the table:
it stores and returns the horizon value of the vector. -/
theorem attackNode_horizon (env : SearchEnv) (steps : Nat) (defend : DefendCall)
    (st : Searcher) (a : AttackArgs) (found : Nat) (moves : List CellEval) (value : Int)
    (hentry : (nodeEntry env st true a.hash a.alpha a.beta a.depth a.level).2
      = NodeEntry.proceed found)
    (hmoves : (if found = 0 then
          ExpandMoves env (nodeEntry env st true a.hash a.alpha a.beta a.depth a.level).1
            env.attacker_ a.level
        else (found, (nodeEntry env st true a.hash a.alpha a.beta a.depth a.level).1)).2.getMoves
      (if found = 0 then
          ExpandMoves env (nodeEntry env st true a.hash a.alpha a.beta a.depth a.level).1
            env.attacker_ a.level
        else (found, (nodeEntry env st true a.hash a.alpha a.beta a.depth a.level).1)).1
      = some moves)
    (hhor : a.depth = 0 ∨ a.level > a.max_level)
    (hval : horizonValue moves a.last_move_was_defender_pass = some value) :
    (AttackNode env steps defend st a).2 = Outcome.value value ∧
      ∀ e, FindValue (AttackNode env steps defend st a).1.tt_ a.hash = some e →
        e.kind = Kind.kExact := by
  have hpair : nodeEntry env st true a.hash a.alpha a.beta a.depth a.level
      = ((nodeEntry env st true a.hash a.alpha a.beta a.depth a.level).1,
          NodeEntry.proceed found) := Prod.ext rfl hentry
  generalize (nodeEntry env st true a.hash a.alpha a.beta a.depth a.level).1 = st1
    at hpair hmoves
  unfold AttackNode
  simp only [hpair]
  generalize (if found = 0 then ExpandMoves env st1 env.attacker_ a.level
    else (found, st1)) = expanded at hmoves
  simp only [hmoves, hhor, if_true, hval]
  refine ⟨trivial, ?_⟩
  intro e he
  simp only [Searcher.storeNode] at he
  rw [findValue_storeValue _ _ _ _ _ he]

/-- C21: at a horizon node of `Attack` (`depth == 0` or `level > max_level`) that
is not answered from the table, whose vector is sorted by `CellEvalCompareAsc`,
holds only cells `>= kZerothCell` and values of the 16-bit field, with `k = 1`
after a defender pass and `k = 0` otherwise: if the vector has more than `k`
entries, `mobility` is exactly the number of entries with a value
`<= moves[k].value`, it is at least `k + 1`, so `assert(mobility >= 1)` holds,
and the returned value is `moves[k].value - mobility`; if the vector has at most
`k` entries the returned value is `kDraw`; in both cases a node found under the
hash afterwards has kind `kExact`. -/
theorem C21_horizon_value_and_mobility (env : SearchEnv) (steps : Nat) (defend : DefendCall)
    (st : Searcher) (a : AttackArgs) (found k : Nat) (moves : List CellEval)
    (hentry : (nodeEntry env st true a.hash a.alpha a.beta a.depth a.level).2
      = NodeEntry.proceed found)
    (hmoves : (if found = 0 then
          ExpandMoves env (nodeEntry env st true a.hash a.alpha a.beta a.depth a.level).1
            env.attacker_ a.level
        else (found, (nodeEntry env st true a.hash a.alpha a.beta a.depth a.level).1)).2.getMoves
      (if found = 0 then
          ExpandMoves env (nodeEntry env st true a.hash a.alpha a.beta a.depth a.level).1
            env.attacker_ a.level
        else (found, (nodeEntry env st true a.hash a.alpha a.beta a.depth a.level).1)).1
      = some moves)
    (hhor : a.depth = 0 ∨ a.level > a.max_level)
    (hk : k = if a.last_move_was_defender_pass then 1 else 0)
    (hsorted : moves.Pairwise (fun x y => CellEvalCompareAsc y x = false))
    (hcells : ∀ ce ∈ moves, ce.cell ≥ kZerothCell)
    (hfit : ∀ ce ∈ moves, -32768 ≤ ce.value ∧ ce.value ≤ 32767) :
    (moves.length > k →
      upper_bound moves (CellEval.make kZerothCell (moves.getD k default).value)
        = moves.countP (fun ce => decide (ce.value ≤ (moves.getD k default).value)) ∧
      k + 1 ≤ moves.countP (fun ce => decide (ce.value ≤ (moves.getD k default).value)) ∧
      horizonValue moves a.last_move_was_defender_pass
        = some ((moves.getD k default).value
            - (moves.countP (fun ce => decide (ce.value ≤ (moves.getD k default).value)) : Int)) ∧
      (AttackNode env steps defend st a).2
        = Outcome.value ((moves.getD k default).value
            - (moves.countP (fun ce => decide (ce.value ≤ (moves.getD k default).value)) : Int))) ∧
    (moves.length ≤ k → (AttackNode env steps defend st a).2 = Outcome.value kDraw) ∧
    (∀ e, FindValue (AttackNode env steps defend st a).1.tt_ a.hash = some e →
      e.kind = Kind.kExact) := by
  have hhv : moves.length > k →
      upper_bound moves (CellEval.make kZerothCell (moves.getD k default).value)
        = moves.countP (fun ce => decide (ce.value ≤ (moves.getD k default).value)) ∧
      k + 1 ≤ moves.countP (fun ce => decide (ce.value ≤ (moves.getD k default).value)) ∧
      horizonValue moves a.last_move_was_defender_pass
        = some ((moves.getD k default).value
            - (moves.countP (fun ce => decide (ce.value ≤ (moves.getD k default).value)) : Int))
      := by
    intro hlen
    have hkfit : InInt16 (moves.getD k default).value := by
      have hmem : moves.getD k default ∈ moves := by
        rw [List.getD_eq_getElem?_getD, List.getElem?_eq_getElem hlen]
        exact List.getElem_mem hlen
      exact hfit _ hmem
    obtain ⟨hcount, hge⟩ := upper_bound_count moves k hlen hsorted hcells hkfit
    refine ⟨hcount, by rw [← hcount]; exact hge, ?_⟩
    unfold horizonValue
    simp only [← hk]
    rw [if_pos hlen, if_pos (by omega), hcount]
  have hdraw : moves.length ≤ k → horizonValue moves a.last_move_was_defender_pass
      = some kDraw := by
    intro hlen
    unfold horizonValue
    simp only [← hk]
    rw [if_neg (by omega)]
  refine ⟨?_, ?_, ?_⟩
  · intro hlen
    obtain ⟨h1, h2, h3⟩ := hhv hlen
    exact ⟨h1, h2, h3, (attackNode_horizon env steps defend st a found moves _ hentry hmoves
      hhor h3).1⟩
  · intro hlen
    exact (attackNode_horizon env steps defend st a found moves _ hentry hmoves hhor
      (hdraw hlen)).1
  · by_cases hlen : moves.length > k
    · exact (attackNode_horizon env steps defend st a found moves _ hentry hmoves hhor
        (hhv hlen).2.2).2
    · exact (attackNode_horizon env steps defend st a found moves _ hentry hmoves hhor
        (hdraw (by omega))).2

/-- C21 at the root call `Attack(0, -kInfinity, +kInfinity, 0, 0, 0, false)` on
the sample board: the vector is `[(3, 500), (2, 500), (pass, 500)]`, the mobility
is `3` and the returned value `497`. -/
theorem C21_horizon_value_and_mobility_witness :
    (AttackNode (sampleSearchEnv 2) 20 (fun st _ => (st, Outcome.fault))
        (Searcher.create samplePosition) ⟨0, -kInfinity, kInfinity, 0, 0, 0, false⟩).2
      = Outcome.value (500 - ((3 : Nat) : Int)) :=
  ((C21_horizon_value_and_mobility (sampleSearchEnv 2) 20 (fun st _ => (st, Outcome.fault))
    (Searcher.create samplePosition) ⟨0, -kInfinity, kInfinity, 0, 0, 0, false⟩ 0 0
    [{ cell := 3, value := 500 }, { cell := 2, value := 500 }, { cell := 0, value := 500 }]
    (by decide) (by decide) (by decide) (by decide) (by decide) (by decide) (by decide)).1
    (by decide)).2.2.2

/-! ### The sort at the end of `Attack` and `Defend` -/

/-- The two parts of a vector after the sort of its first `n` entries. -/
theorem sortPrefix_parts {α : Type} (lt : α → α → Bool) (n : Nat) (l : List α) :
    (sortPrefix lt n l).take n = sortBy lt (l.take n) ∧
      (sortPrefix lt n l).drop n = l.drop n := by
  have hA : (sortBy lt (l.take n)).length = min n l.length := by
    rw [(sortBy_perm lt _).length_eq, List.length_take]
  unfold sortPrefix
  by_cases h : n ≤ l.length
  · have hlen : (sortBy lt (l.take n)).length = n := by omega
    exact ⟨List.take_left' hlen, List.drop_left' hlen⟩
  · have hd : l.drop n = [] := List.drop_eq_nil_of_le (by omega)
    rw [hd, List.append_nil]
    exact ⟨List.take_of_length_le (by omega), List.drop_eq_nil_of_le (by omega)⟩

/-- The end of `Attack` and `Defend` on a state whose vector is `moves`: the
vector becomes `moves` with its first `n` entries sorted, where `n` is `i + 1`
after a `break` and `i` otherwise, and the value returned is `kDraw` for an empty
vector and the value of the first entry otherwise. -/
theorem finishNode_sorted (env : SearchEnv) (lt : CellEval → CellEval → Bool)
    (hasymm : ∀ a b, lt a b = true → lt b a = false)
    (hneg : ∀ a b c, lt a b = false → lt b c = false → lt a c = false)
    (st : Searcher) (hash : Hash) (depth : Int) (idx i : Nat) (kind : Kind)
    (moves : List CellEval) (n : Nat) (hm : st.getMoves idx = some moves)
    (hn : n = if i < moves.length then i + 1 else i) :
    (finishNode env lt st hash depth idx i kind).1.getMoves idx
      = some (sortPrefix lt n moves) ∧
    ((sortPrefix lt n moves).take n).Pairwise (fun x y => lt y x = false) ∧
    ((sortPrefix lt n moves).take n).Perm (moves.take n) ∧
    (sortPrefix lt n moves).drop n = moves.drop n ∧
    (finishNode env lt st hash depth idx i kind).2
      = Outcome.value (if moves = [] then kDraw
          else ((sortPrefix lt n moves).getD 0 default).value) ∧
    (moves ≠ [] → (sortPrefix lt n moves).getD 0 default
        = (sortBy lt (moves.take n)).getD 0 default ∧
      (sortBy lt (moves.take n)).getD 0 default ∈ sortBy lt (moves.take n)) := by
  obtain ⟨htake, hdrop⟩ := sortPrefix_parts lt n moves
  have hempty : (sortPrefix lt n moves).isEmpty = decide (moves = []) := by
    have hlen := (sortPrefix_perm lt n moves).length_eq
    cases hs : sortPrefix lt n moves with
    | nil =>
      rw [hs] at hlen
      have : moves = [] := List.length_eq_zero.mp hlen.symm
      simp [this]
    | cons x xs =>
      rw [hs] at hlen
      have : moves ≠ [] := by
        intro hc
        rw [hc] at hlen
        simp at hlen
      simp [this]
  refine ⟨?_, ?_, ?_, hdrop, ?_, ?_⟩
  · unfold finishNode
    rw [hm]
    simp only [← hn]
    simp only [Searcher.storeNode]
    exact getMoves_modifyMoves st idx _ moves hm
  · rw [htake]
    exact sortBy_sorted lt hasymm hneg _
  · rw [htake]
    exact sortBy_perm lt _
  · unfold finishNode
    rw [hm]
    simp only [← hn, hempty]
    by_cases he : moves = [] <;> simp [he]
  · intro hne
    have hpos : 0 < moves.length := List.length_pos.mpr hne
    have hnpos : 0 < n := by
      rw [hn]
      split <;> omega
    have hpos2 : 0 < (sortBy lt (moves.take n)).length := by
      rw [(sortBy_perm lt _).length_eq, List.length_take]
      omega
    constructor
    · unfold sortPrefix
      rw [List.getD_eq_getElem?_getD, List.getD_eq_getElem?_getD,
        List.getElem?_append_left hpos2]
    · rw [List.getD_eq_getElem?_getD, List.getElem?_eq_getElem hpos2]
      exact List.getElem_mem hpos2

/-- A pair is its first component paired with what its second component is. -/
theorem pair_of_snd {α β : Type} (p : α × β) (b : β) (h : p.2 = b) : p = (p.1, b) := by
  cases p
  simp only at h
  rw [h]

/-- A pair is what its first component is paired with its second component. -/
theorem pair_of_fst {α β : Type} (p : α × β) (a : α) (h : p.1 = a) : p = (a, p.2) := by
  cases p
  simp only at h
  rw [h]

/-- A call of `Attack` that is not answered from the table, is not at the
horizon and whose move loop is left at index `i` ends with the sort and the
store of `finishNode`. -/
theorem attackNode_eq_finishNode (env : SearchEnv) (steps : Nat) (defend : DefendCall)
    (st : Searcher) (a : AttackArgs) (found idx : Nat) (st1 st2 st3 : Searcher) (i : Nat)
    (kind : Kind)
    (hentry : nodeEntry env st true a.hash a.alpha a.beta a.depth a.level
      = (st1, NodeEntry.proceed found))
    (hexp : (if found = 0 then ExpandMoves env st1 env.attacker_ a.level else (found, st1))
      = (idx, st2))
    (hhor : ¬ (a.depth = 0 ∨ a.level > a.max_level))
    (hloop : AttackLoop env defend a idx steps st2 0 kDraw Kind.kBeta a.beta
      = (st3, LoopResult.exit i kind)) :
    AttackNode env steps defend st a
      = finishNode env CellEvalCompareAsc st3 a.hash a.depth idx i kind := by
  have hsome : ∃ m, st2.getMoves idx = some m := by
    cases steps with
    | zero => simp [AttackLoop] at hloop
    | succ k =>
      unfold AttackLoop at hloop
      split at hloop
      · simp at hloop
      · rename_i m hm
        exact ⟨m, hm⟩
  obtain ⟨m, hm⟩ := hsome
  unfold AttackNode
  simp only [hentry, hexp, hm, hhor, if_false, hloop]

/-- A call of `Defend` that is not answered from the table and whose move loop is
left at index `i` ends with the sort and the store of `finishNode`. -/
theorem defendNode_eq_finishNode (env : SearchEnv) (steps : Nat) (attack : AttackCall)
    (st : Searcher) (d : DefendArgs) (found idx : Nat) (st1 st2 st3 : Searcher) (i : Nat)
    (kind : Kind)
    (hentry : nodeEntry env st false d.hash d.alpha d.beta d.depth d.level
      = (st1, NodeEntry.proceed found))
    (hexp : (if found = 0 then st1.pushMoves [CellEval.make kZerothCell d.alpha]
      else (found, st1)) = (idx, st2))
    (hloop : DefendLoop env attack d idx steps st2 0 Kind.kAlpha d.alpha
      = (st3, LoopResult.exit i kind)) :
    DefendNode env steps attack st d
      = finishNode env CellEvalCompareDesc st3 d.hash d.depth idx i kind := by
  unfold DefendNode
  simp only [hentry, hexp, hloop]

/-- C22: when a call of `Attack` that is not answered from the table and is not
at the horizon leaves its move loop at index `i` with the vector `moves`, then
with `n = i + 1` after a `break` and `n = i` (the whole vector) otherwise, at
exit the vector is `moves` with its first `n` entries sorted by
`CellEvalCompareAsc`: the prefix is sorted and a permutation of the old prefix,
the entries after it are unchanged, and the returned value is `kDraw` for an
empty vector and otherwise `moves[0].value`, the least value of the prefix.
For `Defend` the same holds with `CellEvalCompareDesc` and the greatest value. -/
theorem C22_examined_prefix_sorted (env : SearchEnv) (steps : Nat) :
    (∀ (defend : DefendCall) (st : Searcher) (a : AttackArgs) (found idx : Nat)
      (st1 st2 st3 : Searcher) (i : Nat) (kind : Kind) (moves : List CellEval) (n : Nat),
      nodeEntry env st true a.hash a.alpha a.beta a.depth a.level
        = (st1, NodeEntry.proceed found) →
      (if found = 0 then ExpandMoves env st1 env.attacker_ a.level else (found, st1))
        = (idx, st2) →
      ¬ (a.depth = 0 ∨ a.level > a.max_level) →
      AttackLoop env defend a idx steps st2 0 kDraw Kind.kBeta a.beta
        = (st3, LoopResult.exit i kind) →
      st3.getMoves idx = some moves →
      n = (if i < moves.length then i + 1 else i) →
      (AttackNode env steps defend st a).1.getMoves idx
        = some (sortPrefix CellEvalCompareAsc n moves) ∧
      ((sortPrefix CellEvalCompareAsc n moves).take n).Pairwise
        (fun x y => CellEvalCompareAsc y x = false) ∧
      ((sortPrefix CellEvalCompareAsc n moves).take n).Perm (moves.take n) ∧
      (sortPrefix CellEvalCompareAsc n moves).drop n = moves.drop n ∧
      (AttackNode env steps defend st a).2
        = Outcome.value (if moves = [] then kDraw
            else ((sortPrefix CellEvalCompareAsc n moves).getD 0 default).value) ∧
      (moves ≠ [] → (sortPrefix CellEvalCompareAsc n moves).getD 0 default ∈ moves.take n) ∧
      (∀ ce ∈ moves.take n,
        ((sortPrefix CellEvalCompareAsc n moves).getD 0 default).value ≤ ce.value)) ∧
    (∀ (attack : AttackCall) (st : Searcher) (d : DefendArgs) (found idx : Nat)
      (st1 st2 st3 : Searcher) (i : Nat) (kind : Kind) (moves : List CellEval) (n : Nat),
      nodeEntry env st false d.hash d.alpha d.beta d.depth d.level
        = (st1, NodeEntry.proceed found) →
      (if found = 0 then st1.pushMoves [CellEval.make kZerothCell d.alpha] else (found, st1))
        = (idx, st2) →
      DefendLoop env attack d idx steps st2 0 Kind.kAlpha d.alpha
        = (st3, LoopResult.exit i kind) →
      st3.getMoves idx = some moves →
      n = (if i < moves.length then i + 1 else i) →
      (DefendNode env steps attack st d).1.getMoves idx
        = some (sortPrefix CellEvalCompareDesc n moves) ∧
      ((sortPrefix CellEvalCompareDesc n moves).take n).Pairwise
        (fun x y => CellEvalCompareDesc y x = false) ∧
      ((sortPrefix CellEvalCompareDesc n moves).take n).Perm (moves.take n) ∧
      (sortPrefix CellEvalCompareDesc n moves).drop n = moves.drop n ∧
      (DefendNode env steps attack st d).2
        = Outcome.value (if moves = [] then kDraw
            else ((sortPrefix CellEvalCompareDesc n moves).getD 0 default).value) ∧
      (moves ≠ [] → (sortPrefix CellEvalCompareDesc n moves).getD 0 default ∈ moves.take n) ∧
      (∀ ce ∈ moves.take n,
        ce.value ≤ ((sortPrefix CellEvalCompareDesc n moves).getD 0 default).value)) := by
  constructor
  · intro defend st a found idx st1 st2 st3 i kind moves n hentry hexp hhor hloop hm hn
    rw [attackNode_eq_finishNode env steps defend st a found idx st1 st2 st3 i kind hentry hexp
      hhor hloop]
    obtain ⟨h1, h2, h3, h4, h5, h6⟩ := finishNode_sorted env CellEvalCompareAsc asc_asymm
      asc_negtrans st3 a.hash a.depth idx i kind moves n hm hn
    refine ⟨h1, h2, h3, h4, h5, ?_, ?_⟩
    · intro hne
      rw [(h6 hne).1]
      exact (sortBy_perm _ _).mem_iff.mp (h6 hne).2
    · intro ce hce
      have hne : moves ≠ [] := by
        intro hc
        rw [hc] at hce
        simp at hce
      rw [(h6 hne).1]
      exact sortBy_asc_head _ ce ((sortBy_perm _ _).mem_iff.mpr hce)
  · intro attack st d found idx st1 st2 st3 i kind moves n hentry hexp hloop hm hn
    rw [defendNode_eq_finishNode env steps attack st d found idx st1 st2 st3 i kind hentry hexp
      hloop]
    obtain ⟨h1, h2, h3, h4, h5, h6⟩ := finishNode_sorted env CellEvalCompareDesc desc_asymm
      desc_negtrans st3 d.hash d.depth idx i kind moves n hm hn
    refine ⟨h1, h2, h3, h4, h5, ?_, ?_⟩
    · intro hne
      rw [(h6 hne).1]
      exact (sortBy_perm _ _).mem_iff.mp (h6 hne).2
    · intro ce hce
      have hne : moves ≠ [] := by
        intro hc
        rw [hc] at hce
        simp at hce
      rw [(h6 hne).1]
      exact sortBy_desc_head _ ce ((sortBy_perm _ _).mem_iff.mpr hce)

/-- C22 at `Attack(7, 450, 19900, 1, 1, 2, false)` on the sample board with every
nested call of `Defend` returning `300`: the first move is valued `400 <= alpha`,
the loop is left at index `0`, one entry is sorted and the entry after it stays. -/
theorem C22_examined_prefix_sorted_witness :
    (AttackNode (sampleSearchEnv 2) 20 (fun st _ => (st, Outcome.value 300))
        (Searcher.create samplePosition) ⟨7, 450, 19900, 1, 1, 2, false⟩).1.getMoves 1
      = some [{ cell := 3, value := 400 }, { cell := 2, value := 500 }] ∧
    (AttackNode (sampleSearchEnv 2) 20 (fun st _ => (st, Outcome.value 300))
        (Searcher.create samplePosition) ⟨7, 450, 19900, 1, 1, 2, false⟩).2
      = Outcome.value 400 :=
  have h := (C22_examined_prefix_sorted (sampleSearchEnv 2) 20).1
    (fun st _ => (st, Outcome.value 300)) (Searcher.create samplePosition)
    ⟨7, 450, 19900, 1, 1, 2, false⟩ 0 1 _ _ _ 0 Kind.kAlpha
    [{ cell := 3, value := 400 }, { cell := 2, value := 500 }] 1
    (pair_of_snd _ _ (by decide)) (pair_of_fst _ _ (by decide)) (by decide)
    (pair_of_snd _ _ (by decide)) (by decide) (by decide)
  ⟨h.1, h.2.2.2.2.1⟩

/-! ### `AppendInterestingNodesIfNotPresent` -/

/-- The loops of `AppendInterestingNodesIfNotPresent`: the vector keeps its
entries, and the entries appended are those of the leading run of attacker
entries with a value not above `best`, without those whose cell is among the
first `size` entries when the cells are checked. -/
theorem appendInterestingLoop_eq (best : Int) (check : Bool) (orig : List CellEval)
    (attacks extra : List CellEval) :
    appendInterestingLoop best check orig.length attacks (orig ++ extra)
      = (orig ++ extra) ++ (attacks.takeWhile (fun a => decide (a.value ≤ best))).filter
          (fun a => !(check && orig.any (fun ce => decide (ce.cell = a.cell)))) := by
  induction attacks generalizing extra with
  | nil => simp [appendInterestingLoop]
  | cons attack rest ih =>
    have hsub : SubvectorContainsCell (orig ++ extra) orig.length attack.cell
        = orig.any (fun ce => decide (ce.cell = attack.cell)) := by
      unfold SubvectorContainsCell
      rw [List.take_left]
    unfold appendInterestingLoop
    split
    · rename_i hgt
      rw [List.takeWhile_cons_of_neg (by simp; omega)]
      simp
    · rename_i hle
      rw [List.takeWhile_cons_of_pos (by simp; omega), hsub]
      split
      · rename_i hc
        rw [List.filter_cons_of_neg (by simp [hc])]
        exact ih extra
      · rename_i hc
        have hc1 : (!(check && orig.any (fun ce => decide (ce.cell = attack.cell)))) = true := by
          cases hb : (check && orig.any (fun ce => decide (ce.cell = attack.cell)))
          · rfl
          · exact absurd hb hc
        rw [List.filter_cons]
        simp only [hc1, if_true]
        have := ih (extra ++ [attack])
        rw [← List.append_assoc] at this
        rw [this]
        simp

/-- In a vector with ascending values, the leading run of entries with a value
not above `v` holds every such entry. -/
theorem takeWhile_eq_filter_of_sorted (v : Int) (l : List CellEval)
    (h : l.Pairwise (fun x y => x.value ≤ y.value)) :
    l.takeWhile (fun a => decide (a.value ≤ v)) = l.filter (fun a => decide (a.value ≤ v)) := by
  induction l with
  | nil => rfl
  | cons x xs ih =>
    rw [List.pairwise_cons] at h
    by_cases hx : x.value ≤ v
    · rw [List.takeWhile_cons_of_pos (by simpa using hx),
        List.filter_cons_of_pos (by simpa using hx), ih h.2]
    · rw [List.takeWhile_cons_of_neg (by simpa using hx),
        List.filter_cons_of_neg (by simpa using hx)]
      symm
      rw [List.filter_eq_nil_iff]
      intro a ha
      have := h.1 a ha
      simp only [decide_eq_true_eq]
      omega

/-- In a vector with ascending values, the entries with a value not above the
first value are those with the first value. -/
theorem best_run_eq_filter (attacks : List CellEval)
    (h : attacks.Pairwise (fun x y => x.value ≤ y.value)) (p : CellEval → Bool) :
    (attacks.takeWhile (fun a => decide (a.value ≤ (attacks.getD 0 default).value))).filter p
      = attacks.filter (fun a => decide (a.value = (attacks.getD 0 default).value) && p a) := by
  rw [takeWhile_eq_filter_of_sorted _ attacks h, List.filter_filter]
  apply List.filter_congr
  intro a ha
  have hge : (attacks.getD 0 default).value ≤ a.value := by
    cases attacks with
    | nil => simp at ha
    | cons x xs =>
      rw [List.pairwise_cons] at h
      simp only [List.getD_cons_zero]
      rcases List.mem_cons.mp ha with rfl | hmem
      · exact le_refl _
      · exact h.1 a hmem
  by_cases hp : p a
  · simp only [hp, Bool.true_and, Bool.and_true]
    rw [decide_eq_decide]
    constructor
    · intro h1; omega
    · intro h1; omega
  · simp [hp]

/-- What `AppendInterestingNodesIfNotPresent` yields for an attacker vector with
ascending values: nothing when `moves` is empty (`assert(size > 1)`), `moves`
followed by every attacker entry with the first value when `moves` has one entry,
and `moves` followed by those of these entries whose cell is not in `moves`
otherwise. -/
theorem appendInterestingNodes_eq (attacks moves : List CellEval)
    (hsorted : attacks.Pairwise (fun x y => x.value ≤ y.value)) :
    (moves.length > 1 → AppendInterestingNodes attacks moves
      = some (moves ++ attacks.filter (fun a =>
          decide (a.value = (attacks.getD 0 default).value) &&
            !(moves.any (fun ce => decide (ce.cell = a.cell)))))) ∧
    (moves.length = 1 → AppendInterestingNodes attacks moves
      = some (moves ++ attacks.filter (fun a =>
          decide (a.value = (attacks.getD 0 default).value)))) ∧
    (moves.length = 0 → AppendInterestingNodes attacks moves = none) := by
  refine ⟨?_, ?_, ?_⟩
  · intro hlen
    unfold AppendInterestingNodes
    simp only
    rw [if_neg (by omega), if_pos hlen]
    have h := appendInterestingLoop_eq (attacks.getD 0 default).value true moves attacks []
    simp only [List.append_nil] at h
    rw [h, best_run_eq_filter attacks hsorted]
    simp only [Bool.true_and]
  · intro hlen
    unfold AppendInterestingNodes
    simp only
    rw [if_pos hlen]
    have h := appendInterestingLoop_eq (attacks.getD 0 default).value false moves attacks []
    simp only [List.append_nil] at h
    rw [h, best_run_eq_filter attacks hsorted]
    simp only [Bool.false_and, Bool.not_false, Bool.and_true]
  · intro hlen
    unfold AppendInterestingNodes
    simp only
    rw [if_neg (by omega), if_neg (by omega)]

/-- C23, refuted as stated: for the defender vector `[(pass, 500)]` and the
attacker vector `[(2, 500), (pass, 500), (3, 10100)]`, both without duplicate
cells and the second sorted by `CellEvalCompareAsc`, the call appends `(2, 500)`
and `(pass, 500)`: the second appended entry has the cell of the original entry,
and the resulting vector holds the pass cell twice. -/
theorem C23_single_entry_vector_gets_duplicate :
    ([({ cell := 0, value := 500 } : CellEval)].map (fun ce => ce.cell)).Nodup ∧
    ([({ cell := 2, value := 500 } : CellEval), { cell := 0, value := 500 },
        { cell := 3, value := 10100 }].map (fun ce => ce.cell)).Nodup ∧
    [({ cell := 2, value := 500 } : CellEval), { cell := 0, value := 500 },
        { cell := 3, value := 10100 }].Pairwise (fun x y => CellEvalCompareAsc y x = false) ∧
    AppendInterestingNodes
        [{ cell := 2, value := 500 }, { cell := 0, value := 500 }, { cell := 3, value := 10100 }]
        [{ cell := 0, value := 500 }]
      = some [{ cell := 0, value := 500 }, { cell := 2, value := 500 },
          { cell := 0, value := 500 }] ∧
    ¬ ([({ cell := 0, value := 500 } : CellEval), { cell := 2, value := 500 },
        { cell := 0, value := 500 }].map (fun ce => ce.cell)).Nodup := by
  decide

/-- C23, amended: for a defender vector `moves` without duplicate cells and an
attacker vector `attacks` with ascending values and without duplicate cells, the
call keeps the entries of `moves` in place and appends, in order, entries of
`attacks` with the value `attacks[0].value`.  When `moves` has more than one
entry these are exactly the ones whose cell is not in `moves`, and the result
has no duplicate cells.  When `moves` has one entry all of them are appended,
whatever their cell, and the result has no duplicate cells exactly when none of
them has the cell of that entry.  When `moves` is empty `assert(size > 1)`
fails. -/
theorem C23_append_keeps_and_filters (attacks moves : List CellEval)
    (hmoves : (moves.map (fun ce => ce.cell)).Nodup)
    (hsorted : attacks.Pairwise (fun x y => x.value ≤ y.value))
    (hattacks : (attacks.map (fun ce => ce.cell)).Nodup) :
    (moves.length > 1 →
      AppendInterestingNodes attacks moves
        = some (moves ++ attacks.filter (fun a =>
            decide (a.value = (attacks.getD 0 default).value) &&
              !(moves.any (fun ce => decide (ce.cell = a.cell))))) ∧
      ((moves ++ attacks.filter (fun a =>
            decide (a.value = (attacks.getD 0 default).value) &&
              !(moves.any (fun ce => decide (ce.cell = a.cell))))).map
          (fun ce => ce.cell)).Nodup) ∧
    (moves.length = 1 →
      AppendInterestingNodes attacks moves
        = some (moves ++ attacks.filter (fun a =>
            decide (a.value = (attacks.getD 0 default).value))) ∧
      (((moves ++ attacks.filter (fun a =>
            decide (a.value = (attacks.getD 0 default).value))).map
          (fun ce => ce.cell)).Nodup ↔
        ∀ a ∈ attacks, a.value = (attacks.getD 0 default).value →
          ∀ ce ∈ moves, ce.cell ≠ a.cell)) ∧
    (moves.length = 0 → AppendInterestingNodes attacks moves = none) := by
  obtain ⟨h1, h2, h3⟩ := appendInterestingNodes_eq attacks moves hsorted
  have hsub : ∀ p : CellEval → Bool, ((attacks.filter p).map (fun ce => ce.cell)).Nodup :=
    fun p => hattacks.sublist ((List.filter_sublist attacks).map _)
  refine ⟨?_, ?_, h3⟩
  · intro hlen
    refine ⟨h1 hlen, ?_⟩
    rw [List.map_append, List.nodup_append]
    refine ⟨hmoves, hsub _, ?_⟩
    intro c hc1 hc2
    obtain ⟨ce, hce, rfl⟩ := List.mem_map.mp hc1
    obtain ⟨a, ha, hac⟩ := List.mem_map.mp hc2
    have hp := (List.mem_filter.mp ha).2
    simp only [Bool.and_eq_true, decide_eq_true_eq, Bool.not_eq_true', List.any_eq_false] at hp
    exact hp.2 ce hce hac.symm
  · intro hlen
    refine ⟨h2 hlen, ?_⟩
    rw [List.map_append, List.nodup_append]
    constructor
    · rintro ⟨_, _, hdis⟩ a ha hav ce hce heq
      apply hdis (List.mem_map.mpr ⟨ce, hce, rfl⟩)
      exact List.mem_map.mpr ⟨a, List.mem_filter.mpr ⟨ha, by simpa using hav⟩, heq.symm⟩
    · intro hall
      refine ⟨hmoves, hsub _, ?_⟩
      intro c hc1 hc2
      obtain ⟨ce, hce, rfl⟩ := List.mem_map.mp hc1
      obtain ⟨a, ha, hac⟩ := List.mem_map.mp hc2
      have hmem := List.mem_filter.mp ha
      exact hall a hmem.1 (by simpa using hmem.2) ce hce hac.symm

/-- C23 amended, at the defender vector `[(pass, 498), (3, 400)]` and the attacker
vector `[(3, 400), (2, 400), (1, 700)]`: the entry `(2, 400)` is appended. -/
theorem C23_append_keeps_and_filters_witness :
    AppendInterestingNodes
        [{ cell := 3, value := 400 }, { cell := 2, value := 400 }, { cell := 1, value := 700 }]
        [{ cell := 0, value := 498 }, { cell := 3, value := 400 }]
      = some [{ cell := 0, value := 498 }, { cell := 3, value := 400 },
          { cell := 2, value := 400 }] :=
  ((C23_append_keeps_and_filters
    [{ cell := 3, value := 400 }, { cell := 2, value := 400 }, { cell := 1, value := 700 }]
    [{ cell := 0, value := 498 }, { cell := 3, value := 400 }]
    (by decide) (by decide) (by decide)).1 (by decide)).1

/-- The attacker search on the sample board reaches the case of a defender vector
with one entry and an attacker vector that holds the pass entry among its best:
the vector of the defender node under `kAttackerPassHash` ends with two pass
entries. -/
theorem search_appends_second_pass_entry :
    (SearchForAttackerInternal (sampleSearchEnv 2) 20 10 5
        (Searcher.create samplePosition)).1.getMoves 6
      = some [{ cell := 0, value := 500 }, { cell := 0, value := 500 }] ∧
    (FindValue (SearchForAttackerInternal (sampleSearchEnv 2) 20 10 5
        (Searcher.create samplePosition)).1.tt_ kAttackerPassHash).map
        (fun e => e.moves_index) = some 6 := by
  decide

/-! ### `ExpandMoves` after the second move -/

/-- The candidates of `ExpandMoves` in a position with two stones or more: one
entry for every move index whose cell is empty and whose evaluation is below the
baseline or whose cell is in the mask or twice adjacent to it. -/
theorem expandCandidates_later_mem (b : BoardEnv) (position : Position) (player : Player)
    (hcount : position.MoveCount ≥ 2) (ce : CellEval) :
    ce ∈ expandCandidates b position player ↔
      ∃ i : Nat, i < b.NumAvailableMoves position ∧
        position.CellIsEmpty (b.MoveIndexToCell (i : Int)) = true ∧
        (EvaluateForPlayer (b.evaluator position player) (i : Int)
            < b.get_baseline_distance (EvaluateForPlayer (b.evaluator position player)) ∨
          IsInMaskOrTwiceAdjacent b (b.MoveIndexToCell (i : Int))
            (b.FillWithNeighborMask position player) = true) ∧
        ce = CellEval.make (b.MoveIndexToCell (i : Int))
          (kPotentialScale * EvaluateForPlayer (b.evaluator position player) (i : Int)) := by
  unfold expandCandidates
  rw [if_neg (by omega), if_neg (by omega)]
  simp only [List.mem_filterMap, emptyMoves, List.mem_range]
  constructor
  · rintro ⟨mc, ⟨i, hi, hmc⟩, hsome⟩
    by_cases he : position.CellIsEmpty (b.MoveIndexToCell (i : Int)) = true
    · rw [if_pos he] at hmc
      have hmc1 := Option.some.inj hmc
      subst hmc1
      simp only at hsome
      split at hsome
      · rename_i hcond
        exact ⟨i, hi, he, hcond, (Option.some.inj hsome).symm⟩
      · cases hsome
    · rw [if_neg he] at hmc
      cases hmc
  · rintro ⟨i, hi, he, hcond, rfl⟩
    refine ⟨((i : Int), b.MoveIndexToCell (i : Int)), ⟨i, hi, by rw [if_pos he]⟩, ?_⟩
    simp only
    rw [if_pos hcond]

/-- C24: for every position with at least two moves played, given that
`CellToMoveIndex` undoes `MoveIndexToCell` on the available move indices, the
list built by `ExpandMoves(player, level)` contains a real cell `c` (a cell
other than `kZerothCell`) if and only if `c` is the cell of a move index, is empty, and
`eval(c) < baseline` or `c` is in the mask-or-twice-adjacent set of the player's
neighbour mask, where `eval = EvaluateForPlayer(position, player)` and
`baseline = eval.get_baseline_distance()`; each such entry holds
`kPotentialScale * eval(c)` as stored in the 16-bit field, which is that number
when it fits; and the list is sorted by `CellEvalCompareAsc`. -/
theorem C24_expand_moves_candidates (b : BoardEnv) (position : Position) (player : Player)
    (level : Int) (hcount : position.MoveCount ≥ 2)
    (hround : ∀ i : Nat, i < b.NumAvailableMoves position →
      b.CellToMoveIndex (b.MoveIndexToCell (i : Int)) = (i : Int)) :
    (∀ c : Cell, c ≠ kZerothCell →
      ((∃ ce ∈ ExpandMovesList b position player level, ce.cell = c) ↔
        ((∃ i : Nat, i < b.NumAvailableMoves position ∧ b.MoveIndexToCell (i : Int) = c) ∧
          position.CellIsEmpty c = true ∧
          (EvaluateForPlayer (b.evaluator position player) (b.CellToMoveIndex c)
              < b.get_baseline_distance (EvaluateForPlayer (b.evaluator position player)) ∨
            IsInMaskOrTwiceAdjacent b c (b.FillWithNeighborMask position player) = true)))) ∧
    (∀ ce ∈ ExpandMovesList b position player level, ce.cell ≠ kZerothCell →
      ce.value = toInt16 (kPotentialScale *
          EvaluateForPlayer (b.evaluator position player) (b.CellToMoveIndex ce.cell)) ∧
      (-32768 ≤ kPotentialScale *
          EvaluateForPlayer (b.evaluator position player) (b.CellToMoveIndex ce.cell) →
        kPotentialScale *
          EvaluateForPlayer (b.evaluator position player) (b.CellToMoveIndex ce.cell) ≤ 32767 →
        ce.value = kPotentialScale *
          EvaluateForPlayer (b.evaluator position player) (b.CellToMoveIndex ce.cell))) ∧
    (ExpandMovesList b position player level).Pairwise
      (fun x y => CellEvalCompareAsc y x = false) := by
  have hmem : ∀ ce, ce ∈ ExpandMovesList b position player level → ce.cell ≠ kZerothCell →
      ce ∈ expandCandidates b position player := by
    intro ce hce hcell
    unfold ExpandMovesList at hce
    have h1 := (sortBy_perm _ _).mem_iff.mp hce
    split at h1
    · rcases List.mem_append.mp h1 with h2 | h2
      · exact h2
      · rw [List.mem_singleton] at h2
        rw [h2] at hcell
        exact absurd rfl hcell
    · exact h1
  have hmem2 : ∀ ce, ce ∈ expandCandidates b position player →
      ce ∈ ExpandMovesList b position player level := by
    intro ce hce
    unfold ExpandMovesList
    apply (sortBy_perm _ _).mem_iff.mpr
    split
    · exact List.mem_append_left _ hce
    · exact hce
  refine ⟨?_, ?_, ?_⟩
  · intro c hc
    constructor
    · rintro ⟨ce, hce, rfl⟩
      obtain ⟨i, hi, he, hcond, rfl⟩ :=
        (expandCandidates_later_mem b position player hcount ce).mp (hmem ce hce hc)
      simp only [CellEval.make]
      rw [hround i hi]
      exact ⟨⟨i, hi, rfl⟩, he, hcond⟩
    · rintro ⟨⟨i, hi, rfl⟩, he, hcond⟩
      rw [hround i hi] at hcond
      exact ⟨_, hmem2 _ ((expandCandidates_later_mem b position player hcount _).mpr
        ⟨i, hi, he, hcond, rfl⟩), rfl⟩
  · intro ce hce hcell
    obtain ⟨i, hi, he, hcond, rfl⟩ :=
      (expandCandidates_later_mem b position player hcount ce).mp (hmem ce hce hcell)
    simp only [CellEval.make]
    rw [hround i hi]
    exact ⟨rfl, fun h1 h2 => toInt16_of_range _ ⟨h1, h2⟩⟩
  · unfold ExpandMovesList
    exact sortBy_sorted CellEvalCompareAsc asc_asymm asc_negtrans _

/-- C24 on the sample board with a white stone on cell `2` and a black stone on
cell `1`: the list for White at level `1` is `[(3, 400)]`. -/
theorem C24_expand_moves_candidates_witness :
    ExpandMovesList sampleBoard { moves := [(Player.kWhite, 2), (Player.kBlack, 1)] }
        Player.kWhite 1 = [CellEval.mk 3 400] ∧
    ((∃ ce ∈ ExpandMovesList sampleBoard { moves := [(Player.kWhite, 2), (Player.kBlack, 1)] }
        Player.kWhite 1, ce.cell = 3) ↔
      ((∃ i : Nat, i < sampleBoard.NumAvailableMoves
          { moves := [(Player.kWhite, 2), (Player.kBlack, 1)] } ∧
          sampleBoard.MoveIndexToCell (i : Int) = 3) ∧
        Position.CellIsEmpty { moves := [(Player.kWhite, 2), (Player.kBlack, 1)] } 3 = true ∧
        (EvaluateForPlayer (sampleBoard.evaluator
              { moves := [(Player.kWhite, 2), (Player.kBlack, 1)] } Player.kWhite)
              (sampleBoard.CellToMoveIndex 3)
            < sampleBoard.get_baseline_distance (EvaluateForPlayer (sampleBoard.evaluator
              { moves := [(Player.kWhite, 2), (Player.kBlack, 1)] } Player.kWhite)) ∨
          IsInMaskOrTwiceAdjacent sampleBoard 3 (sampleBoard.FillWithNeighborMask
            { moves := [(Player.kWhite, 2), (Player.kBlack, 1)] } Player.kWhite) = true))) :=
  ⟨by decide,
   (C24_expand_moves_candidates sampleBoard { moves := [(Player.kWhite, 2), (Player.kBlack, 1)] }
    Player.kWhite 1 (by decide)
    (by
      intro i _
      simp only [sampleBoard]
      unfold MoveIndex
      omega)).1 3 (by decide)⟩

/-! ### `knowncommand` and the dispatch of `HandleCommand` -/

/-- The answer of `KnownCommand` is `true` exactly when the table holds its first
argument as it stands. -/
theorem knownCommand_true_iff (fe : Frontend) (word : String) (rest : List String) :
    (fe.KnownCommand (word :: rest)).answers.getLast? = some (kSuccess, "true") ↔
      (findCommand word kCommands).isSome = true := by
  unfold Frontend.KnownCommand
  simp only
  split
  · rename_i h
    rw [h]
    simp [Frontend.Answer]
  · rename_i h
    rw [h]
    simp [Frontend.Answer]

/-- C25, a defect of the code: the line `list_commands` is dispatched to
`ListCommands`, because `HandleCommand` removes the underscores of the command
word before the table lookup, while the line `knowncommand list_commands` is
answered `false`, because `KnownCommand` compares its argument as it stands; the
same holds for the line `known_command known_command`. -/
theorem C25_knowncommand_denies_dispatched_word :
    HandleCommand "list_commands" = Dispatch.call "ListCommands" [] ∧
    HandleCommand "knowncommand list_commands"
      = Dispatch.call "KnownCommand" ["list_commands"] ∧
    knownCommandAnswer oneStoneFrontend "knowncommand list_commands" = some "false" ∧
    HandleCommand "known_command" = Dispatch.call "KnownCommand" [] ∧
    knownCommandAnswer oneStoneFrontend "known_command known_command" = some "false" ∧
    knownCommandAnswer oneStoneFrontend "knowncommand listcommands" = some "true" := by
  decide

/-! ### The cell that `SuggestMove` returns -/

/-- C26, a defect of the code: on the sample board with a black stone on cell `1`
(move index `0`) and White to move, the two searches leave the root vectors
`[(2, 500), (pass, 500), (3, 10100)]` and `[(pass, 5100), (2, -201), (3, -201)]`,
which hold only empty cells and the pass entry; `FillEvaluation` gives every
move index without an entry, the occupied cell included, the value of the pass
entry; the final loop of `SuggestMove` runs over every move index, the scores are
`4600, -701, -10301`, and it selects move index `0`, the occupied cell `1`,
although the cells `2` and `3` are empty; `Engine::Move` refuses the cell and
`Genmove` ends the program. -/
theorem C26_suggest_move_selects_occupied_cell :
    (SearchForAttackerInternal (sampleSearchEnv 2) 20 10 5
        (Searcher.create samplePosition)).1.getMoves 1
      = some [{ cell := 2, value := 500 }, { cell := 0, value := 500 },
          { cell := 3, value := 10100 }] ∧
    (SearchForDefenderInternal (sampleDefendEnv 2) 20 10 5
        (Searcher.create samplePosition)).1.getMoves 1
      = some [{ cell := 0, value := 5100 }, { cell := 2, value := -201 },
          { cell := 3, value := -201 }] ∧
    SuggestMoveLoop (-1) (sampleBoard.NumAvailableMoves samplePosition)
        (fillCells sampleBoard.CellToMoveIndex
          [{ cell := 0, value := 5100 }, { cell := 2, value := -201 },
            { cell := 3, value := -201 }]
          (SetAllMovesTo (fillNullValue [{ cell := 0, value := 5100 },
            { cell := 2, value := -201 }, { cell := 3, value := -201 }])))
        (fillCells sampleBoard.CellToMoveIndex
          [{ cell := 2, value := 500 }, { cell := 0, value := 500 },
            { cell := 3, value := 10100 }]
          (SetAllMovesTo (fillNullValue [{ cell := 2, value := 500 },
            { cell := 0, value := 500 }, { cell := 3, value := 10100 }])))
      = (4600, 0) ∧
    SuggestMoveAfterJoin (-1) samplePosition
        (sampleSearchEnv 2)
        (SearchForAttackerInternal (sampleSearchEnv 2) 20 10 5 (Searcher.create samplePosition)).1
        (sampleDefendEnv 2)
        (SearchForDefenderInternal (sampleDefendEnv 2) 20 10 5 (Searcher.create samplePosition)).1
      = some 1 ∧
    samplePosition.CellIsEmpty 1 = false ∧
    samplePosition.CellIsEmpty 2 = true ∧
    sampleExternals.FromString "a1" = 1 ∧
    GenmovePlay sampleExternals
        { engine_ := { position_ := samplePosition, has_swapped_ := false },
          result_ := kNoneWon, command_succeeded_ := true, player_ := Player.kWhite,
          answers := [] }
        Player.kWhite "a1" = none := by
  decide

/-! ### Nodes of kind `kExact` -/

/-- The lower bound `kWon` is not kept by `Attack` as such: on the sample board
with a white and a black stone and Black attacking, `Attack(7, -20100, 19900, 1,
1, 2, false)` meets a move that wins at once and leaves the node with kind
`kAlpha`, value `kWon` and the entry `kWon` in its vector; a second call on the
same node at level `3`, beyond the level cap, is at the horizon, takes
`moves[0].value - mobility = kWon - 1` from that vector and stores it with kind
`kExact`. -/
theorem exact_entry_below_kWon_on_revisit :
    FindValue (Attack (sampleDefendEnv 2) 20 10
        (Searcher.create { moves := [(Player.kWhite, 2), (Player.kBlack, 1)] })
        ⟨7, -20100, 19900, 1, 1, 2, false⟩).1.tt_ 7
      = some { value := kWon, kind := Kind.kAlpha, depth := 1, moves_index := 1 } ∧
    FindValue (Attack (sampleDefendEnv 2) 20 10
        (Attack (sampleDefendEnv 2) 20 10
          (Searcher.create { moves := [(Player.kWhite, 2), (Player.kBlack, 1)] })
          ⟨7, -20100, 19900, 1, 1, 2, false⟩).1
        ⟨7, -20100, 19900, 1, 3, 2, false⟩).1.tt_ 7
      = some { value := kWon - 1, kind := Kind.kExact, depth := 1, moves_index := 1 } := by
  decide

/-! ### Bounds of the values in a run that meets no node twice -/

/-- A step that leaves the arena alone changes no vector. -/
theorem untouched_of_eq (n : Nat) (st st' : Searcher) (h : st'.vectors_ = st.vectors_) :
    Untouched n st st' := by
  intro idx _
  unfold Searcher.getMoves
  rw [h]

/-- A change of a vector leaves the length of the arena as it is. -/
theorem vectors_length_modifyMoves (st : Searcher) (idx : Nat)
    (f : List CellEval → List CellEval) :
    (st.modifyMoves idx f).vectors_.length = st.vectors_.length := by
  unfold Searcher.modifyMoves
  split
  · rfl
  · simp

/-- The evaluation of the sample board is `4` at every move index. -/
theorem sample_evaluation (position : Position) (player : Player) (m : MoveIndex) :
    EvaluateForPlayer (sampleBoard.evaluator position player) m = 4 := by
  rfl

end Antares
